import Mathlib

/-!
Verification development for the npm-dependency-guardian static capability
extractor.  The JavaScript sources are shallowly embedded: JS strings are
lists of characters, JS `Set` objects are duplicate-free lists in insertion
order, JS plain objects used as maps are association lists in insertion
order, and JS exceptions (`throw`) are modelled with `Except`.  Functions
keep the names of the functions of the source files they embed
(`src/extractModules.js`, `src/extractGlobals.js`, `src/astUtils.js`,
`src/setUtils.js`, `src/main.js`, `src/dependencyGraph.js`).
-/

/-- Strings of the embedded JavaScript program, as lists of characters.
JS string concatenation is `List.append`; comparison is lexicographic. -/
abbrev Str := List Char

/-- Conversion from a Lean string literal to an embedded string. -/
def strLit (s : String) : Str := s.data

/-- Primitive values that can appear in acorn `Literal` nodes and flow into
the import sets (strings, numbers, booleans, null).  JS numbers are
modelled as integers; no analyzed code path depends on fractional values. -/
inductive JSVal where
  | str (s : Str)
  | num (n : Int)
  | bool (b : Bool)
  | null
deriving DecidableEq, Repr

/-- Template-literal stringification `${v}` of a literal value. -/
def jsValToStr : JSVal → Str
  | .str s => s
  | .num n => (toString n).data
  | .bool true => strLit ("true")
  | .bool false => strLit ("false")
  | .null => strLit ("null")

/-- The check `typeof v === 'string'` on a literal value. -/
def JSVal.isString : JSVal → Bool
  | .str _ => true
  | _ => false

/-! ## Set utilities (src/setUtils.js)

The source patches the JS `Set` prototype with `union`, `intersection`,
`difference`, `filter` and `map`.  A JS `Set` is a duplicate-free
collection that iterates in insertion order; it is modelled as a
duplicate-free list, with `setAdd` as the `Set.prototype.add` operation. -/

/-- JS `Set.prototype.add`: append the element unless already present. -/
def setAdd [DecidableEq α] (l : List α) (a : α) : List α :=
  if a ∈ l then l else l ++ [a]

/-- Construction of a `new Set(iterable)`: insert all elements in order. -/
def listToSet [DecidableEq α] (l : List α) : List α :=
  l.foldl setAdd []

/-- Method `setUnion` of src/setUtils.js: a new set holding the elements of
the receiver followed by the elements of the argument. -/
def setUnion [DecidableEq α] (this other : List α) : List α :=
  other.foldl setAdd (this.foldl setAdd [])

/-- Method `setIntersection` of src/setUtils.js. -/
def setIntersection [DecidableEq α] (this : List α) (otherHas : α → Bool) : List α :=
  this.foldl (fun s e => if otherHas e then setAdd s e else s) []

/-- Method `setFilter` of src/setUtils.js. -/
def setFilter [DecidableEq α] (this : List α) (filter : α → Bool) : List α :=
  this.foldl (fun s e => if filter e then setAdd s e else s) []

/-- Method `setMap` of src/setUtils.js. -/
def setMap [DecidableEq α] [DecidableEq β] (this : List α) (map : α → β) : List β :=
  this.foldl (fun s e => setAdd s (map e)) []

/-! ## Association lists: JS objects used as string-keyed maps

JS objects preserve (string-) key insertion order; assigning to an
existing key keeps its position, assigning to a fresh key appends it. -/

/-- Lookup `obj[k]` in an object modelled as an association list. -/
def alGet [DecidableEq κ] (m : List (κ × ν)) (k : κ) : Option ν :=
  match m with
  | [] => none
  | (k', v) :: rest => if k' = k then some v else alGet rest k

/-- The check `Object.keys(obj).includes(k)` (also `hasOwnProperty`). -/
def alHas [DecidableEq κ] (m : List (κ × ν)) (k : κ) : Bool :=
  (alGet m k).isSome

/-- Assignment `obj[k] = v`: update in place, or append a fresh key. -/
def alSet [DecidableEq κ] (m : List (κ × ν)) (k : κ) (v : ν) : List (κ × ν) :=
  match m with
  | [] => [(k, v)]
  | (k', v') :: rest => if k' = k then (k, v) :: rest else (k', v') :: alSet rest k v

/-- Key list `Object.keys(obj)` in insertion order. -/
def alKeys (m : List (κ × ν)) : List κ :=
  m.map Prod.fst

/-! ## String splitting

`String.prototype.split` with a single-character separator, together with
the inverse `Array.prototype.join`. -/

/-- JS `s.split(c)` for a one-character separator `c`. -/
def splitOnChar (c : Char) : Str → List Str
  | [] => [[]]
  | x :: xs =>
    if x = c then [] :: splitOnChar c xs
    else
      match splitOnChar c xs with
      | [] => [[x]]
      | h :: t => (x :: h) :: t

/-- JS `parts.join(c)` for a one-character separator `c`. -/
def joinWithChar (c : Char) : List Str → Str
  | [] => []
  | [p] => p
  | p :: ps => p ++ c :: joinWithChar c ps

/-- Worker for `splitOnSeq`, recursing on the scanned string. -/
def splitOnSeqGo (sep : Str) (hpos : 0 < sep.length) : Str → List Str
  | [] => [[]]
  | x :: xs =>
    if sep.isPrefixOf (x :: xs) then
      match splitOnSeqGo sep hpos ((x :: xs).drop sep.length) with
      | [] => [[]]
      | parts => [] :: parts
    else
      match splitOnSeqGo sep hpos xs with
      | [] => [[x]]
      | h :: t => (x :: h) :: t
  termination_by s => s.length
  decreasing_by
    · simp only [List.length_drop, List.length_cons]
      omega
    · simp

/-- JS `s.split(sep)` for a non-empty multi-character separator (used with
the separator `node_modules/`); occurrences are consumed left to right. -/
def splitOnSeq (sep : Str) (s : Str) : List Str :=
  if hsep : sep.length = 0 then [s]
  else splitOnSeqGo sep (Nat.pos_of_ne_zero hsep) s

/-- The suffix check `s.endsWith(suffix)`. -/
def strEndsWith (s suffix : Str) : Bool :=
  suffix.isSuffixOf s

/-- Lexicographic comparison used to model the default JS `Array.sort`
comparator on strings (comparison of code units). -/
def strLe (a b : Str) : Bool :=
  decide (a ≤ b)

/-! ## MemberAccess (src/astUtils.js, class MemberAccess) -/

/-- Class `MemberAccess`: access to a member of a module. -/
structure MemberAccess where
  module : Str
  memberName : Str
deriving DecidableEq, Repr

/-- Static method `MemberAccess.fromString`: split the access string on
dots, join all parts but the last back together as the module, and take
the last part as the member name. -/
def MemberAccess.fromString (accessString : Str) : MemberAccess :=
  let splits := splitOnChar '.' accessString
  { module := joinWithChar '.' splits.dropLast
    memberName := splits.getLastD [] }

/-- Method `MemberAccess.toString`: the string `module.memberName`. -/
def MemberAccess.toStr (ma : MemberAccess) : Str :=
  ma.module ++ '.' :: ma.memberName

/-! ### Lemmas about splitting -/

theorem splitOnChar_ne_nil (c : Char) (s : Str) : splitOnChar c s ≠ [] := by
  cases s with
  | nil => simp [splitOnChar]
  | cons x xs =>
    simp only [splitOnChar]
    split
    · simp
    · split <;> simp

theorem join_splitOnChar (c : Char) (s : Str) :
    joinWithChar c (splitOnChar c s) = s := by
  induction s with
  | nil => simp [splitOnChar, joinWithChar]
  | cons x xs ih =>
    simp only [splitOnChar]
    by_cases hx : x = c
    · subst hx
      simp only [if_pos rfl]
      cases hs : splitOnChar x xs with
      | nil => exact absurd hs (splitOnChar_ne_nil x xs)
      | cons h t =>
        simp only [joinWithChar]
        rw [hs] at ih
        simp [← ih, joinWithChar]
    · simp only [if_neg hx]
      cases hs : splitOnChar c xs with
      | nil => exact absurd hs (splitOnChar_ne_nil c xs)
      | cons h t =>
        rw [hs] at ih
        cases t with
        | nil =>
          simp only [joinWithChar] at ih ⊢
          simp [ih]
        | cons p ps =>
          simp only [joinWithChar] at ih ⊢
          simp [← ih]

theorem notMem_getLast_splitOnChar (c : Char) (s : Str) :
    c ∉ (splitOnChar c s).getLastD [] := by
  induction s with
  | nil => simp [splitOnChar]
  | cons x xs ih =>
    simp only [splitOnChar]
    by_cases hx : x = c
    · subst hx
      simp only [if_pos rfl]
      cases hs : splitOnChar x xs with
      | nil => exact absurd hs (splitOnChar_ne_nil x xs)
      | cons h t =>
        rw [hs] at ih
        simpa [List.getLastD_cons] using ih
    · simp only [if_neg hx]
      cases hs : splitOnChar c xs with
      | nil => exact absurd hs (splitOnChar_ne_nil c xs)
      | cons h t =>
        rw [hs] at ih
        cases t with
        | nil =>
          simp only [List.getLastD_cons, List.getLastD_nil] at ih ⊢
          intro hmem
          rcases List.mem_cons.mp hmem with h1 | h1
          · exact hx h1.symm
          · exact ih h1
        | cons p ps =>
          simpa [List.getLastD_cons] using ih

theorem length_splitOnChar_ge_two (c : Char) (s : Str) (hc : c ∈ s) :
    2 ≤ (splitOnChar c s).length := by
  induction s with
  | nil => simp at hc
  | cons x xs ih =>
    simp only [splitOnChar]
    by_cases hx : x = c
    · subst hx
      simp only [if_pos rfl]
      have := splitOnChar_ne_nil x xs
      cases hs : splitOnChar x xs with
      | nil => exact absurd hs this
      | cons h t => simp
    · simp only [if_neg hx]
      have hc' : c ∈ xs := by
        rcases List.mem_cons.mp hc with h1 | h1
        · exact absurd h1.symm hx
        · exact h1
      cases hs : splitOnChar c xs with
      | nil => exact absurd hs (splitOnChar_ne_nil c xs)
      | cons h t =>
        rw [hs] at ih
        have := ih hc'
        simp at this ⊢
        omega

theorem joinWithChar_cons_of_ne_nil (c : Char) (p : Str) (ps : List Str) (h : ps ≠ []) :
    joinWithChar c (p :: ps) = p ++ c :: joinWithChar c ps := by
  cases ps with
  | nil => exact absurd rfl h
  | cons q t => rfl

theorem joinWithChar_eq_dropLast (c : Char) :
    ∀ (parts : List Str), 2 ≤ parts.length →
      joinWithChar c parts = joinWithChar c parts.dropLast ++ c :: parts.getLastD [] := by
  intro parts
  match parts with
  | [] => intro h; simp at h
  | [p] => intro h; simp at h
  | p :: q :: qs =>
    intro _
    induction qs generalizing p q with
    | nil =>
      simp [joinWithChar, List.getLastD_cons, List.getLastD_nil]
    | cons r rs ih =>
      have hIH := ih q r (by simp)
      have hA := joinWithChar_cons_of_ne_nil c p (q :: r :: rs) (by simp)
      have hdl : (p :: q :: r :: rs : List Str).dropLast = p :: (q :: r :: rs).dropLast := by
        simp
      have hdlne : ((q :: r :: rs : List Str).dropLast) ≠ [] := by
        simp
      have hB := joinWithChar_cons_of_ne_nil c p ((q :: r :: rs : List Str).dropLast) hdlne
      rw [hA, hIH, hdl, hB]
      simp [List.getLastD_cons]

/-- Decomposition: for a string containing a dot, `fromString` splits it
into the part before the last dot and the dot-free part after it. -/
theorem MemberAccess.fromString_decomp (s : Str) (hs : '.' ∈ s) :
    s = (MemberAccess.fromString s).module ++ '.' :: (MemberAccess.fromString s).memberName ∧
      '.' ∉ (MemberAccess.fromString s).memberName := by
  have hlen := length_splitOnChar_ge_two '.' s hs
  have hjoin := join_splitOnChar '.' s
  have hlast := notMem_getLast_splitOnChar '.' s
  refine ⟨?_, hlast⟩
  conv_lhs => rw [← hjoin]
  simp only [MemberAccess.fromString]
  exact joinWithChar_eq_dropLast '.' (splitOnChar '.' s) hlen

/-- Uniqueness of the rightmost-split decomposition. -/
theorem last_split_unique {c : Char} :
    ∀ (a a' b b' : Str), c ∉ b → c ∉ b' → a ++ c :: b = a' ++ c :: b' →
      a = a' ∧ b = b' := by
  intro a
  induction a with
  | nil =>
    intro a' b b' hb hb' heq
    cases a' with
    | nil => simpa using heq
    | cons y a2 =>
      simp only [List.nil_append, List.cons_append, List.cons.injEq] at heq
      exfalso
      apply hb
      rw [heq.2]
      exact List.mem_append_right _ (List.mem_cons_self _ _)
  | cons x a2 ih =>
    intro a' b b' hb hb' heq
    cases a' with
    | nil =>
      simp only [List.cons_append, List.nil_append, List.cons.injEq] at heq
      exfalso
      apply hb'
      rw [← heq.2]
      exact List.mem_append_right _ (List.mem_cons_self _ _)
    | cons y a2' =>
      simp only [List.cons_append, List.cons.injEq] at heq
      obtain ⟨hxy, heq2⟩ := heq
      obtain ⟨h1, h2⟩ := ih a2' b b' hb hb' heq2
      exact ⟨by rw [hxy, h1], h2⟩

/-- For a string of the shape `m ++ "." ++ x` with dot-free `x`, the
rightmost split recovers exactly `m` and `x`. -/
theorem MemberAccess.fromString_of_append (m x : Str) (hx : '.' ∉ x) :
    MemberAccess.fromString (m ++ '.' :: x) = ⟨m, x⟩ := by
  have hs : '.' ∈ m ++ '.' :: x := List.mem_append_right _ (List.mem_cons_self _ _)
  obtain ⟨hdec, hmem⟩ := MemberAccess.fromString_decomp (m ++ '.' :: x) hs
  obtain ⟨h1, h2⟩ := last_split_unique
    (MemberAccess.fromString (m ++ '.' :: x)).module m
    (MemberAccess.fromString (m ++ '.' :: x)).memberName x hmem hx hdec.symm
  cases hma : MemberAccess.fromString (m ++ '.' :: x) with
  | mk mo me =>
    rw [hma] at h1 h2
    simp at h1 h2
    simp [h1, h2]

/-- When the suffix after a known module prefix itself contains a dot, the
rightmost-split module contains a dot. -/
theorem MemberAccess.fromString_module_has_dot (m x : Str) (hx : '.' ∈ x) :
    '.' ∈ (MemberAccess.fromString (m ++ '.' :: x)).module := by
  have hs : '.' ∈ m ++ '.' :: x := List.mem_append_right _ (List.mem_cons_self _ _)
  obtain ⟨hdec, hmem⟩ := MemberAccess.fromString_decomp (m ++ '.' :: x) hs
  by_contra hnot
  -- count dots on both sides of the decomposition
  have hcount : (m ++ '.' :: x).count '.' =
      ((MemberAccess.fromString (m ++ '.' :: x)).module ++ '.' ::
        (MemberAccess.fromString (m ++ '.' :: x)).memberName).count '.' := by
    rw [← hdec]
  have hxpos : 0 < x.count '.' := List.count_pos_iff.mpr hx
  have hmzero : ((MemberAccess.fromString (m ++ '.' :: x)).module).count '.' = 0 :=
    List.count_eq_zero.mpr hnot
  have hmemzero : ((MemberAccess.fromString (m ++ '.' :: x)).memberName).count '.' = 0 :=
    List.count_eq_zero.mpr hmem
  simp only [List.count_append, List.count_cons_self, hmzero, hmemzero] at hcount
  omega

/-! ## AST nodes

The acorn node shapes consumed by the analyzers (field names follow the
ESTree taxonomy the source matches on).  The parser itself is a library
dependency; only the shapes it produces are modelled. -/

inductive Node where
  | program (body : List Node)
  | expressionStatement (expression : Node)
  | blockStatement (body : List Node)
  | identifier (name : Str)
  | literal (value : JSVal)
  | callExpression (callee : Node) (arguments : List Node)
  | newExpression (callee : Node) (arguments : List Node)
  | memberExpression (object : Node) (property : Node) (computed : Bool)
  | variableDeclaration (kind : Str) (declarations : List Node)
  | variableDeclarator (id : Node) (init : Option Node)
  | importDeclaration (specifiers : List Node) (source : Node)
  | importSpecifier (imported : Node) (localNode : Node)
  | importDefaultSpecifier (localNode : Node)
  | importNamespaceSpecifier (localNode : Node)
  | importExpression (source : Node)
  | exportNamedDeclaration (declaration : Option Node) (specifiers : List Node) (source : Option Node)
  | exportSpecifier (localNode : Node) (exported : Node)
  | exportAllDeclaration (source : Node)
  | objectPattern (properties : List Node)
  | arrayPattern (elements : List (Option Node))
  | property (key : Node) (value : Node)
  | restElement (argument : Node)
  | assignmentPattern (left : Node) (right : Node)
  | functionDeclaration (id : Option Node) (params : List Node) (body : Node)
  | functionExpression (id : Option Node) (params : List Node) (body : Node)
  | arrowFunctionExpression (params : List Node) (body : Node)
  | methodDefinition (key : Node) (value : Node)

/-- The `.type` string of a node (the `NodeTypes` enum of src/astUtils.js). -/
def nodeTypeStr : Node → Str
  | .program _ => strLit ("Program")
  | .expressionStatement _ => strLit ("ExpressionStatement")
  | .blockStatement _ => strLit ("BlockStatement")
  | .identifier _ => strLit ("Identifier")
  | .literal _ => strLit ("Literal")
  | .callExpression _ _ => strLit ("CallExpression")
  | .newExpression _ _ => strLit ("NewExpression")
  | .memberExpression _ _ _ => strLit ("MemberExpression")
  | .variableDeclaration _ _ => strLit ("VariableDeclaration")
  | .variableDeclarator _ _ => strLit ("VariableDeclarator")
  | .importDeclaration _ _ => strLit ("ImportDeclaration")
  | .importSpecifier _ _ => strLit ("ImportSpecifier")
  | .importDefaultSpecifier _ => strLit ("ImportDefaultSpecifier")
  | .importNamespaceSpecifier _ => strLit ("ImportNamespaceSpecifier")
  | .importExpression _ => strLit ("ImportExpression")
  | .exportNamedDeclaration _ _ _ => strLit ("ExportNamedDeclaration")
  | .exportSpecifier _ _ => strLit ("ExportSpecifier")
  | .exportAllDeclaration _ => strLit ("ExportAllDeclaration")
  | .objectPattern _ => strLit ("ObjectPattern")
  | .arrayPattern _ => strLit ("ArrayPattern")
  | .property _ _ => strLit ("Property")
  | .restElement _ => strLit ("RestElement")
  | .assignmentPattern _ _ => strLit ("AssignmentPattern")
  | .functionDeclaration _ _ _ => strLit ("FunctionDeclaration")
  | .functionExpression _ _ _ => strLit ("FunctionExpression")
  | .arrowFunctionExpression _ _ => strLit ("ArrowFunctionExpression")
  | .methodDefinition _ _ => strLit ("MethodDefinition")

/-- Read of the JS `.name` field: defined exactly for identifier nodes. -/
def nodeNameField : Node → Option Str
  | .identifier nm => some nm
  | _ => none

/-- Template-literal stringification of a possibly-undefined string field. -/
def tmplOptStr (o : Option Str) : Str :=
  o.getD (strLit ("undefined"))

/-- Read of the JS `.params` field of function-shaped nodes. -/
def paramsField : Node → Option (List Node)
  | .functionDeclaration _ params _ => some params
  | .functionExpression _ params _ => some params
  | .arrowFunctionExpression params _ => some params
  | _ => none

/-- Read of the JS `.property` field of member expressions. -/
def propertyField : Node → Option Node
  | .memberExpression _ property _ => some property
  | _ => none

/-- Read of the JS `.key` field of method definitions and properties. -/
def keyField : Node → Option Node
  | .methodDefinition key _ => some key
  | .property key _ => some key
  | _ => none

/-- Read of the JS `.id` field of declarations and declarators. -/
def idField : Node → Option Node
  | .functionDeclaration id _ _ => id
  | .functionExpression id _ _ => id
  | .variableDeclarator id _ => some id
  | _ => none

/-- Read of the JS `.elements` field of array patterns. -/
def elementsField : Node → Option (List (Option Node))
  | .arrayPattern elements => some elements
  | _ => none

/-- Read of the JS `.properties` field of object patterns. -/
def propertiesField : Node → Option (List Node)
  | .objectPattern properties => some properties
  | _ => none

mutual

/-- Structural equality of nodes.  It stands in for the single JS
identity comparison left in the modelled analyzers — the object-pattern
containment `grandParent.properties.includes(parent)` of
`inGlobalNamespace` — where the compared parent was genuinely reached
through the grandparent's property list, so structural membership and
the source's identity membership coincide; every other `===` of the
source is decided positionally by a `ChildLeg` tag. -/
def beqNode : Node → Node → Bool
  | .program a, .program b => beqNodeList a b
  | .expressionStatement a, .expressionStatement b => beqNode a b
  | .blockStatement a, .blockStatement b => beqNodeList a b
  | .identifier a, .identifier b => a = b
  | .literal a, .literal b => a = b
  | .callExpression a1 a2, .callExpression b1 b2 => beqNode a1 b1 && beqNodeList a2 b2
  | .newExpression a1 a2, .newExpression b1 b2 => beqNode a1 b1 && beqNodeList a2 b2
  | .memberExpression a1 a2 a3, .memberExpression b1 b2 b3 =>
    beqNode a1 b1 && beqNode a2 b2 && a3 = b3
  | .variableDeclaration a1 a2, .variableDeclaration b1 b2 => a1 = b1 && beqNodeList a2 b2
  | .variableDeclarator a1 a2, .variableDeclarator b1 b2 => beqNode a1 b1 && beqNodeOpt a2 b2
  | .importDeclaration a1 a2, .importDeclaration b1 b2 => beqNodeList a1 b1 && beqNode a2 b2
  | .importSpecifier a1 a2, .importSpecifier b1 b2 => beqNode a1 b1 && beqNode a2 b2
  | .importDefaultSpecifier a, .importDefaultSpecifier b => beqNode a b
  | .importNamespaceSpecifier a, .importNamespaceSpecifier b => beqNode a b
  | .importExpression a, .importExpression b => beqNode a b
  | .exportNamedDeclaration a1 a2 a3, .exportNamedDeclaration b1 b2 b3 =>
    beqNodeOpt a1 b1 && beqNodeList a2 b2 && beqNodeOpt a3 b3
  | .exportSpecifier a1 a2, .exportSpecifier b1 b2 => beqNode a1 b1 && beqNode a2 b2
  | .exportAllDeclaration a, .exportAllDeclaration b => beqNode a b
  | .objectPattern a, .objectPattern b => beqNodeList a b
  | .arrayPattern a, .arrayPattern b => beqNodeOptList a b
  | .property a1 a2, .property b1 b2 => beqNode a1 b1 && beqNode a2 b2
  | .restElement a, .restElement b => beqNode a b
  | .assignmentPattern a1 a2, .assignmentPattern b1 b2 => beqNode a1 b1 && beqNode a2 b2
  | .functionDeclaration a1 a2 a3, .functionDeclaration b1 b2 b3 =>
    beqNodeOpt a1 b1 && beqNodeList a2 b2 && beqNode a3 b3
  | .functionExpression a1 a2 a3, .functionExpression b1 b2 b3 =>
    beqNodeOpt a1 b1 && beqNodeList a2 b2 && beqNode a3 b3
  | .arrowFunctionExpression a1 a2, .arrowFunctionExpression b1 b2 =>
    beqNodeList a1 b1 && beqNode a2 b2
  | .methodDefinition a1 a2, .methodDefinition b1 b2 => beqNode a1 b1 && beqNode a2 b2
  | _, _ => false
  termination_by structural n _ => n

/-- Pointwise equality of node lists. -/
def beqNodeList : List Node → List Node → Bool
  | [], [] => true
  | a :: as', b :: bs' => beqNode a b && beqNodeList as' bs'
  | _, _ => false
  termination_by structural n _ => n

/-- Pointwise equality of optional nodes. -/
def beqNodeOpt : Option Node → Option Node → Bool
  | none, none => true
  | some a, some b => beqNode a b
  | _, _ => false
  termination_by structural n _ => n

/-- Pointwise equality of lists of optional nodes. -/
def beqNodeOptList : List (Option Node) → List (Option Node) → Bool
  | [], [] => true
  | a :: as', b :: bs' => beqNodeOpt a b && beqNodeOptList as' bs'
  | _, _ => false
  termination_by structural n _ => n

end

/-! ## Environment model (src/astUtils.js, classes Environment and Variable)

The traversal keeps a pointer to the innermost environment; the chain of
`parent` pointers is modelled as a list of frames, innermost first.  The
empty list models the initial undefined environment pointer (before the
`Program` node is visited); method calls on an undefined receiver raise a
JS `TypeError`, modelled with `Except.error`.  The unused `children`
bookkeeping of the `Environment` class is not modelled. -/

/-- The `EnvironmentTypes` enum of src/astUtils.js. -/
inductive EnvironmentType where
  | program
  | function
  | method
  | block
deriving DecidableEq, Repr

/-- Class `Variable`: a local variable with its name (the `.name` of the
identifier node that introduced it, which can be the JS `undefined` when
the source handed a node with no name) and the module it references. -/
structure Variable where
  name : Option Str
  module : Option JSVal
deriving DecidableEq, Repr

/-- One `Environment` object: its type and its variables, in insertion
order. -/
structure Frame where
  envType : EnvironmentType
  vars : List Variable
deriving DecidableEq, Repr

/-- The chain of environments reachable through `parent`, innermost
first; `[]` is the undefined environment pointer. -/
abbrev Env := List Frame

/-- Method `Environment.addVar`: push a variable onto the current
environment (a call on an undefined environment raises). -/
def Env.addVar : Env → Variable → Except Str Env
  | [], _ => .error (strLit ("TypeError: cannot read addVar of undefined"))
  | f :: rest, v => .ok ({ f with vars := f.vars ++ [v] } :: rest)

/-- Method `Environment.addVarToFunctionScope`: walk outward to the first
Function or Method environment, or to the root environment, and push the
variable there. -/
def Env.addVarToFunctionScope : Env → Variable → Except Str Env
  | [], _ => .error (strLit ("TypeError: cannot read addVarToFunctionScope of undefined"))
  | [f], v => .ok [{ f with vars := f.vars ++ [v] }]
  | f :: rest, v =>
    if f.envType = .function ∨ f.envType = .method then
      .ok ({ f with vars := f.vars ++ [v] } :: rest)
    else do
      let rest' ← Env.addVarToFunctionScope rest v
      .ok (f :: rest')

/-- Search of the frame chain carried out by `Environment.getVarNamed`:
the first variable of the innermost frame binding the name.  The name key
is an optional string because the source can pass the JS `undefined` (the
`.name` of a node that is not an identifier). -/
def lookupVar : Env → Option Str → Option Variable
  | [], _ => none
  | f :: rest, nm =>
    match f.vars.find? (fun v => v.name = nm) with
    | some v => some v
    | none => lookupVar rest nm

/-- Method `Environment.getVarNamed` (a call on an undefined environment
raises). -/
def Env.getVarNamed : Env → Option Str → Except Str (Option Variable)
  | [], _ => .error (strLit ("TypeError: cannot read getVarNamed of undefined"))
  | env, nm => .ok (lookupVar env nm)

/-- Method `Environment.getModRefVarNamed`: like `getVarNamed` but only
variables whose module annotation is set. -/
def Env.getModRefVarNamed (env : Env) (nm : Option Str) : Except Str (Option Variable) := do
  let ov ← Env.getVarNamed env nm
  match ov with
  | none => pure none
  | some v => pure (if v.module = none then none else some v)

/-- Method `Environment.hasVarNamed`. -/
def Env.hasVarNamed (env : Env) (nm : Option Str) : Except Str Bool := do
  let ov ← Env.getVarNamed env nm
  pure ov.isSome

/-- Update of the variable found by `getVarNamed` within one frame,
modelling the mutation `envVar.setModule(m)`. -/
def setVarInVars (vars : List Variable) (nm : Option Str) (m : JSVal) : List Variable :=
  match vars with
  | [] => []
  | v :: rest =>
    if v.name = nm then { v with module := some m } :: rest
    else v :: setVarInVars rest nm m

/-- Update of the variable found by `getVarNamed` in the frame chain,
modelling the mutation `envVar.setModule(m)` of the found reference. -/
def setVarModule (env : Env) (nm : Option Str) (m : JSVal) : Env :=
  match env with
  | [] => []
  | f :: rest =>
    if (f.vars.find? (fun v => v.name = nm)).isSome then
      { f with vars := setVarInVars f.vars nm m } :: rest
    else f :: setVarModule rest nm m

/-! ## Scope and variable tracking (src/astUtils.js) -/

/-- Function `isFunction`: the current block node (head of the ancestor
stack, which is kept innermost first) is the body of a function-shaped
parent.  The comparison against the node type `Function` is kept from the
source even though no acorn node carries that type. -/
def isFunction (ancestors : List Node) : Bool :=
  2 ≤ ancestors.length &&
    (match ancestors.get? 1 with
     | some p =>
       nodeTypeStr p = strLit ("FunctionDeclaration") ||
       nodeTypeStr p = strLit ("Function") ||
       nodeTypeStr p = strLit ("FunctionExpression") ||
       nodeTypeStr p = strLit ("ArrowFunctionExpression")
     | none => false)

/-- Function `isMethod`: the grandparent of the current block node is a
method definition. -/
def isMethod (ancestors : List Node) : Bool :=
  3 ≤ ancestors.length &&
    (match ancestors.get? 2 with
     | some gp => nodeTypeStr gp = strLit ("MethodDefinition")
     | none => false)

mutual

/-- Function `identifiersFromNode`: the names of the identifiers bound by
a binding target, recursing through destructuring patterns; an unhandled
node shape is a hard error.  (The `UpdateExpression`/`UnaryExpression`
cases of the source concern node shapes outside the modelled AST.) -/
def identifiersFromNode : Node → Except Str (List Str)
  | .identifier nm => .ok [nm]
  | .restElement argument => identifiersFromNode argument
  | .assignmentPattern left _ => identifiersFromNode left
  | .objectPattern properties => identifiersFromNodeList properties
  | .arrayPattern elements => identifiersFromNodeOptList elements
  | .property _ value => identifiersFromNode value
  | n => .error (strLit ("Unknown node type: ") ++ nodeTypeStr n)

/-- Accumulation of `identifiersFromNode` over the properties of an
object pattern (with the `.flat()` of the source). -/
def identifiersFromNodeList : List Node → Except Str (List Str)
  | [] => .ok []
  | n :: rest => do
    let a ← identifiersFromNode n
    let b ← identifiersFromNodeList rest
    .ok (a ++ b)

/-- Accumulation of `identifiersFromNode` over the elements of an array
pattern, skipping elided (null) slots. -/
def identifiersFromNodeOptList : List (Option Node) → Except Str (List Str)
  | [] => .ok []
  | none :: rest => identifiersFromNodeOptList rest
  | some n :: rest => do
    let a ← identifiersFromNode n
    let b ← identifiersFromNodeOptList rest
    .ok (a ++ b)

end

/-- Function `identifiersFromImportDeclaration`: the local binding node of
each specifier, modelled by its `.name` field. -/
def identifiersFromImportDeclaration (n : Node) : List (Option Str) :=
  match n with
  | .importDeclaration specifiers _ =>
    specifiers.map (fun s =>
      match s with
      | .importSpecifier _ l => nodeNameField l
      | .importDefaultSpecifier l => nodeNameField l
      | .importNamespaceSpecifier l => nodeNameField l
      | _ => none)
  | _ => []

/-- Function `identifiersFromVariableDeclaration`: the identifiers bound
by each declarator of a variable declaration. -/
def identifiersFromVariableDeclaration (n : Node) : Except Str (List Str) :=
  match n with
  | .variableDeclaration _ declarations => go declarations
  | _ => .ok []
where
  go : List Node → Except Str (List Str)
    | [] => .ok []
    | d :: rest => do
      let a ← (match d with
               | .variableDeclarator id _ => identifiersFromNode id
               | _ => .error (strLit ("TypeError: cannot read id of a non-declarator")))
      let b ← go rest
      .ok (a ++ b)

/-- Function `trackVars`: add the bindings introduced by import
declarations and variable declarations; `var` declarations go to the
enclosing function scope, other kinds to the current environment. -/
def trackVars (n : Node) (env : Env) : Except Str Env :=
  match n with
  | .importDeclaration _ _ =>
    (identifiersFromImportDeclaration n).foldlM
      (fun e nm => Env.addVar e { name := nm, module := none }) env
  | .variableDeclaration kind _ => do
    let ids ← identifiersFromVariableDeclaration n
    if kind = strLit ("var") then
      ids.foldlM (fun e nm => Env.addVarToFunctionScope e { name := some nm, module := none }) env
    else
      ids.foldlM (fun e nm => Env.addVar e { name := some nm, module := none }) env
  | _ => .ok env

/-- Function `initialVarsForFunction`: one variable per identifier bound
by the parameters of the function node below the block on the ancestor
stack. -/
def initialVarsForFunction (ancestors : List Node) : Except Str (List Variable) :=
  match ancestors.get? 1 with
  | some p =>
    match paramsField p with
    | some params => do
      let nms ← go params
      .ok (nms.map (fun nm => { name := some nm, module := none }))
    | none => .error (strLit ("TypeError: cannot read params of undefined"))
  | none => .error (strLit ("TypeError: cannot read params of undefined"))
where
  go : List Node → Except Str (List Str)
    | [] => .ok []
    | p :: rest => do
      let a ← identifiersFromNode p
      let b ← go rest
      .ok (a ++ b)

/-- Function `trackScope`: a `Program` node starts a fresh root
environment; a block statement pushes a Function, Method or Block
environment depending on its ancestors, pre-populated with the parameter
bindings for function and method bodies. -/
def trackScope (n : Node) (ancestors : List Node) (env : Env) : Except Str Env :=
  match n with
  | .program _ => .ok [{ envType := .program, vars := [] }]
  | .blockStatement _ =>
    if env = [] then .error (strLit ("TypeError: cannot read addChild of undefined"))
    else if isFunction ancestors then do
      let ivs ← initialVarsForFunction ancestors
      .ok ({ envType := .function, vars := ivs } :: env)
    else if isMethod ancestors then do
      let ivs ← initialVarsForFunction ancestors
      .ok ({ envType := .method, vars := ivs } :: env)
    else
      .ok ({ envType := .block, vars := [] } :: env)
  | _ => .ok env

/-! ## Import recognition and member tracing (src/extractModules.js) -/

/-- Function `validRequireCall`: the declarator binds a plain identifier
to a call (or new-expression) of the identifier `require` whose first
argument is a string literal.  The field reads short-circuit exactly as
the source conjunction does. -/
def validRequireCall : Node → Bool
  | .variableDeclarator id (some init) =>
    (match id with | .identifier _ => true | _ => false) &&
    (match init with
     | .callExpression callee args =>
       (match callee with | .identifier cn => cn = strLit ("require") | _ => false) &&
       (match args with | .literal v :: _ => v.isString | _ => false)
     | .newExpression callee args =>
       (match callee with | .identifier cn => cn = strLit ("require") | _ => false) &&
       (match args with | .literal v :: _ => v.isString | _ => false)
     | _ => false)
  | _ => false

/-- Helper reading the first-argument literal value of a require call that
passed `validRequireCall` (the JS `declarator.init.arguments[0].value`). -/
def requireArgValue : Node → JSVal
  | .callExpression _ (.literal v :: _) => v
  | .newExpression _ (.literal v :: _) => v
  | _ => .null

/-- One declarator step of `trackModuleReferencingVars`: a valid require
call annotates its target binding with the module; a bare-identifier
initializer aliasing a module-referencing binding propagates the
annotation. -/
def trackModRefDeclarator (env : Env) (d : Node) : Except Str Env :=
  if validRequireCall d then
    match d with
    | .variableDeclarator (.identifier nm) (some init) => do
      let ov ← Env.getVarNamed env (some nm)
      match ov with
      | some _ => .ok (setVarModule env (some nm) (requireArgValue init))
      | none => .error (strLit ("TypeError: cannot read setModule of null"))
    | _ => .ok env
  else
    match d with
    | .variableDeclarator (.identifier nm) (some (.identifier inm)) => do
      let mr ← Env.getModRefVarNamed env (some inm)
      match mr with
      | some mv =>
        match mv.module with
        | some m => do
          let ov ← Env.getVarNamed env (some nm)
          match ov with
          | some _ => .ok (setVarModule env (some nm) m)
          | none => .error (strLit ("TypeError: cannot read setModule of null"))
        | none => .ok env
      | none => .ok env
    | _ => .ok env

/-- Function `trackModuleReferencingVars`: annotate bindings introduced
by require-style declarators, aliases of module-referencing bindings, and
default or namespace import specifiers. -/
def trackModuleReferencingVars (n : Node) (env : Env) : Except Str Env :=
  match n with
  | .variableDeclaration _ declarations => declarations.foldlM trackModRefDeclarator env
  | .importDeclaration specifiers source =>
    match source with
    | .literal v =>
      specifiers.foldlM
        (fun e s =>
          match s with
          | .importDefaultSpecifier l => do
            let ov ← Env.getVarNamed e (nodeNameField l)
            match ov with
            | some _ => .ok (setVarModule e (nodeNameField l) v)
            | none => .error (strLit ("TypeError: cannot read setModule of null"))
          | .importNamespaceSpecifier l => do
            let ov ← Env.getVarNamed e (nodeNameField l)
            match ov with
            | some _ => .ok (setVarModule e (nodeNameField l) v)
            | none => .error (strLit ("TypeError: cannot read setModule of null"))
          | _ => .ok e)
        env
    | _ => .ok env
  | _ => .ok env

/-- The check that a member-expression property is a literal or an
identifier (the only statically resolvable property shapes). -/
def propIsLitOrIdent : Node → Bool
  | .literal _ => true
  | .identifier _ => true
  | _ => false

/-- The accessed-member string `node.property.name || node.property.value`
of src/extractModules.js: the identifier name when truthy, otherwise the
literal value (template-stringified). -/
def propAccessStr : Node → Str
  | .identifier nm => if nm = [] then strLit ("undefined") else nm
  | .literal v => jsValToStr v
  | _ => strLit ("undefined")

/-- The guard shape shared by the destructuring cases of
`trackMemberAccess`: `declarator.init.callee.name === 'require'` (read
through the `.name` field, with no check of the callee node type),
`arguments.length > 0`, a literal first argument, and a string value. -/
def requireInitShape : Node → Bool
  | .callExpression callee args =>
    (match nodeNameField callee with | some cn => cn = strLit ("require") | none => false) &&
    (match args with | .literal v :: _ => v.isString | _ => false)
  | .newExpression callee args =>
    (match nodeNameField callee with | some cn => cn = strLit ("require") | none => false) &&
    (match args with | .literal v :: _ => v.isString | _ => false)
  | _ => false

/-- Accumulation over the properties of a destructured object pattern in
`trackMemberAccess`: `Property` nodes record `module.key`, rest elements
are skipped, any other shape is a hard error. -/
def trackObjectPatternProps (moduleStr : Str) (props : List Node) (acc : List Str) :
    Except Str (List Str) :=
  match props with
  | [] => .ok acc
  | p :: rest =>
    match p with
    | .property key _ => do
      trackObjectPatternProps moduleStr rest
        (setAdd acc (moduleStr ++ '.' :: tmplOptStr (nodeNameField key)))
    | .restElement _ => trackObjectPatternProps moduleStr rest acc
    | _ => .error (strLit ("Unknown object pattern property type ") ++ nodeTypeStr p)

/-- Index strings `module.0`, `module.1`, ... recorded for an array
pattern of n element slots (the source loop adds one string per slot,
elided slots included). -/
def trackArrayPatternIdx (moduleStr : Str) (count : Nat) (acc : List Str) : List Str :=
  (List.range count).foldl (fun a i => setAdd a (moduleStr ++ '.' :: (toString i).data)) acc

/-- One declarator step of the destructuring cases of
`trackMemberAccess`. -/
def trackMemberDeclarator (env : Env) (acc : List Str) (d : Node) : Except Str (List Str) :=
  match d with
  | .variableDeclarator (.objectPattern props) (some init) =>
    if requireInitShape init then
      trackObjectPatternProps (jsValToStr (requireArgValue init)) props acc
    else
      match init with
      | .identifier inm => do
        let mr ← Env.getModRefVarNamed env (some inm)
        match mr with
        | some mv => trackObjectPatternProps (jsValToStr (mv.module.getD .null)) props acc
        | none => .ok acc
      | _ => .ok acc
  | .variableDeclarator (.arrayPattern elements) (some init) =>
    if requireInitShape init then
      .ok (trackArrayPatternIdx (tmplOptStr (nodeNameField init)) elements.length acc)
    else
      match init with
      | .identifier inm => do
        let mr ← Env.getModRefVarNamed env (some inm)
        match mr with
        | some mv => .ok (trackArrayPatternIdx (jsValToStr (mv.module.getD .null)) elements.length acc)
        | none => .ok acc
      | _ => .ok acc
  | _ => .ok acc

/-- Function `trackMemberAccess`: record accessed module members from
named import specifiers, re-export specifiers, member expressions on
module-referencing bindings or on direct require calls, and destructuring
declarations.  The direct-require member branch keeps the source guard,
which reads `arguments[0].name` (a field no literal node carries). -/
def trackMemberAccess (n : Node) (env : Env) (acc : List Str) : Except Str (List Str) :=
  match n with
  | .importDeclaration specifiers source =>
    match source with
    | .literal v =>
      .ok (specifiers.foldl
        (fun a s =>
          match s with
          | .importSpecifier imported _ =>
            setAdd a (jsValToStr v ++ '.' :: tmplOptStr (nodeNameField imported))
          | _ => a)
        acc)
    | _ => .ok acc
  | .exportNamedDeclaration _ specifiers (some (.literal v)) =>
    .ok (specifiers.foldl
      (fun a s =>
        match s with
        | .exportSpecifier l _ =>
          setAdd a (jsValToStr v ++ '.' :: tmplOptStr (nodeNameField l))
        | _ => a)
      acc)
  | .exportAllDeclaration _ =>
    -- the source only logs that members cannot be tracked
    .ok acc
  | .memberExpression object property _ =>
    if propIsLitOrIdent property then
      match object with
      | .identifier onm => do
        let mr ← Env.getModRefVarNamed env (some onm)
        match mr with
        | some mv =>
          .ok (setAdd acc (jsValToStr (mv.module.getD .null) ++ '.' :: propAccessStr property))
        | none => .ok acc
      | .callExpression callee args =>
        if (match callee with | .identifier cn => cn = strLit ("require") | _ => false) &&
           (match args with
            | a :: _ => (match a with | .literal _ => (nodeNameField a).isSome | _ => false)
            | [] => false) then
          .ok (setAdd acc (tmplOptStr ((args.head?).bind nodeNameField) ++ '.' :: propAccessStr property))
        else .ok acc
      | .newExpression callee args =>
        if (match callee with | .identifier cn => cn = strLit ("require") | _ => false) &&
           (match args with
            | a :: _ => (match a with | .literal _ => (nodeNameField a).isSome | _ => false)
            | [] => false) then
          .ok (setAdd acc (tmplOptStr ((args.head?).bind nodeNameField) ++ '.' :: propAccessStr property))
        else .ok acc
      | _ => .ok acc
    else .ok acc
  | .variableDeclaration _ declarations =>
    declarations.foldlM (fun a d => trackMemberDeclarator env a d) acc
  | _ => .ok acc

/-- Traversal state of `extractMemberAccesses`: the active environment
pointer and the accumulated member-access set. -/
structure MemberSt where
  env : Env
  acc : List Str
deriving DecidableEq, Repr

/-- The per-node analyzer sequence of `extractMemberAccesses`: scope
update, binding declarations, import recognition, member-access
collection (ancestors are innermost first and include the node). -/
def stepMember (ancestors : List Node) (st : MemberSt) (n : Node) : Except Str MemberSt := do
  let env1 ← trackScope n ancestors st.env
  let env2 ← trackVars n env1
  let env3 ← trackModuleReferencingVars n env2
  let acc1 ← trackMemberAccess n env3 st.acc
  .ok { env := env3, acc := acc1 }

mutual

/-- Depth-first traversal of `extractMemberAccesses` (the inner function
`c`): run the analyzers on the node, walk the children that can contain
identifiers (the child sets of the acorn-walk base walkers together with
the overrides of src/acornWalkPatch.js, as required by the traversal
contract of the spec), and restore the environment pointer when leaving a
block statement. -/
def walkMember (anc : List Node) (st : MemberSt) (n : Node) : Except Str MemberSt := do
  let st1 ← stepMember (n :: anc) st n
  match n with
  | .program body => walkMemberList (n :: anc) st1 body
  | .expressionStatement e => walkMember (n :: anc) st1 e
  | .blockStatement body => do
    let st2 ← walkMemberList (n :: anc) st1 body
    .ok { env := st2.env.tail, acc := st2.acc }
  | .identifier _ => .ok st1
  | .literal _ => .ok st1
  | .callExpression callee args => do
    let s ← walkMember (n :: anc) st1 callee
    walkMemberList (n :: anc) s args
  | .newExpression callee args => do
    let s ← walkMember (n :: anc) st1 callee
    walkMemberList (n :: anc) s args
  | .memberExpression object property _ => do
    let s ← walkMember (n :: anc) st1 object
    walkMember (n :: anc) s property
  | .variableDeclaration _ declarations => walkMemberList (n :: anc) st1 declarations
  | .variableDeclarator id init => do
    let s ← walkMember (n :: anc) st1 id
    match init with
    | some i => walkMember (n :: anc) s i
    | none => .ok s
  | .importDeclaration specifiers source => do
    let s ← walkMemberList (n :: anc) st1 specifiers
    walkMember (n :: anc) s source
  | .importSpecifier _ _ => .ok st1
  | .importDefaultSpecifier _ => .ok st1
  | .importNamespaceSpecifier _ => .ok st1
  | .importExpression source => walkMember (n :: anc) st1 source
  | .exportNamedDeclaration declaration _ source => do
    let s ← (match declaration with
             | some d => walkMember (n :: anc) st1 d
             | none => .ok st1)
    match source with
    | some src => walkMember (n :: anc) s src
    | none => .ok s
  | .exportSpecifier _ _ => .ok st1
  | .exportAllDeclaration source => walkMember (n :: anc) st1 source
  | .objectPattern properties => walkMemberList (n :: anc) st1 properties
  | .arrayPattern elements => walkMemberOptList (n :: anc) st1 elements
  | .property key value => do
    let s ← walkMember (n :: anc) st1 key
    walkMember (n :: anc) s value
  | .restElement argument => walkMember (n :: anc) st1 argument
  | .assignmentPattern left right => do
    let s ← walkMember (n :: anc) st1 left
    walkMember (n :: anc) s right
  | .functionDeclaration id params body => do
    let s0 ← (match id with
              | some i => walkMember (n :: anc) st1 i
              | none => .ok st1)
    let s ← walkMemberList (n :: anc) s0 params
    walkMember (n :: anc) s body
  | .functionExpression id params body => do
    let s0 ← (match id with
              | some i => walkMember (n :: anc) st1 i
              | none => .ok st1)
    let s ← walkMemberList (n :: anc) s0 params
    walkMember (n :: anc) s body
  | .arrowFunctionExpression params body => do
    let s ← walkMemberList (n :: anc) st1 params
    walkMember (n :: anc) s body
  | .methodDefinition key value => do
    let s ← walkMember (n :: anc) st1 key
    walkMember (n :: anc) s value

/-- Sequential traversal of a child list. -/
def walkMemberList (anc : List Node) (st : MemberSt) : List Node → Except Str MemberSt
  | [] => .ok st
  | n :: rest => do
    let s ← walkMember anc st n
    walkMemberList anc s rest

/-- Sequential traversal of an array-pattern child list (elided slots are
not visited). -/
def walkMemberOptList (anc : List Node) (st : MemberSt) : List (Option Node) → Except Str MemberSt
  | [] => .ok st
  | none :: rest => walkMemberOptList anc st rest
  | some n :: rest => do
    let s ← walkMember anc st n
    walkMemberOptList anc s rest

end

/-- Function `extractMemberAccesses`: traverse an AST with an initially
undefined environment and empty ancestor stack and return the accumulated
member-access set. -/
def extractMemberAccesses (ast : Node) : Except Str (List Str) := do
  let st ← walkMember [] { env := [], acc := [] } ast
  .ok st.acc

/-- The per-node-type visitors of `extractImportsFromAST`: require calls
and new-expressions with a literal first argument contribute the literal
value, import declarations, import expressions and re-exports with a
literal source contribute the source value. -/
def importsVisit (acc : List JSVal) (n : Node) : List JSVal :=
  match n with
  | .callExpression callee args =>
    (match callee with
     | .identifier cn =>
       if cn = strLit ("require") then
         match args with
         | .literal v :: _ => setAdd acc v
         | _ => acc  -- the source only logs the argument types
       else acc
     | _ => acc)
  | .newExpression callee args =>
    (match callee with
     | .identifier cn =>
       if cn = strLit ("require") then
         match args with
         | .literal v :: _ => setAdd acc v
         | _ => acc
       else acc
     | _ => acc)
  | .importDeclaration _ source =>
    (match source with
     | .literal v => setAdd acc v
     | _ => acc)
  | .importExpression source =>
    (match source with
     | .literal v => setAdd acc v
     | _ => acc)
  | .exportNamedDeclaration _ _ source =>
    (match source with
     | some (.literal v) => setAdd acc v
     | _ => acc)
  | .exportAllDeclaration source =>
    (match source with
     | .literal v => setAdd acc v
     | _ => acc)
  | _ => acc

mutual

/-- Traversal of `extractImportsFromAST` (an `acorn_walk.simple` walk over
the same child sets as the other traversals), accumulating into
the import set. -/
def extractImportsAcc (acc : List JSVal) (n : Node) : List JSVal :=
  let acc1 := importsVisit acc n
  match n with
  | .program body => extractImportsListAcc acc1 body
  | .expressionStatement e => extractImportsAcc acc1 e
  | .blockStatement body => extractImportsListAcc acc1 body
  | .identifier _ => acc1
  | .literal _ => acc1
  | .callExpression callee args => extractImportsListAcc (extractImportsAcc acc1 callee) args
  | .newExpression callee args => extractImportsListAcc (extractImportsAcc acc1 callee) args
  | .memberExpression object property _ =>
    extractImportsAcc (extractImportsAcc acc1 object) property
  | .variableDeclaration _ declarations => extractImportsListAcc acc1 declarations
  | .variableDeclarator id init =>
    (match init with
     | some i => extractImportsAcc (extractImportsAcc acc1 id) i
     | none => extractImportsAcc acc1 id)
  | .importDeclaration specifiers source =>
    extractImportsAcc (extractImportsListAcc acc1 specifiers) source
  | .importSpecifier _ _ => acc1
  | .importDefaultSpecifier _ => acc1
  | .importNamespaceSpecifier _ => acc1
  | .importExpression source => extractImportsAcc acc1 source
  | .exportNamedDeclaration declaration _ source =>
    (match source with
     | some src =>
       extractImportsAcc
         (match declaration with
          | some d => extractImportsAcc acc1 d
          | none => acc1) src
     | none =>
       match declaration with
       | some d => extractImportsAcc acc1 d
       | none => acc1)
  | .exportSpecifier _ _ => acc1
  | .exportAllDeclaration source => extractImportsAcc acc1 source
  | .objectPattern properties => extractImportsListAcc acc1 properties
  | .arrayPattern elements => extractImportsOptListAcc acc1 elements
  | .property key value => extractImportsAcc (extractImportsAcc acc1 key) value
  | .restElement argument => extractImportsAcc acc1 argument
  | .assignmentPattern left right => extractImportsAcc (extractImportsAcc acc1 left) right
  | .functionDeclaration id params body =>
    extractImportsAcc
      (extractImportsListAcc
        (match id with | some i => extractImportsAcc acc1 i | none => acc1) params) body
  | .functionExpression id params body =>
    extractImportsAcc
      (extractImportsListAcc
        (match id with | some i => extractImportsAcc acc1 i | none => acc1) params) body
  | .arrowFunctionExpression params body =>
    extractImportsAcc (extractImportsListAcc acc1 params) body
  | .methodDefinition key value => extractImportsAcc (extractImportsAcc acc1 key) value

/-- Accumulating import extraction over a child list. -/
def extractImportsListAcc (acc : List JSVal) : List Node → List JSVal
  | [] => acc
  | n :: rest => extractImportsListAcc (extractImportsAcc acc n) rest

/-- Accumulating import extraction over an array-pattern child list. -/
def extractImportsOptListAcc (acc : List JSVal) : List (Option Node) → List JSVal
  | [] => acc
  | none :: rest => extractImportsOptListAcc acc rest
  | some n :: rest => extractImportsOptListAcc (extractImportsAcc acc n) rest

end

/-- Function `extractImportsFromAST` (exported as `extractImports`): the
set of modules imported in an AST. -/
def extractImportsFromAST (ast : Node) : List JSVal :=
  extractImportsAcc [] ast

/-! ## Globals extraction (src/extractGlobals.js)

The set of platform global names (src/globalNames.js) is not part of the
analyzed sources; it is modelled from the spec as an opaque parameter: a
known set of platform global names. -/

/-- Which child reference of its parent the walker reached the current
node through.  A freshly parsed AST holds a distinct node object behind
every child reference, so the JS identity comparisons of the source
(`parent.property === node`, `parent.params.includes(node)`, …) hold
exactly when the walk entered the node through that reference; the tag
records it.  (The one aliased reference acorn produces — a shorthand
property's `key === value` — is compared by no check.) -/
inductive ChildLeg where
  | property
  | key
  | id
  | param
  | element
  | other
deriving DecidableEq, Repr

/-- Function `inGlobalNamespace`: whether an identifier node occupies a
referring-use position, judged from the ancestor stack (innermost first,
head = the node itself) and the child reference the walker reached the
node through.  The checks mirror the source in order, including the
comparison against the node type `Function`, which no acorn node
carries; the source's `===` field comparisons are decided by the
`ChildLeg` tag, and the final object-pattern containment check compares
a parent that the walk genuinely reached through the grandparent's
property list, where structural membership coincides with the source's
identity membership. -/
def inGlobalNamespace (leg : ChildLeg) (node : Node) (ancestors : List Node) : Bool :=
  if ancestors.length < 2 then true
  else
    let parent := (ancestors.get? 1).getD node
    -- Part of member expression
    if nodeTypeStr parent = strLit ("MemberExpression") && leg = ChildLeg.property then
      false
    -- Argument to a function / method
    else if (nodeTypeStr parent = strLit ("Function") ||
             nodeTypeStr parent = strLit ("FunctionExpression") ||
             nodeTypeStr parent = strLit ("FunctionDeclaration")) &&
            leg = ChildLeg.param then
      false
    -- Name of method definition
    else if nodeTypeStr parent = strLit ("MethodDefinition") && leg = ChildLeg.key then
      false
    -- Name of function definition
    else if nodeTypeStr parent = strLit ("FunctionDeclaration") && leg = ChildLeg.id then
      false
    -- Name of variable declaration
    else if nodeTypeStr parent = strLit ("VariableDeclarator") && leg = ChildLeg.id then
      false
    else if ancestors.length < 3 then true
    -- Name of variable declaration in an array pattern
    else if nodeTypeStr parent = strLit ("ArrayPattern") && leg = ChildLeg.element then
      false
    else
      let grandParent := (ancestors.get? 2).getD node
      -- Name of variable declaration in an object pattern
      if nodeTypeStr parent = strLit ("Property") &&
         nodeTypeStr grandParent = strLit ("ObjectPattern") &&
         ((propertiesField grandParent).getD []).any (fun p => beqNode p parent) then
        false
      else true

/-- Function `isGlobal`: the node is an identifier whose name is a known
global, is not bound in the environment chain, and occupies a
referring-use position (conjuncts short-circuit as in the source). -/
def isGlobal (globalNames : List Str) (leg : ChildLeg) (node : Node) (env : Env)
    (ancestors : List Node) : Except Str Bool :=
  match node with
  | .identifier nm =>
    if globalNames.any (fun g => g = nm) then do
      let hv ← Env.hasVarNamed env (some nm)
      .ok (!hv && inGlobalNamespace leg node ancestors)
    else .ok false
  | _ => .ok false

/-- Function `trackGlobals`: push the name of every identifier the
traversal dispatches with the type `Identifier` that passes the global
test (the source pushes Identifier records with source locations; only
the names survive into the policy and are modelled). -/
def trackGlobals (globalNames : List Str) (leg : ChildLeg) (n : Node) (env : Env)
    (ancestors : List Node) (globals : List Str) : Except Str (List Str) :=
  match n with
  | .identifier nm => do
    let g ← isGlobal globalNames leg n env ancestors
    .ok (if g then globals ++ [nm] else globals)
  | _ => .ok globals

/-- The member string of `trackGlobalMembers`:
`node.property.name || node.property.value.toString()`; a `toString`
call on the JS null raises. -/
def propAccessStrG : Node → Except Str Str
  | .identifier nm =>
    if nm = [] then .error (strLit ("TypeError: cannot read toString of undefined"))
    else .ok nm
  | .literal v =>
    match v with
    | .null => .error (strLit ("TypeError: cannot read toString of null"))
    | v => .ok (jsValToStr v)
  | _ => .error (strLit ("TypeError: cannot read toString of undefined"))

/-- Accumulation over the properties of a destructured object pattern in
`trackGlobalMembers`. -/
def trackGlobalObjectProps (globalStr : Str) (props : List Node) (acc : List Str) :
    Except Str (List Str) :=
  match props with
  | [] => .ok acc
  | p :: rest =>
    match p with
    | .property key _ =>
      trackGlobalObjectProps globalStr rest
        (setAdd acc (globalStr ++ '.' :: tmplOptStr (nodeNameField key)))
    | .restElement _ => trackGlobalObjectProps globalStr rest acc
    | _ => .error (strLit ("Unknown object pattern property type ") ++ nodeTypeStr p)

/-- Index strings recorded for an array pattern destructuring a global;
elided (null) slots are skipped. -/
def trackGlobalArrayIdx (globalStr : Str) (elements : List (Option Node)) (acc : List Str) :
    List Str :=
  (go elements 0 acc)
where
  go : List (Option Node) → Nat → List Str → List Str
    | [], _, a => a
    | none :: rest, i, a => go rest (i + 1) a
    | some _ :: rest, i, a => go rest (i + 1) (setAdd a (globalStr ++ '.' :: (toString i).data))

/-- One declarator step of `trackGlobalMembers`.  The source pushes the
declarator and its initializer onto a copy of the ancestor stack; the
initializer is the `init` reference of the declarator, not its `id`. -/
def trackGlobalMemberDeclarator (globalNames : List Str) (env : Env) (ancestors : List Node)
    (acc : List Str) (d : Node) : Except Str (List Str) :=
  match d with
  | .variableDeclarator (.objectPattern props) (some init) => do
    let g ← isGlobal globalNames ChildLeg.other init env (init :: d :: ancestors)
    if g then trackGlobalObjectProps (tmplOptStr (nodeNameField init)) props acc
    else .ok acc
  | .variableDeclarator (.arrayPattern elements) (some init) => do
    let g ← isGlobal globalNames ChildLeg.other init env (init :: d :: ancestors)
    if g then .ok (trackGlobalArrayIdx (tmplOptStr (nodeNameField init)) elements acc)
    else .ok acc
  | _ => .ok acc

/-- Function `trackGlobalMembers`: record accessed members of globals
from member expressions and from destructuring declarations.  The object
pushed onto the ancestor copy is the `object` reference of the member
expression, never its `property`. -/
def trackGlobalMembers (globalNames : List Str) (n : Node) (env : Env) (ancestors : List Node)
    (acc : List Str) : Except Str (List Str) :=
  match n with
  | .memberExpression object property _ =>
    if propIsLitOrIdent property then do
      let g ← isGlobal globalNames ChildLeg.other object env (object :: ancestors)
      if g then do
        let p ← propAccessStrG property
        .ok (setAdd acc (tmplOptStr (nodeNameField object) ++ '.' :: p))
      else .ok acc
    else .ok acc
  | .variableDeclaration _ declarations =>
    declarations.foldlM (fun a d => trackGlobalMemberDeclarator globalNames env ancestors a d) acc
  | _ => .ok acc

/-- Traversal state of `findGlobalsInAST`. -/
structure GlobalsSt where
  env : Env
  globals : List Str
  globalMembers : List Str
deriving DecidableEq, Repr

/-- The per-node analyzer sequence of `findGlobalsInAST`, run once per
node with the node's own (`override`-free) type.  The walk below only
invokes it on nodes the source's walker dispatches with their own type;
the extra passes the walker makes with the analyzer-neutral override
types `Statement`, `Expression`, `Function`, `Pattern`, `VariablePattern`
and `MemberPattern` switch no analyzer on and are elided. -/
def stepGlobals (globalNames : List Str) (leg : ChildLeg) (ancestors : List Node)
    (st : GlobalsSt) (n : Node) : Except Str GlobalsSt := do
  let env1 ← trackScope n ancestors st.env
  let env2 ← trackVars n env1
  let gs ← trackGlobals globalNames leg n env2 ancestors st.globals
  let gm ← trackGlobalMembers globalNames n env2 ancestors st.globalMembers
  .ok { env := env2, globals := gs, globalMembers := gm }

mutual

/-- The traversal of `findGlobalsInAST`: the source's custom walker runs
the analyzers with the effective type `override || node.type`, then
recurses through `acorn_walk.base[type]` as patched by
src/acornWalkPatch.js.  Binding positions — declarator ids, function ids
and parameters, array-pattern elements, rest-element arguments and
assignment-pattern targets — are visited under the `Pattern` override,
under which a plain identifier is re-dispatched as `VariablePattern`
(ignored: no analyzer runs on it) while any other node falls through to
its own type; the patch makes both member-expression sides and all
property and method keys and values ordinary `Expression` visits.
Export specifiers and the contents of import specifiers are not walked,
as in the stock walker. -/
def walkGlobals (globalNames : List Str) (leg : ChildLeg) (anc : List Node) (st : GlobalsSt)
    (n : Node) : Except Str GlobalsSt := do
  let st1 ← stepGlobals globalNames leg (n :: anc) st n
  match n with
  | .program body => walkGlobalsList globalNames (n :: anc) st1 body
  | .expressionStatement e => walkGlobals globalNames ChildLeg.other (n :: anc) st1 e
  | .blockStatement body => do
    let st2 ← walkGlobalsList globalNames (n :: anc) st1 body
    .ok { st2 with env := st2.env.tail }
  | .identifier _ => .ok st1
  | .literal _ => .ok st1
  | .callExpression callee args => do
    let s ← walkGlobals globalNames ChildLeg.other (n :: anc) st1 callee
    walkGlobalsList globalNames (n :: anc) s args
  | .newExpression callee args => do
    let s ← walkGlobals globalNames ChildLeg.other (n :: anc) st1 callee
    walkGlobalsList globalNames (n :: anc) s args
  | .memberExpression object property _ => do
    let s ← walkGlobals globalNames ChildLeg.other (n :: anc) st1 object
    walkGlobals globalNames ChildLeg.property (n :: anc) s property
  | .variableDeclaration _ declarations => walkGlobalsList globalNames (n :: anc) st1 declarations
  | .variableDeclarator id init => do
    let s ← (match id with
             | .identifier _ => .ok st1
             | _ => walkGlobals globalNames ChildLeg.id (n :: anc) st1 id)
    match init with
    | some i => walkGlobals globalNames ChildLeg.other (n :: anc) s i
    | none => .ok s
  | .importDeclaration specifiers source => do
    let s ← walkGlobalsList globalNames (n :: anc) st1 specifiers
    walkGlobals globalNames ChildLeg.other (n :: anc) s source
  | .importSpecifier _ _ => .ok st1
  | .importDefaultSpecifier _ => .ok st1
  | .importNamespaceSpecifier _ => .ok st1
  | .importExpression source => walkGlobals globalNames ChildLeg.other (n :: anc) st1 source
  | .exportNamedDeclaration declaration _ source => do
    let s ← (match declaration with
             | some d => walkGlobals globalNames ChildLeg.other (n :: anc) st1 d
             | none => .ok st1)
    match source with
    | some src => walkGlobals globalNames ChildLeg.other (n :: anc) s src
    | none => .ok s
  | .exportSpecifier _ _ => .ok st1
  | .exportAllDeclaration source => walkGlobals globalNames ChildLeg.other (n :: anc) st1 source
  | .objectPattern properties => walkGlobalsList globalNames (n :: anc) st1 properties
  | .arrayPattern elements => walkGlobalsPatOptList globalNames (n :: anc) st1 elements
  | .property key value => do
    let s ← walkGlobals globalNames ChildLeg.key (n :: anc) st1 key
    walkGlobals globalNames ChildLeg.other (n :: anc) s value
  | .restElement argument =>
    (match argument with
     | .identifier _ => .ok st1
     | _ => walkGlobals globalNames ChildLeg.other (n :: anc) st1 argument)
  | .assignmentPattern left right => do
    let s ← (match left with
             | .identifier _ => .ok st1
             | _ => walkGlobals globalNames ChildLeg.other (n :: anc) st1 left)
    walkGlobals globalNames ChildLeg.other (n :: anc) s right
  | .functionDeclaration id params body => do
    let s0 ← (match id with
              | some (.identifier _) => .ok st1
              | some i => walkGlobals globalNames ChildLeg.id (n :: anc) st1 i
              | none => .ok st1)
    let s ← walkGlobalsPatList globalNames (n :: anc) s0 params
    walkGlobals globalNames ChildLeg.other (n :: anc) s body
  | .functionExpression id params body => do
    let s0 ← (match id with
              | some (.identifier _) => .ok st1
              | some i => walkGlobals globalNames ChildLeg.id (n :: anc) st1 i
              | none => .ok st1)
    let s ← walkGlobalsPatList globalNames (n :: anc) s0 params
    walkGlobals globalNames ChildLeg.other (n :: anc) s body
  | .arrowFunctionExpression params body => do
    let s ← walkGlobalsPatList globalNames (n :: anc) st1 params
    walkGlobals globalNames ChildLeg.other (n :: anc) s body
  | .methodDefinition key value => do
    let s ← walkGlobals globalNames ChildLeg.key (n :: anc) st1 key
    walkGlobals globalNames ChildLeg.other (n :: anc) s value
  termination_by structural n

/-- Sequential globals traversal of a child list visited without an
override. -/
def walkGlobalsList (globalNames : List Str) (anc : List Node) (st : GlobalsSt) :
    List Node → Except Str GlobalsSt
  | [] => .ok st
  | n :: rest => do
    let s ← walkGlobals globalNames ChildLeg.other anc st n
    walkGlobalsList globalNames anc s rest
  termination_by structural l => l

/-- Sequential globals traversal of a parameter list: each parameter is
visited under the `Pattern` override, so plain identifiers are ignored
and other pattern forms fall through to their own type. -/
def walkGlobalsPatList (globalNames : List Str) (anc : List Node) (st : GlobalsSt) :
    List Node → Except Str GlobalsSt
  | [] => .ok st
  | n :: rest => do
    let s ← (match n with
             | .identifier _ => .ok st
             | _ => walkGlobals globalNames ChildLeg.param anc st n)
    walkGlobalsPatList globalNames anc s rest
  termination_by structural l => l

/-- Sequential globals traversal of an array-pattern child list: each
non-elided element is visited under the `Pattern` override. -/
def walkGlobalsPatOptList (globalNames : List Str) (anc : List Node) (st : GlobalsSt) :
    List (Option Node) → Except Str GlobalsSt
  | [] => .ok st
  | none :: rest => walkGlobalsPatOptList globalNames anc st rest
  | some n :: rest => do
    let s ← (match n with
             | .identifier _ => .ok st
             | _ => walkGlobals globalNames ChildLeg.element anc st n)
    walkGlobalsPatOptList globalNames anc s rest
  termination_by structural l => l

end

/-- Function `findGlobalsInAST` (exported as `extractGlobals`): the set of
accessed global names and the set of accessed global member strings. -/
def findGlobalsInAST (globalNames : List Str) (ast : Node) :
    Except Str (List Str × List Str) := do
  let st ← walkGlobals globalNames ChildLeg.other [] { env := [], globals := [], globalMembers := [] } ast
  .ok (listToSet st.globals, st.globalMembers)

/-! ## Policy construction (src/main.js)

The command-line front-end, file reading and JSON writing are external
collaborators; the analysis functions are embedded over their parsed
inputs: a directory tree stands for the package directory on disk, and a
list of parse results (with `none` for files the parser rejected) stands
for the source files a package contributes.  The builtin module list
`NATIVE_MODULES` and the global-name list are opaque string sets passed
as parameters. -/

/-- Function `isJsFileName`. -/
def isJsFileName (name : Str) : Bool :=
  strEndsWith name (strLit (".js")) || strEndsWith name (strLit (".mjs")) ||
    strEndsWith name (strLit (".cjs"))

/-- One directory entry as returned by `fs.readdirSync` with file types:
a regular file, a directory with its entries in enumeration order, or an
entry that is neither (skipped by the source). -/
inductive FSEntry where
  | file (name : Str)
  | dir (name : Str) (entries : List FSEntry)
  | other (name : Str)

/-- Model of `path.join` for the argument shapes the source uses: an
empty second component returns the first, a trailing slash is not
doubled. -/
def pathJoin (a b : Str) : Str :=
  if b = [] then a
  else if a = [] then b
  else if a.getLast? = some '/' then a ++ b else a ++ '/' :: b

/-- Function `recursiveGetJSFilePaths`: every JS file below a directory,
never descending into a directory whose name (its last slash-separated
component) is `node_modules`. -/
def recursiveGetJSFilePaths (dirPath : Str) : List FSEntry → List Str
  | [] => []
  | e :: rest =>
    (match e with
     | .dir name sub =>
       if (splitOnChar '/' name).getLastD [] ≠ strLit ("node_modules") then
         recursiveGetJSFilePaths (pathJoin dirPath name) sub
       else []
     | .file name => if isJsFileName name then [pathJoin dirPath name] else []
     | .other _ => []) ++ recursiveGetJSFilePaths dirPath rest

/-- The membership test `NATIVE_MODULES.has(v)` for an element of
the import set, which is only true for string values. -/
def nativeHas (natives : List Str) (v : JSVal) : Bool :=
  match v with
  | .str s => natives.contains s
  | _ => false

/-- The coarse per-package result of `getAccessesForPackage`. -/
structure AccessesResult where
  modules : List JSVal
  globals : List Str
deriving DecidableEq, Repr

/-- The per-file loop of `getAccessesForPackage`: files whose parse
failed (logged by the source) are skipped, the others contribute their
imports and globals to the unions. -/
def accumAccesses (globalNames : List Str) :
    List (Option Node) → List JSVal → List Str → Except Str (List JSVal × List Str)
  | [], modules, globals => .ok (modules, globals)
  | none :: rest, modules, globals => accumAccesses globalNames rest modules globals
  | some ast :: rest, modules, globals => do
    let fileModules := extractImportsFromAST ast
    let (fileGlobals, _) ← findGlobalsInAST globalNames ast
    accumAccesses globalNames rest (setUnion modules fileModules) (setUnion globals fileGlobals)

/-- Function `getAccessesForPackage`: union the imports and globals of
every parseable file of the package, and unless custom modules are
included restrict the modules to the builtin set. -/
def getAccessesForPackage (globalNames natives : List Str) (includeCustomModules : Bool)
    (files : List (Option Node)) : Except Str AccessesResult := do
  let (modules, globals) ← accumAccesses globalNames files [] []
  let modules := if !includeCustomModules then setIntersection modules (nativeHas natives)
                 else modules
  .ok { modules := modules, globals := globals }

/-- The fine per-package result of `getMemberAccessesForPackage`. -/
structure MemberAccessesResult where
  moduleMemberAccesses : List Str
  globalMemberAccesses : List Str
deriving DecidableEq, Repr

/-- The per-file loop of `getMemberAccessesForPackage`. -/
def accumMemberAccesses (globalNames : List Str) :
    List (Option Node) → List Str → List Str → Except Str (List Str × List Str)
  | [], moduleMembers, globalMembers => .ok (moduleMembers, globalMembers)
  | none :: rest, moduleMembers, globalMembers =>
    accumMemberAccesses globalNames rest moduleMembers globalMembers
  | some ast :: rest, moduleMembers, globalMembers => do
    let fileModuleMemberAccesses ← extractMemberAccesses ast
    let (_, fileGlobalMemberAccesses) ← findGlobalsInAST globalNames ast
    accumMemberAccesses globalNames rest (setUnion moduleMembers fileModuleMemberAccesses)
      (setUnion globalMembers fileGlobalMemberAccesses)

/-- Function `getMemberAccessesForPackage`: union the member accesses of
every parseable file, then keep exactly the module member accesses whose
module (under the rightmost-dot split) is a builtin. -/
def getMemberAccessesForPackage (globalNames natives : List Str)
    (files : List (Option Node)) : Except Str MemberAccessesResult := do
  let (moduleMemberAccesses, globalMemberAccesses) ← accumMemberAccesses globalNames files [] []
  let filtered := setMap
    (setFilter (setMap moduleMemberAccesses MemberAccess.fromString)
      (fun ma => natives.contains ma.module))
    MemberAccess.toStr
  .ok { moduleMemberAccesses := filtered, globalMemberAccesses := globalMemberAccesses }

/-- A per-package capability record as consumed by
`createGranularPolicy`: a `modules` set and a `globals` set (for the fine
granularity these hold the member strings, renamed by
`getCapabilitiesFromDependencyMap`). -/
structure GranCaps (μ γ : Type) where
  modules : List μ
  globals : List γ
deriving DecidableEq, Repr

/-- Both granularities of extracted capabilities, keyed by package
path. -/
structure Capabilities where
  capabilitiesCoarse : List (Str × GranCaps JSVal Str)
  capabilitiesFine : List (Str × GranCaps Str Str)
deriving DecidableEq, Repr

/-- Function `getCapabilitiesFromDependencyMap`: extract capabilities for
every package path of the dependency map (in key order); fine
capabilities only when member tracing is on.  The filesystem is modelled
by `filesOf`, giving the parse results of the enumerated files of each
package path. -/
def getCapabilitiesFromDependencyMap (globalNames natives : List Str)
    (filesOf : Str → List (Option Node)) (dependencyMap : List (Str × List (Option Str)))
    (memberAccessTracing : Bool) (includeCustomModules : Bool) : Except Str Capabilities :=
  go (alKeys dependencyMap) [] []
where
  go : List Str → List (Str × GranCaps JSVal Str) → List (Str × GranCaps Str Str) →
      Except Str Capabilities
    | [], coarse, fine => .ok { capabilitiesCoarse := coarse, capabilitiesFine := fine }
    | packagePath :: rest, coarse, fine => do
      let r ← getAccessesForPackage globalNames natives includeCustomModules (filesOf packagePath)
      let coarse' := alSet coarse packagePath { modules := r.modules, globals := r.globals }
      if memberAccessTracing = true then
        let f ← getMemberAccessesForPackage globalNames natives (filesOf packagePath)
        go rest coarse'
          (alSet fine packagePath
            { modules := f.moduleMemberAccesses, globals := f.globalMemberAccesses })
      else
        go rest coarse' fine

/-- Worker of `createGranularPolicy`, folding the capability entries into
the policy object. -/
def createGranularPolicyGo [DecidableEq μ] [DecidableEq γ] (leM : μ → μ → Bool)
    (leG : γ → γ → Bool) (rootPath rootPackageName : Str) :
    List (Str × GranCaps μ γ) → List (Str × GranCaps μ γ) → List (Str × GranCaps μ γ)
  | [], policy => policy
  | (packagePath, caps) :: rest, policy =>
    let pathParts := splitOnSeq (strLit ("node_modules/")) packagePath
    let packageName0 := pathParts.getLastD []
    let packageName := if packageName0 = rootPath then rootPackageName else packageName0
    if alHas policy packageName then
      match alGet policy packageName with
      | some prev =>
        let globalUnion := (setUnion (listToSet prev.globals) caps.globals).mergeSort leG
        let moduleUnion := (setUnion (listToSet prev.modules) caps.modules).mergeSort leM
        createGranularPolicyGo leM leG rootPath rootPackageName rest
          (alSet policy packageName { modules := moduleUnion, globals := globalUnion })
      | none =>
        createGranularPolicyGo leM leG rootPath rootPackageName rest policy
    else
      createGranularPolicyGo leM leG rootPath rootPackageName rest
        (alSet policy packageName
          { modules := caps.modules.mergeSort leM, globals := caps.globals.mergeSort leG })

/-- Function `createGranularPolicy`: key the capability records by the
package name (the part of the path after the last `node_modules/`, with
the root path replaced by the root package name) and sort the emitted
arrays; multiple paths of one name are unioned. -/
def createGranularPolicy [DecidableEq μ] [DecidableEq γ] (leM : μ → μ → Bool)
    (leG : γ → γ → Bool) (capabilities : List (Str × GranCaps μ γ))
    (rootPath rootPackageName : Str) : List (Str × GranCaps μ γ) :=
  createGranularPolicyGo leM leG rootPath rootPackageName capabilities []

/-- The default JS `Array.sort` comparator on import-set elements:
elements are compared after string conversion. -/
def jsValLe (a b : JSVal) : Bool :=
  strLe (jsValToStr a) (jsValToStr b)

/-- The persisted policy shape (its JSON serialization lists object keys
in insertion order, which the association lists record). -/
structure Policy where
  memberAccessTracing : Bool
  policyCoarse : List (Str × GranCaps JSVal Str)
  policyFine : List (Str × GranCaps Str Str)
deriving DecidableEq, Repr

/-- Function `createPolicy`: both granular policies under the
`memberAccessTracing` flag (which the source normalizes with
`=== true`). -/
def createPolicy (capabilities : Capabilities) (rootPath rootPackageName : Str)
    (memberAccessTracing : Option Bool) : Policy :=
  { memberAccessTracing := memberAccessTracing = some true
    policyCoarse := createGranularPolicy jsValLe strLe capabilities.capabilitiesCoarse
      rootPath rootPackageName
    policyFine := createGranularPolicy strLe strLe capabilities.capabilitiesFine
      rootPath rootPackageName }

/-! ## Dependency mapper (src/dependencyGraph.js)

Lockfile loading and JSON parsing are I/O collaborators; the parsed
lockfile and package manifest are inputs, and the filesystem existence
checks are a boolean predicate on paths.  JS `Array.concat` with an
undefined argument appends one undefined element, so mapped path lists
carry optional entries. -/

/-- One entry of the recursive `dependencies` tree of a version-1
lockfile: its `optional` flag (any JSON value or absent), the keys of its
`requires` map, and its nested `dependencies` tree. -/
inductive V1Package where
  | mk (optional : Option JSVal) (requires : List Str) (dependencies : List (Str × V1Package))

/-- The `optional` field of a version-1 entry. -/
def V1Package.optional : V1Package → Option JSVal
  | .mk o _ _ => o

/-- The keys of the `requires` map of a version-1 entry. -/
def V1Package.requires : V1Package → List Str
  | .mk _ r _ => r

/-- The nested `dependencies` tree of a version-1 entry. -/
def V1Package.dependencies : V1Package → List (Str × V1Package)
  | .mk _ _ d => d

/-- A parsed lockfile: its schema version (any JSON value or absent), the
version-1 `dependencies` tree, and the version-2/3 `packages` map from
relative path to the keys of the entry `dependencies` map. -/
structure Lockfile where
  lockfileVersion : Option JSVal
  dependencies : List (Str × V1Package)
  packages : List (Str × List Str)

/-- A parsed package manifest: its name and the keys of its
`dependencies` map. -/
structure PackageJson where
  name : Str
  dependencies : List Str

/-- JS truthiness of a possibly-absent JSON value. -/
def jsTruthy : Option JSVal → Bool
  | none => false
  | some (.bool b) => b
  | some .null => false
  | some (.num n) => n ≠ 0
  | some (.str s) => s ≠ []

/-- JS `list.concat(v)` where `v` is the possibly-undefined result of a
map lookup: a missing key appends a single undefined element. -/
def concatPaths (l : List (Option Str)) (v : Option (List Str)) : List (Option Str) :=
  match v with
  | some xs => l ++ xs.map some
  | none => l ++ [none]

/-- The recursive worker `addPackagePathsToMap` of
`buildPackagePathsMapVersion1`: every package name is mapped to all its
installed paths, skipping optional entries whose path does not exist. -/
def addPackagePathsToMap (fsExists : Str → Bool) :
    List (Str × V1Package) → Str → List (Str × List Str) → List (Str × List Str)
  | [], _, m => m
  | (packageName, .mk opt _ deps) :: rest, nodeModulesPath, m =>
    let packagePath := pathJoin nodeModulesPath packageName
    let m1 := if alHas m packageName then m else alSet m packageName []
    if opt = some (.bool true) && !fsExists packagePath then
      addPackagePathsToMap fsExists rest nodeModulesPath m1
    else
      let m2 := alSet m1 packageName ((alGet m1 packageName).getD [] ++ [packagePath])
      let m3 := addPackagePathsToMap fsExists deps
        (pathJoin (pathJoin nodeModulesPath packageName) (strLit ("node_modules/"))) m2
      addPackagePathsToMap fsExists rest nodeModulesPath m3

/-- Function `buildPackagePathsMapVersion1`. -/
def buildPackagePathsMapVersion1 (fsExists : Str → Bool) (lockfile : Lockfile)
    (nodeModulesPath : Str) : List (Str × List Str) :=
  addPackagePathsToMap fsExists lockfile.dependencies nodeModulesPath []

/-- The recursive worker `addDependenciesToMap` of
`dependencyMapFromLockfileVersion1`: each installed path is mapped to the
installed paths of the names of its `requires` map. -/
def addDependenciesToMap (fsExists : Str → Bool) (packagePathsMap : List (Str × List Str)) :
    List (Str × V1Package) → Str → List (Str × List (Option Str)) →
      List (Str × List (Option Str))
  | [], _, dm => dm
  | (packageName, .mk opt reqs deps) :: rest, nodeModulesPath, dm =>
    let packagePath := pathJoin nodeModulesPath packageName
    if jsTruthy opt && !fsExists packagePath then
      addDependenciesToMap fsExists packagePathsMap rest nodeModulesPath dm
    else
      let dm1 := alSet dm packagePath []
      let dm2 := alSet dm1 packagePath
        (reqs.foldl
          (fun acc dependencyName => concatPaths acc (alGet packagePathsMap dependencyName))
          ((alGet dm1 packagePath).getD []))
      let dm3 := addDependenciesToMap fsExists packagePathsMap deps
        (pathJoin (pathJoin nodeModulesPath packageName) (strLit ("node_modules/"))) dm2
      addDependenciesToMap fsExists packagePathsMap rest nodeModulesPath dm3

/-- Function `dependencyMapFromLockfileVersion1`. -/
def dependencyMapFromLockfileVersion1 (fsExists : Str → Bool) (lockfile : Lockfile)
    (packageJson : PackageJson) (rootPath : Str) : List (Str × List (Option Str)) :=
  let nodeModulesPath := pathJoin rootPath (strLit ("node_modules/"))
  let packagePathsMap := buildPackagePathsMapVersion1 fsExists lockfile nodeModulesPath
  let dm0 := alSet ([] : List (Str × List (Option Str))) rootPath []
  let dm1 := alSet dm0 rootPath
    (packageJson.dependencies.foldl
      (fun acc dependencyName => concatPaths acc (alGet packagePathsMap dependencyName))
      ((alGet dm0 rootPath).getD []))
  addDependenciesToMap fsExists packagePathsMap lockfile.dependencies nodeModulesPath dm1

/-- Function `buildPackagePathsMapVersion2or3`: the canonical name of each
relative path is the part after the last `node_modules/`; missing paths
leave the name mapped (possibly to no path). -/
def buildPackagePathsMapVersion2or3 (fsExists : Str → Bool) (lockfile : Lockfile)
    (rootPath : Str) : List (Str × List Str) :=
  lockfile.packages.foldl
    (fun m entry =>
      let packagePath := pathJoin rootPath entry.1
      let pathParts := splitOnSeq (strLit ("node_modules/")) packagePath
      let packageName := pathParts.getLastD []
      let m1 := if alHas m packageName then m else alSet m packageName []
      if !fsExists packagePath then m1
      else alSet m1 packageName ((alGet m1 packageName).getD [] ++ [packagePath]))
    []

/-- Function `dependencyMapFromLockfileVersion2or3`: edges go to the
installed paths of each listed dependency name, skipping names without an
entry in the path map. -/
def dependencyMapFromLockfileVersion2or3 (fsExists : Str → Bool) (lockfile : Lockfile)
    (rootPath : Str) : List (Str × List (Option Str)) :=
  let packagePathsMap := buildPackagePathsMapVersion2or3 fsExists lockfile rootPath
  lockfile.packages.foldl
    (fun dm entry =>
      let packagePath := pathJoin rootPath entry.1
      if !fsExists packagePath then dm
      else
        let dm1 := alSet dm packagePath []
        alSet dm1 packagePath
          (entry.2.foldl
            (fun acc dependencyName =>
              if alHas packagePathsMap dependencyName then
                concatPaths acc (alGet packagePathsMap dependencyName)
              else acc)
            ((alGet dm1 packagePath).getD [])))
    []

/-- Function `getDependencyMap`: dispatch on the lockfile schema version
with strict equality; any version other than 1, 2 or 3 leaves the
dependency map empty. -/
def getDependencyMap (fsExists : Str → Bool) (lockfile : Lockfile)
    (packageJson : PackageJson) (rootPath : Str) : List (Str × List (Option Str)) :=
  if lockfile.lockfileVersion = some (.num 1) then
    dependencyMapFromLockfileVersion1 fsExists lockfile packageJson rootPath
  else if lockfile.lockfileVersion = some (.num 2) ∨ lockfile.lockfileVersion = some (.num 3) then
    dependencyMapFromLockfileVersion2or3 fsExists lockfile rootPath
  else
    []

/-! ## Specification mirror for source enumeration

Definition following the spec words for the amended enumeration claim:
include only files ending in `.js`, `.mjs` or `.cjs`; never descend into
any directory named `node_modules` (directory names as reported by the
directory listing). -/

/-- Spec-side enumeration: every JS file below a directory, never
descending into a directory named `node_modules`. -/
def specJSFiles (dirPath : Str) : List FSEntry → List Str
  | [] => []
  | e :: rest =>
    (match e with
     | .dir name sub =>
       if name ≠ strLit ("node_modules") then specJSFiles (pathJoin dirPath name) sub
       else []
     | .file name => if isJsFileName name then [pathJoin dirPath name] else []
     | .other _ => []) ++ specJSFiles dirPath rest

mutual

/-- All names appearing in a directory tree are free of slashes, as the
names returned by a directory listing are. -/
def fsNamesSlashFree : FSEntry → Bool
  | .file name => !name.contains '/'
  | .other name => !name.contains '/'
  | .dir name sub => !name.contains '/' && fsNamesSlashFreeList sub

/-- List form of `fsNamesSlashFree`. -/
def fsNamesSlashFreeList : List FSEntry → Bool
  | [] => true
  | e :: rest => fsNamesSlashFree e && fsNamesSlashFreeList rest

end

mutual

/-- Parser-shaped sources: wherever an import declaration or a re-export
carries a literal source, that literal is a string (the ECMAScript
grammar only admits string literals there). -/
def wfSources : Node → Bool
  | .program body => wfSourcesList body
  | .expressionStatement e => wfSources e
  | .blockStatement body => wfSourcesList body
  | .identifier _ => true
  | .literal _ => true
  | .callExpression callee args => wfSources callee && wfSourcesList args
  | .newExpression callee args => wfSources callee && wfSourcesList args
  | .memberExpression object property _ => wfSources object && wfSources property
  | .variableDeclaration _ declarations => wfSourcesList declarations
  | .variableDeclarator id init => wfSources id && wfSourcesOpt init
  | .importDeclaration specifiers source =>
    (match source with
     | .literal v => v.isString
     | _ => true) && wfSourcesList specifiers && wfSources source
  | .importSpecifier imported l => wfSources imported && wfSources l
  | .importDefaultSpecifier l => wfSources l
  | .importNamespaceSpecifier l => wfSources l
  | .importExpression source => wfSources source
  | .exportNamedDeclaration declaration specifiers source =>
    (match source with
     | some (.literal v) => v.isString
     | _ => true) && wfSourcesOpt declaration && wfSourcesList specifiers && wfSourcesOpt source
  | .exportSpecifier l exported => wfSources l && wfSources exported
  | .exportAllDeclaration source => wfSources source
  | .objectPattern properties => wfSourcesList properties
  | .arrayPattern elements => wfSourcesOptList elements
  | .property key value => wfSources key && wfSources value
  | .restElement argument => wfSources argument
  | .assignmentPattern left right => wfSources left && wfSources right
  | .functionDeclaration id params body => wfSourcesOpt id && wfSourcesList params && wfSources body
  | .functionExpression id params body => wfSourcesOpt id && wfSourcesList params && wfSources body
  | .arrowFunctionExpression params body => wfSourcesList params && wfSources body
  | .methodDefinition key value => wfSources key && wfSources value

/-- List form of `wfSources`. -/
def wfSourcesList : List Node → Bool
  | [] => true
  | n :: rest => wfSources n && wfSourcesList rest

/-- Optional form of `wfSources`. -/
def wfSourcesOpt : Option Node → Bool
  | none => true
  | some n => wfSources n

/-- Optional-list form of `wfSources`. -/
def wfSourcesOptList : List (Option Node) → Bool
  | [] => true
  | o :: rest => wfSourcesOpt o && wfSourcesOptList rest

end

/-! ## Lemmas about the set model -/

theorem mem_setAdd [DecidableEq α] (l : List α) (a b : α) :
    b ∈ setAdd l a ↔ b ∈ l ∨ b = a := by
  simp only [setAdd]
  split
  · rename_i h
    constructor
    · exact fun hb => Or.inl hb
    · rintro (hb | rfl)
      · exact hb
      · exact h
  · simp

theorem nodup_setAdd [DecidableEq α] (l : List α) (a : α) (h : l.Nodup) :
    (setAdd l a).Nodup := by
  simp only [setAdd]
  split
  · exact h
  · rename_i hna
    simpa [List.nodup_append] using ⟨h, fun hb => hna hb⟩

theorem mem_foldl_setAdd [DecidableEq α] (l : List α) :
    ∀ (init : List α) (b : α), b ∈ l.foldl setAdd init ↔ b ∈ init ∨ b ∈ l := by
  induction l with
  | nil => simp
  | cons x xs ih =>
    intro init b
    simp only [List.foldl_cons]
    rw [ih]
    rw [mem_setAdd]
    simp only [List.mem_cons]
    tauto

theorem nodup_foldl_setAdd [DecidableEq α] (l : List α) :
    ∀ (init : List α), init.Nodup → (l.foldl setAdd init).Nodup := by
  induction l with
  | nil => simp
  | cons x xs ih =>
    intro init h
    simpa using ih (setAdd init x) (nodup_setAdd init x h)

theorem mem_listToSet [DecidableEq α] (l : List α) (b : α) :
    b ∈ listToSet l ↔ b ∈ l := by
  simp [listToSet, mem_foldl_setAdd]

theorem nodup_listToSet [DecidableEq α] (l : List α) : (listToSet l).Nodup :=
  nodup_foldl_setAdd l [] List.nodup_nil

theorem mem_setUnion [DecidableEq α] (a b : List α) (x : α) :
    x ∈ setUnion a b ↔ x ∈ a ∨ x ∈ b := by
  simp [setUnion, mem_foldl_setAdd]

theorem nodup_setUnion [DecidableEq α] (a b : List α) : (setUnion a b).Nodup :=
  nodup_foldl_setAdd b _ (nodup_foldl_setAdd a [] List.nodup_nil)

theorem mem_setIntersection [DecidableEq α] (l : List α) (p : α → Bool) (x : α) :
    x ∈ setIntersection l p ↔ x ∈ l ∧ p x = true := by
  simp only [setIntersection]
  suffices h : ∀ init : List α, x ∈ l.foldl (fun s e => if p e then setAdd s e else s) init ↔
      x ∈ init ∨ (x ∈ l ∧ p x = true) by
    simpa using h []
  induction l with
  | nil => simp
  | cons y ys ih =>
    intro init
    simp only [List.foldl_cons]
    split
    · rename_i hy
      rw [ih]
      rw [mem_setAdd]
      simp only [List.mem_cons]
      constructor
      · rintro ((h | rfl) | h)
        · exact Or.inl h
        · exact Or.inr ⟨Or.inl rfl, hy⟩
        · exact Or.inr ⟨Or.inr h.1, h.2⟩
      · rintro (h | ⟨(rfl | h), hp⟩)
        · exact Or.inl (Or.inl h)
        · exact Or.inl (Or.inr rfl)
        · exact Or.inr ⟨h, hp⟩
    · rename_i hy
      rw [ih]
      simp only [List.mem_cons]
      constructor
      · rintro (h | h)
        · exact Or.inl h
        · exact Or.inr ⟨Or.inr h.1, h.2⟩
      · rintro (h | ⟨(rfl | h), hp⟩)
        · exact Or.inl h
        · exact absurd hp hy
        · exact Or.inr ⟨h, hp⟩

theorem mem_setFilter [DecidableEq α] (l : List α) (p : α → Bool) (x : α) :
    x ∈ setFilter l p ↔ x ∈ l ∧ p x = true :=
  mem_setIntersection l p x

theorem mem_setMap [DecidableEq α] [DecidableEq β] (l : List α) (f : α → β) (y : β) :
    y ∈ setMap l f ↔ ∃ x ∈ l, y = f x := by
  simp only [setMap]
  suffices h : ∀ init : List β, y ∈ l.foldl (fun s e => setAdd s (f e)) init ↔
      y ∈ init ∨ ∃ x ∈ l, y = f x by
    simpa using h []
  induction l with
  | nil => simp
  | cons a as ih =>
    intro init
    simp only [List.foldl_cons]
    rw [ih]
    rw [mem_setAdd]
    simp only [List.mem_cons]
    constructor
    · rintro ((h | rfl) | ⟨x, hx, rfl⟩)
      · exact Or.inl h
      · exact Or.inr ⟨a, Or.inl rfl, rfl⟩
      · exact Or.inr ⟨x, Or.inr hx, rfl⟩
    · rintro (h | ⟨x, (rfl | hx), rfl⟩)
      · exact Or.inl (Or.inl h)
      · exact Or.inl (Or.inr rfl)
      · exact Or.inr ⟨x, hx, rfl⟩

/-! ## Membership normal form for the import extraction -/

mutual

/-- The imports contributed by a subtree (possibly with duplicates): the
visitor additions of the node followed by the contributions of its
children.  `extractImportsAcc` accumulates exactly these elements. -/
def impsOfN : Node → List JSVal
  | n@(.program body) => importsVisit [] n ++ impsOfL body
  | n@(.expressionStatement e) => importsVisit [] n ++ impsOfN e
  | n@(.blockStatement body) => importsVisit [] n ++ impsOfL body
  | n@(.identifier _) => importsVisit [] n
  | n@(.literal _) => importsVisit [] n
  | n@(.callExpression callee args) => importsVisit [] n ++ impsOfN callee ++ impsOfL args
  | n@(.newExpression callee args) => importsVisit [] n ++ impsOfN callee ++ impsOfL args
  | n@(.memberExpression object property _) =>
    importsVisit [] n ++ impsOfN object ++ impsOfN property
  | n@(.variableDeclaration _ declarations) => importsVisit [] n ++ impsOfL declarations
  | n@(.variableDeclarator id init) =>
    importsVisit [] n ++ impsOfN id ++ (match init with | some i => impsOfN i | none => [])
  | n@(.importDeclaration specifiers source) =>
    importsVisit [] n ++ impsOfL specifiers ++ impsOfN source
  | n@(.importSpecifier _ _) => importsVisit [] n
  | n@(.importDefaultSpecifier _) => importsVisit [] n
  | n@(.importNamespaceSpecifier _) => importsVisit [] n
  | n@(.importExpression source) => importsVisit [] n ++ impsOfN source
  | n@(.exportNamedDeclaration declaration _ source) =>
    importsVisit [] n ++ (match declaration with | some d => impsOfN d | none => []) ++
      (match source with | some src => impsOfN src | none => [])
  | n@(.exportSpecifier _ _) => importsVisit [] n
  | n@(.exportAllDeclaration source) => importsVisit [] n ++ impsOfN source
  | n@(.objectPattern properties) => importsVisit [] n ++ impsOfL properties
  | n@(.arrayPattern elements) => importsVisit [] n ++ impsOfO elements
  | n@(.property key value) => importsVisit [] n ++ impsOfN key ++ impsOfN value
  | n@(.restElement argument) => importsVisit [] n ++ impsOfN argument
  | n@(.assignmentPattern left right) => importsVisit [] n ++ impsOfN left ++ impsOfN right
  | n@(.functionDeclaration id params body) =>
    importsVisit [] n ++ (match id with | some i => impsOfN i | none => []) ++
      impsOfL params ++ impsOfN body
  | n@(.functionExpression id params body) =>
    importsVisit [] n ++ (match id with | some i => impsOfN i | none => []) ++
      impsOfL params ++ impsOfN body
  | n@(.arrowFunctionExpression params body) => importsVisit [] n ++ impsOfL params ++ impsOfN body
  | n@(.methodDefinition key value) => importsVisit [] n ++ impsOfN key ++ impsOfN value

/-- List form of `impsOfN`. -/
def impsOfL : List Node → List JSVal
  | [] => []
  | n :: rest => impsOfN n ++ impsOfL rest

/-- Optional-list form of `impsOfN`. -/
def impsOfO : List (Option Node) → List JSVal
  | [] => []
  | none :: rest => impsOfO rest
  | some n :: rest => impsOfN n ++ impsOfO rest

end

theorem mem_importsVisit (acc : List JSVal) (n : Node) (v : JSVal) :
    v ∈ importsVisit acc n ↔ v ∈ acc ∨ v ∈ importsVisit [] n := by
  cases n <;> simp only [importsVisit] <;> (repeat' split) <;> simp [mem_setAdd]

mutual

theorem mem_extractImportsAcc :
    ∀ (n : Node) (acc : List JSVal) (v : JSVal),
      v ∈ extractImportsAcc acc n ↔ v ∈ acc ∨ v ∈ impsOfN n := by
  intro n
  cases n with
  | program body =>
    intro acc v
    simp only [extractImportsAcc, impsOfN]
    rw [mem_extractImportsListAcc body, mem_importsVisit]
    simp only [List.mem_append]
    tauto
  | expressionStatement e =>
    intro acc v
    simp only [extractImportsAcc, impsOfN]
    rw [mem_extractImportsAcc e, mem_importsVisit]
    simp only [List.mem_append]
    tauto
  | blockStatement body =>
    intro acc v
    simp only [extractImportsAcc, impsOfN]
    rw [mem_extractImportsListAcc body, mem_importsVisit]
    simp only [List.mem_append]
    tauto
  | identifier nm =>
    intro acc v
    simp only [extractImportsAcc, impsOfN]
    exact mem_importsVisit acc _ v
  | literal w =>
    intro acc v
    simp only [extractImportsAcc, impsOfN]
    exact mem_importsVisit acc _ v
  | callExpression callee args =>
    intro acc v
    simp only [extractImportsAcc, impsOfN]
    rw [mem_extractImportsListAcc args, mem_extractImportsAcc callee, mem_importsVisit]
    simp only [List.mem_append]
    tauto
  | newExpression callee args =>
    intro acc v
    simp only [extractImportsAcc, impsOfN]
    rw [mem_extractImportsListAcc args, mem_extractImportsAcc callee, mem_importsVisit]
    simp only [List.mem_append]
    tauto
  | memberExpression object property computed =>
    intro acc v
    simp only [extractImportsAcc, impsOfN]
    rw [mem_extractImportsAcc property, mem_extractImportsAcc object, mem_importsVisit]
    simp only [List.mem_append]
    tauto
  | variableDeclaration kind declarations =>
    intro acc v
    simp only [extractImportsAcc, impsOfN]
    rw [mem_extractImportsListAcc declarations, mem_importsVisit]
    simp only [List.mem_append]
    tauto
  | variableDeclarator id init =>
    intro acc v
    cases init with
    | some i =>
      simp only [extractImportsAcc, impsOfN]
      rw [mem_extractImportsAcc i, mem_extractImportsAcc id, mem_importsVisit]
      simp only [List.mem_append]
      tauto
    | none =>
      simp only [extractImportsAcc, impsOfN]
      rw [mem_extractImportsAcc id, mem_importsVisit]
      simp only [List.mem_append, List.not_mem_nil]
      tauto
  | importDeclaration specifiers source =>
    intro acc v
    simp only [extractImportsAcc, impsOfN]
    rw [mem_extractImportsAcc source, mem_extractImportsListAcc specifiers, mem_importsVisit]
    simp only [List.mem_append]
    tauto
  | importSpecifier imported l =>
    intro acc v
    simp only [extractImportsAcc, impsOfN]
    exact mem_importsVisit acc _ v
  | importDefaultSpecifier l =>
    intro acc v
    simp only [extractImportsAcc, impsOfN]
    exact mem_importsVisit acc _ v
  | importNamespaceSpecifier l =>
    intro acc v
    simp only [extractImportsAcc, impsOfN]
    exact mem_importsVisit acc _ v
  | importExpression source =>
    intro acc v
    simp only [extractImportsAcc, impsOfN]
    rw [mem_extractImportsAcc source, mem_importsVisit]
    simp only [List.mem_append]
    tauto
  | exportNamedDeclaration declaration specifiers source =>
    intro acc v
    cases declaration with
    | some d =>
      cases source with
      | some src =>
        simp only [extractImportsAcc, impsOfN]
        rw [mem_extractImportsAcc src, mem_extractImportsAcc d, mem_importsVisit]
        simp only [List.mem_append]
        tauto
      | none =>
        simp only [extractImportsAcc, impsOfN]
        rw [mem_extractImportsAcc d, mem_importsVisit]
        simp only [List.mem_append, List.not_mem_nil]
        tauto
    | none =>
      cases source with
      | some src =>
        simp only [extractImportsAcc, impsOfN]
        rw [mem_extractImportsAcc src, mem_importsVisit]
        simp only [List.mem_append, List.not_mem_nil]
        tauto
      | none =>
        simp only [extractImportsAcc, impsOfN]
        rw [mem_importsVisit]
        simp only [List.mem_append, List.not_mem_nil]
        tauto
  | exportSpecifier l exported =>
    intro acc v
    simp only [extractImportsAcc, impsOfN]
    exact mem_importsVisit acc _ v
  | exportAllDeclaration source =>
    intro acc v
    simp only [extractImportsAcc, impsOfN]
    rw [mem_extractImportsAcc source, mem_importsVisit]
    simp only [List.mem_append]
    tauto
  | objectPattern properties =>
    intro acc v
    simp only [extractImportsAcc, impsOfN]
    rw [mem_extractImportsListAcc properties, mem_importsVisit]
    simp only [List.mem_append]
    tauto
  | arrayPattern elements =>
    intro acc v
    simp only [extractImportsAcc, impsOfN]
    rw [mem_extractImportsOptListAcc elements, mem_importsVisit]
    simp only [List.mem_append]
    tauto
  | property key value =>
    intro acc v
    simp only [extractImportsAcc, impsOfN]
    rw [mem_extractImportsAcc value, mem_extractImportsAcc key, mem_importsVisit]
    simp only [List.mem_append]
    tauto
  | restElement argument =>
    intro acc v
    simp only [extractImportsAcc, impsOfN]
    rw [mem_extractImportsAcc argument, mem_importsVisit]
    simp only [List.mem_append]
    tauto
  | assignmentPattern left right =>
    intro acc v
    simp only [extractImportsAcc, impsOfN]
    rw [mem_extractImportsAcc right, mem_extractImportsAcc left, mem_importsVisit]
    simp only [List.mem_append]
    tauto
  | functionDeclaration id params body =>
    intro acc v
    cases id with
    | some i =>
      simp only [extractImportsAcc, impsOfN]
      rw [mem_extractImportsAcc body, mem_extractImportsListAcc params,
        mem_extractImportsAcc i, mem_importsVisit]
      simp only [List.mem_append]
      tauto
    | none =>
      simp only [extractImportsAcc, impsOfN]
      rw [mem_extractImportsAcc body, mem_extractImportsListAcc params, mem_importsVisit]
      simp only [List.mem_append, List.not_mem_nil]
      tauto
  | functionExpression id params body =>
    intro acc v
    cases id with
    | some i =>
      simp only [extractImportsAcc, impsOfN]
      rw [mem_extractImportsAcc body, mem_extractImportsListAcc params,
        mem_extractImportsAcc i, mem_importsVisit]
      simp only [List.mem_append]
      tauto
    | none =>
      simp only [extractImportsAcc, impsOfN]
      rw [mem_extractImportsAcc body, mem_extractImportsListAcc params, mem_importsVisit]
      simp only [List.mem_append, List.not_mem_nil]
      tauto
  | arrowFunctionExpression params body =>
    intro acc v
    simp only [extractImportsAcc, impsOfN]
    rw [mem_extractImportsAcc body, mem_extractImportsListAcc params, mem_importsVisit]
    simp only [List.mem_append]
    tauto
  | methodDefinition key value =>
    intro acc v
    simp only [extractImportsAcc, impsOfN]
    rw [mem_extractImportsAcc value, mem_extractImportsAcc key, mem_importsVisit]
    simp only [List.mem_append]
    tauto

theorem mem_extractImportsListAcc :
    ∀ (ns : List Node) (acc : List JSVal) (v : JSVal),
      v ∈ extractImportsListAcc acc ns ↔ v ∈ acc ∨ v ∈ impsOfL ns := by
  intro ns
  cases ns with
  | nil => intro acc v; simp [extractImportsListAcc, impsOfL]
  | cons n rest =>
    intro acc v
    simp only [extractImportsListAcc, impsOfL]
    rw [mem_extractImportsListAcc rest, mem_extractImportsAcc n]
    simp only [List.mem_append]
    tauto

theorem mem_extractImportsOptListAcc :
    ∀ (ns : List (Option Node)) (acc : List JSVal) (v : JSVal),
      v ∈ extractImportsOptListAcc acc ns ↔ v ∈ acc ∨ v ∈ impsOfO ns := by
  intro ns
  cases ns with
  | nil => intro acc v; simp [extractImportsOptListAcc, impsOfO]
  | cons o rest =>
    cases o with
    | none =>
      intro acc v
      simp only [extractImportsOptListAcc, impsOfO]
      exact mem_extractImportsOptListAcc rest acc v
    | some n =>
      intro acc v
      simp only [extractImportsOptListAcc, impsOfO]
      rw [mem_extractImportsOptListAcc rest, mem_extractImportsAcc n]
      simp only [List.mem_append]
      tauto

end

/-- The import set of an AST holds exactly the subtree contributions. -/
theorem mem_extractImportsFromAST (ast : Node) (v : JSVal) :
    v ∈ extractImportsFromAST ast ↔ v ∈ impsOfN ast := by
  rw [extractImportsFromAST, mem_extractImportsAcc]
  simp

/-! ## Environment lemmas -/

/-- The module annotations reachable in an environment chain. -/
def envMods (env : Env) : List JSVal :=
  (env.map (fun f => f.vars.filterMap (fun v => v.module))).flatten

theorem mem_envMods (env : Env) (m : JSVal) :
    m ∈ envMods env ↔ ∃ f ∈ env, ∃ v ∈ f.vars, v.module = some m := by
  simp only [envMods, List.mem_flatten, List.mem_map]
  constructor
  · rintro ⟨l, ⟨f, hf, hl⟩, hm⟩
    subst hl
    rw [List.mem_filterMap] at hm
    obtain ⟨v, hv, hvm⟩ := hm
    exact ⟨f, hf, v, hv, hvm⟩
  · rintro ⟨f, hf, v, hv, hvm⟩
    refine ⟨f.vars.filterMap (fun w => w.module), ⟨f, hf, rfl⟩, ?_⟩
    rw [List.mem_filterMap]
    exact ⟨v, hv, hvm⟩

theorem except_bind_ok {α β : Type} (x : Except Str α) (g : α → Except Str β) (r : β) :
    (x >>= g) = .ok r ↔ ∃ a, x = .ok a ∧ g a = .ok r := by
  cases x with
  | error e => simp [Bind.bind, Except.bind]
  | ok a => simp [Bind.bind, Except.bind]

theorem foldlM_except_inv {α β : Type} (l₀ : List α) (f : β → α → Except Str β)
    (P : β → β → Prop)
    (hrefl : ∀ b, P b b) (htrans : ∀ a b c, P a b → P b c → P a c)
    (hstep : ∀ b x b', x ∈ l₀ → f b x = .ok b' → P b b') :
    ∀ (l : List α), (∀ x ∈ l, x ∈ l₀) → ∀ (b b' : β), l.foldlM f b = .ok b' → P b b' := by
  intro l
  induction l with
  | nil =>
    intro _ b b' h
    simp only [List.foldlM_nil] at h
    cases h
    exact hrefl b
  | cons x xs ih =>
    intro hsub b b' h
    simp only [List.foldlM_cons] at h
    rw [except_bind_ok] at h
    obtain ⟨mid, hmid, hrest⟩ := h
    exact htrans b mid b' (hstep b x mid (hsub x (List.mem_cons_self x xs)) hmid)
      (ih (fun y hy => hsub y (List.mem_cons_of_mem x hy)) mid b' hrest)

theorem addVar_mods (env : Env) (v : Variable) (env' : Env) (hv : v.module = none)
    (h : Env.addVar env v = .ok env') : envMods env' = envMods env := by
  cases env with
  | nil => simp [Env.addVar] at h
  | cons f rest =>
    simp only [Env.addVar] at h
    cases h
    simp [envMods, List.filterMap_append, hv]

theorem addVarToFunctionScope_mods (v : Variable) (hv : v.module = none) :
    ∀ (env env' : Env), Env.addVarToFunctionScope env v = .ok env' →
      envMods env' = envMods env := by
  intro env
  induction env with
  | nil => intro env' h; simp [Env.addVarToFunctionScope] at h
  | cons f rest ih =>
    intro env' h
    cases rest with
    | nil =>
      simp only [Env.addVarToFunctionScope] at h
      cases h
      simp [envMods, List.filterMap_append, hv]
    | cons g rest2 =>
      simp only [Env.addVarToFunctionScope] at h
      split at h
      · cases h
        simp [envMods, List.filterMap_append, hv]
      · rw [except_bind_ok] at h
        obtain ⟨mid, hmid, hrest⟩ := h
        simp only [Except.ok.injEq] at hrest
        subst hrest
        have := ih mid hmid
        simp only [envMods, List.map_cons, List.flatten_cons] at this ⊢
        rw [this]

theorem lookupVar_mods (nm : Option Str) :
    ∀ (env : Env) (v : Variable) (m : JSVal), lookupVar env nm = some v →
      v.module = some m → m ∈ envMods env := by
  intro env
  induction env with
  | nil => intro v m h; simp [lookupVar] at h
  | cons f rest ih =>
    intro v m h hm
    simp only [lookupVar] at h
    rw [mem_envMods]
    cases hf : f.vars.find? (fun w => w.name = nm) with
    | some w =>
      rw [hf] at h
      cases h
      exact ⟨f, List.mem_cons_self f rest, v, List.mem_of_find?_eq_some hf, hm⟩
    | none =>
      rw [hf] at h
      have := ih v m h hm
      rw [mem_envMods] at this
      obtain ⟨g, hg, w, hw, hwm⟩ := this
      exact ⟨g, List.mem_cons_of_mem f hg, w, hw, hwm⟩

theorem setVarInVars_mods (nm : Option Str) (w : JSVal) :
    ∀ (vars : List Variable) (v : Variable), v ∈ setVarInVars vars nm w →
      v.module = some w ∨ v ∈ vars := by
  intro vars
  induction vars with
  | nil => intro v h; simp [setVarInVars] at h
  | cons x xs ih =>
    intro v h
    simp only [setVarInVars] at h
    split at h
    · rcases List.mem_cons.mp h with rfl | h2
      · exact Or.inl rfl
      · exact Or.inr (List.mem_cons.mpr (Or.inr h2))
    · rcases List.mem_cons.mp h with rfl | h2
      · exact Or.inr (List.mem_cons.mpr (Or.inl rfl))
      · rcases ih v h2 with h3 | h3
        · exact Or.inl h3
        · exact Or.inr (List.mem_cons.mpr (Or.inr h3))

theorem setVarModule_mods (nm : Option Str) (w : JSVal) :
    ∀ (env : Env) (m : JSVal), m ∈ envMods (setVarModule env nm w) →
      m = w ∨ m ∈ envMods env := by
  intro env
  induction env with
  | nil =>
    intro m h
    exact Or.inr (by simpa [setVarModule] using h)
  | cons f rest ih =>
    intro m h
    simp only [setVarModule] at h
    split at h
    · rw [mem_envMods] at h
      obtain ⟨g, hg, v, hv, hm⟩ := h
      rcases List.mem_cons.mp hg with rfl | hg2
      · simp only at hv
        rcases setVarInVars_mods nm w f.vars v hv with h3 | h3
        · rw [h3] at hm
          cases hm
          exact Or.inl rfl
        · exact Or.inr ((mem_envMods _ m).mpr ⟨f, List.mem_cons_self f rest, v, h3, hm⟩)
      · exact Or.inr ((mem_envMods _ m).mpr
          ⟨g, List.mem_cons_of_mem f hg2, v, hv, hm⟩)
    · rw [mem_envMods] at h
      obtain ⟨g, hg, v, hv, hm⟩ := h
      rcases List.mem_cons.mp hg with rfl | hg2
      · exact Or.inr ((mem_envMods _ m).mpr ⟨g, List.mem_cons_self g rest, v, hv, hm⟩)
      · rcases ih m ((mem_envMods _ m).mpr ⟨g, hg2, v, hv, hm⟩) with h3 | h3
        · exact Or.inl h3
        · rw [mem_envMods] at h3
          obtain ⟨g2, hg2b, v2, hv2, hm2⟩ := h3
          exact Or.inr ((mem_envMods _ m).mpr ⟨g2, List.mem_cons_of_mem f hg2b, v2, hv2, hm2⟩)

theorem getVarNamed_ok (env : Env) (nm : Option Str) (r : Option Variable)
    (h : Env.getVarNamed env nm = .ok r) : r = lookupVar env nm := by
  cases env with
  | nil => simp [Env.getVarNamed] at h
  | cons f rest =>
    simp only [Env.getVarNamed] at h
    cases h
    rfl

theorem getModRefVarNamed_mods (env : Env) (nm : Option Str) (v : Variable)
    (h : Env.getModRefVarNamed env nm = .ok (some v)) :
    ∃ m, v.module = some m ∧ m ∈ envMods env := by
  simp only [Env.getModRefVarNamed] at h
  rw [except_bind_ok] at h
  obtain ⟨ov, hov, hr⟩ := h
  have hlook := getVarNamed_ok env nm ov hov
  cases ov with
  | none => simp [pure, Except.pure] at hr
  | some w =>
    simp only [pure, Except.pure, Except.ok.injEq] at hr
    split at hr
    · cases hr
    · rename_i hmod
      cases hr
      cases hw : v.module with
      | none => exact absurd hw hmod
      | some m => exact ⟨m, rfl, lookupVar_mods nm env v m hlook.symm hw⟩

/-! ## Tracker lemmas -/

theorem isString_iff (v : JSVal) : v.isString = true ↔ ∃ s, v = .str s := by
  cases v <;> simp [JSVal.isString]

theorem initialVarsForFunction_none (ancestors : List Node) (vs : List Variable)
    (h : initialVarsForFunction ancestors = .ok vs) : ∀ v ∈ vs, v.module = none := by
  simp only [initialVarsForFunction] at h
  split at h
  · split at h
    · rw [except_bind_ok] at h
      obtain ⟨nms, _, h2⟩ := h
      simp only [Except.ok.injEq] at h2
      subst h2
      intro v hv
      rw [List.mem_map] at hv
      obtain ⟨nm, _, rfl⟩ := hv
      rfl
    · cases h
  · cases h

theorem trackScope_mods (n : Node) (ancestors : List Node) (env env' : Env)
    (h : trackScope n ancestors env = .ok env') :
    ∀ m ∈ envMods env', m ∈ envMods env := by
  cases n <;> simp only [trackScope] at h <;>
    first
    | (cases h; exact fun m hm => hm)
    | skip
  case program body =>
    cases h
    intro m hm
    rw [mem_envMods] at hm
    obtain ⟨f, hf, v, hv, _⟩ := hm
    rcases List.mem_singleton.mp hf with rfl
    simp at hv
  case blockStatement body =>
    split at h
    · cases h
    · split at h
      · rw [except_bind_ok] at h
        obtain ⟨ivs, hivs, h2⟩ := h
        simp only [Except.ok.injEq] at h2
        subst h2
        intro m hm
        rw [mem_envMods] at hm
        obtain ⟨f, hf, v, hv, hvm⟩ := hm
        rcases List.mem_cons.mp hf with rfl | hf2
        · simp only at hv
          have := initialVarsForFunction_none ancestors ivs hivs v hv
          rw [this] at hvm
          cases hvm
        · exact (mem_envMods env m).mpr ⟨f, hf2, v, hv, hvm⟩
      · split at h
        · rw [except_bind_ok] at h
          obtain ⟨ivs, hivs, h2⟩ := h
          simp only [Except.ok.injEq] at h2
          subst h2
          intro m hm
          rw [mem_envMods] at hm
          obtain ⟨f, hf, v, hv, hvm⟩ := hm
          rcases List.mem_cons.mp hf with rfl | hf2
          · simp only at hv
            have := initialVarsForFunction_none ancestors ivs hivs v hv
            rw [this] at hvm
            cases hvm
          · exact (mem_envMods env m).mpr ⟨f, hf2, v, hv, hvm⟩
        · cases h
          intro m hm
          rw [mem_envMods] at hm
          obtain ⟨f, hf, v, hv, hvm⟩ := hm
          rcases List.mem_cons.mp hf with rfl | hf2
          · simp at hv
          · exact (mem_envMods env m).mpr ⟨f, hf2, v, hv, hvm⟩

theorem trackVars_mods (n : Node) (env env' : Env)
    (h : trackVars n env = .ok env') : envMods env' = envMods env := by
  cases n <;> simp only [trackVars] at h <;>
    first
    | (cases h; rfl)
    | skip
  case importDeclaration specifiers source =>
    refine foldlM_except_inv (identifiersFromImportDeclaration (.importDeclaration specifiers source))
      _ (fun e e' => envMods e' = envMods e) (fun _ => rfl)
      (fun a b c h1 h2 => h2.trans h1) ?_ _ (fun x hx => hx) env env' h
    intro e x e' _ hstep
    exact addVar_mods e _ e' rfl hstep
  case variableDeclaration kind declarations =>
    rw [except_bind_ok] at h
    obtain ⟨ids, _, h2⟩ := h
    split at h2
    · refine foldlM_except_inv ids _ (fun e e' => envMods e' = envMods e) (fun _ => rfl)
        (fun a b c h1 h2 => h2.trans h1) ?_ _ (fun x hx => hx) env env' h2
      intro e x e' _ hstep
      exact addVarToFunctionScope_mods _ rfl e e' hstep
    · refine foldlM_except_inv ids _ (fun e e' => envMods e' = envMods e) (fun _ => rfl)
        (fun a b c h1 h2 => h2.trans h1) ?_ _ (fun x hx => hx) env env' h2
      intro e x e' _ hstep
      exact addVar_mods e _ e' rfl hstep

theorem requireInitShape_mem (init : Node) (h : requireInitShape init = true) :
    requireArgValue init ∈ impsOfN init ∧ (requireArgValue init).isString = true := by
  cases init <;> simp only [requireInitShape] at h
  case callExpression callee args =>
    rw [Bool.and_eq_true] at h
    obtain ⟨h1, h2⟩ := h
    cases args with
    | nil => simp at h2
    | cons a rest =>
      cases a <;> try cases h2
      rename_i v
      refine ⟨?_, h2⟩
      simp only [requireArgValue, impsOfN, List.mem_append]
      left; left
      cases callee <;> simp only [nodeNameField] at h1 <;> try cases h1
      rename_i cn
      simp only [importsVisit]
      rw [if_pos (of_decide_eq_true h1)]
      simp [mem_setAdd]
  case newExpression callee args =>
    rw [Bool.and_eq_true] at h
    obtain ⟨h1, h2⟩ := h
    cases args with
    | nil => simp at h2
    | cons a rest =>
      cases a <;> try cases h2
      rename_i v
      refine ⟨?_, h2⟩
      simp only [requireArgValue, impsOfN, List.mem_append]
      left; left
      cases callee <;> simp only [nodeNameField] at h1 <;> try cases h1
      rename_i cn
      simp only [importsVisit]
      rw [if_pos (of_decide_eq_true h1)]
      simp [mem_setAdd]
  all_goals cases h

theorem validRequireCall_shape (d : Node) (h : validRequireCall d = true) :
    ∃ nm init, d = .variableDeclarator (.identifier nm) (some init) ∧
      requireInitShape init = true := by
  cases d <;> simp only [validRequireCall] at h <;> try cases h
  case variableDeclarator id init =>
    cases init with
    | none => cases h
    | some i =>
      rw [Bool.and_eq_true] at h
      obtain ⟨h1, h2⟩ := h
      cases id <;> try cases h1
      rename_i nm
      refine ⟨nm, i, rfl, ?_⟩
      cases i <;> try cases h2
      · -- call expression
        rename_i callee args
        simp only [requireInitShape]
        rw [Bool.and_eq_true] at h2 ⊢
        refine ⟨?_, h2.2⟩
        have h21 := h2.1
        cases callee <;> simp only [nodeNameField] <;> try cases h21
        exact h21
      · -- new expression
        rename_i callee args
        simp only [requireInitShape]
        rw [Bool.and_eq_true] at h2 ⊢
        refine ⟨?_, h2.2⟩
        have h21 := h2.1
        cases callee <;> simp only [nodeNameField] <;> try cases h21
        exact h21

theorem mem_impsOfL_of_mem {d : Node} {v : JSVal} :
    ∀ (ds : List Node), d ∈ ds → v ∈ impsOfN d → v ∈ impsOfL ds := by
  intro ds
  induction ds with
  | nil => intro h; simp at h
  | cons e es ih =>
    intro hd hv
    simp only [impsOfL, List.mem_append]
    rcases List.mem_cons.mp hd with rfl | hd2
    · exact Or.inl hv
    · exact Or.inr (ih hd2 hv)

theorem trackModRefDeclarator_mods (env : Env) (d : Node) (env' : Env)
    (h : trackModRefDeclarator env d = .ok env') :
    ∀ m ∈ envMods env', m ∈ envMods env ∨
      (m ∈ impsOfN d ∧ ∃ s, m = .str s) := by
  simp only [trackModRefDeclarator] at h
  split at h
  · rename_i hvalid
    obtain ⟨nm, init, rfl, hshape⟩ := validRequireCall_shape d hvalid
    simp only at h
    rw [except_bind_ok] at h
    obtain ⟨ov, _, h2⟩ := h
    cases ov with
    | none => cases h2
    | some w =>
      simp only [Except.ok.injEq] at h2
      subst h2
      intro m hm
      rcases setVarModule_mods _ _ env m hm with rfl | h3
      · obtain ⟨hmem, hstr⟩ := requireInitShape_mem init hshape
        refine Or.inr ⟨?_, (isString_iff _).mp hstr⟩
        simp only [impsOfN, List.mem_append]
        right
        exact hmem
      · exact Or.inl h3
  · split at h
    · rename_i nm inm
      rw [except_bind_ok] at h
      obtain ⟨mr, hmr, h2⟩ := h
      cases mr with
      | none =>
        simp only [pure, Except.pure, Except.ok.injEq] at h2
        subst h2
        exact fun m hm => Or.inl hm
      | some mv =>
        dsimp only at h2
        obtain ⟨m0, hm0, hm0mem⟩ := getModRefVarNamed_mods env _ mv hmr
        rw [hm0] at h2
        dsimp only at h2
        rw [except_bind_ok] at h2
        obtain ⟨ov, _, h3⟩ := h2
        cases ov with
        | none => cases h3
        | some w =>
          simp only [Except.ok.injEq] at h3
          subst h3
          intro m hm
          rcases setVarModule_mods _ _ env m hm with rfl | h4
          · exact Or.inl hm0mem
          · exact Or.inl h4
    · cases h
      exact fun m hm => Or.inl hm

theorem trackModuleReferencingVars_mods (n : Node) (env env' : Env)
    (hwf : wfSources n = true)
    (h : trackModuleReferencingVars n env = .ok env') :
    ∀ m ∈ envMods env', m ∈ envMods env ∨ (m ∈ impsOfN n ∧ ∃ s, m = .str s) := by
  cases n <;> simp only [trackModuleReferencingVars] at h <;>
    first
    | (cases h; exact fun m hm => Or.inl hm)
    | skip
  case variableDeclaration kind declarations =>
    refine foldlM_except_inv declarations _
      (fun e e' => ∀ m ∈ envMods e', m ∈ envMods e ∨
        (m ∈ impsOfN (.variableDeclaration kind declarations) ∧ ∃ s, m = .str s))
      (fun _ m hm => Or.inl hm) ?_ ?_ _ (fun x hx => hx) env env' h
    · intro a b c h1 h2 m hm
      rcases h2 m hm with h3 | h3
      · exact h1 m h3
      · exact Or.inr h3
    · intro e d e' hd hstep m hm
      rcases trackModRefDeclarator_mods e d e' hstep m hm with h3 | ⟨h3, hs⟩
      · exact Or.inl h3
      · refine Or.inr ⟨?_, hs⟩
        simp only [impsOfN, List.mem_append]
        exact Or.inr (mem_impsOfL_of_mem declarations hd h3)
  case importDeclaration specifiers source =>
    split at h
    · rename_i v
      have hvs : ∃ s, v = .str s := by
        simp only [wfSources, Bool.and_eq_true] at hwf
        exact (isString_iff v).mp hwf.1.1
      have hvmem : v ∈ impsOfN (.importDeclaration specifiers (.literal v)) := by
        simp only [impsOfN, List.mem_append, importsVisit]
        left; left
        simp [mem_setAdd]
      refine foldlM_except_inv specifiers _
        (fun e e' => ∀ m ∈ envMods e', m ∈ envMods e ∨
          (m ∈ impsOfN (.importDeclaration specifiers (.literal v)) ∧ ∃ s, m = .str s))
        (fun _ m hm => Or.inl hm) ?_ ?_ _ (fun x hx => hx) env env' h
      · intro a b c h1 h2 m hm
        rcases h2 m hm with h3 | h3
        · exact h1 m h3
        · exact Or.inr h3
      · intro e s e' _ hstep m hm
        cases s <;> simp only at hstep <;>
          first
          | (cases hstep; exact Or.inl hm)
          | skip
        case importDefaultSpecifier l =>
          rw [except_bind_ok] at hstep
          obtain ⟨ov, _, h2⟩ := hstep
          cases ov with
          | none => cases h2
          | some w =>
            simp only [Except.ok.injEq] at h2
            subst h2
            rcases setVarModule_mods _ _ e m hm with rfl | h4
            · exact Or.inr ⟨hvmem, hvs⟩
            · exact Or.inl h4
        case importNamespaceSpecifier l =>
          rw [except_bind_ok] at hstep
          obtain ⟨ov, _, h2⟩ := hstep
          cases ov with
          | none => cases h2
          | some w =>
            simp only [Except.ok.injEq] at h2
            subst h2
            rcases setVarModule_mods _ _ e m hm with rfl | h4
            · exact Or.inr ⟨hvmem, hvs⟩
            · exact Or.inl h4
    · cases h
      exact fun m hm => Or.inl hm

/-- The shape of every member string the tracer records: a module part
that is a known module value (from the environment annotations or the
subtree imports), or the stringified undefined prefix. -/
def GoodMember (env : Env) (I : List JSVal) (s : Str) : Prop :=
  (∃ ms x, s = ms ++ '.' :: x ∧ (JSVal.str ms ∈ envMods env ∨ JSVal.str ms ∈ I)) ∨
  (∃ x, s = strLit ("undefined") ++ '.' :: x)

theorem goodMember_mono {env env2 : Env} {I I2 : List JSVal} {s : Str}
    (henv : ∀ v, v ∈ envMods env → v ∈ envMods env2 ∨ (v ∈ I2 ∧ ∃ t, v = .str t))
    (hI : ∀ v, v ∈ I → v ∈ I2) :
    GoodMember env I s → GoodMember env2 I2 s := by
  rintro (⟨ms, x, rfl, hm | hm⟩ | ⟨x, rfl⟩)
  · rcases henv _ hm with h2 | ⟨h2, _⟩
    · exact Or.inl ⟨ms, x, rfl, Or.inl h2⟩
    · exact Or.inl ⟨ms, x, rfl, Or.inr h2⟩
  · exact Or.inl ⟨ms, x, rfl, Or.inr (hI _ hm)⟩
  · exact Or.inr ⟨x, rfl⟩

theorem mem_foldl_addlike {β : Type} (F : List Str → β → List Str) (Q : β → Str → Prop)
    (hF : ∀ a b, F a b = a ∨ ∃ str, F a b = setAdd a str ∧ Q b str) :
    ∀ (l : List β) (acc : List Str) (s : Str), s ∈ l.foldl F acc →
      s ∈ acc ∨ ∃ b ∈ l, Q b s := by
  intro l
  induction l with
  | nil => intro acc s h; exact Or.inl (by simpa using h)
  | cons b bs ih =>
    intro acc s h
    simp only [List.foldl_cons] at h
    rcases ih (F acc b) s h with h2 | ⟨b2, hb2, hq⟩
    · rcases hF acc b with h3 | ⟨str, h3, hq⟩
      · rw [h3] at h2
        exact Or.inl h2
      · rw [h3, mem_setAdd] at h2
        rcases h2 with h4 | rfl
        · exact Or.inl h4
        · exact Or.inr ⟨b, List.mem_cons_self b bs, hq⟩
    · exact Or.inr ⟨b2, List.mem_cons_of_mem b hb2, hq⟩

theorem trackObjectPatternProps_mem (moduleStr : Str) :
    ∀ (props : List Node) (acc acc' : List Str),
      trackObjectPatternProps moduleStr props acc = .ok acc' →
      ∀ s ∈ acc', s ∈ acc ∨ ∃ x, s = moduleStr ++ '.' :: x := by
  intro props
  induction props with
  | nil =>
    intro acc acc' h s hs
    simp only [trackObjectPatternProps] at h
    cases h
    exact Or.inl hs
  | cons p rest ih =>
    intro acc acc' h s hs
    simp only [trackObjectPatternProps] at h
    split at h
    · rcases ih _ acc' h s hs with h2 | h2
      · rw [mem_setAdd] at h2
        rcases h2 with h3 | rfl
        · exact Or.inl h3
        · exact Or.inr ⟨_, rfl⟩
      · exact Or.inr h2
    · exact ih acc acc' h s hs
    · cases h

theorem trackArrayPatternIdx_mem (moduleStr : Str) (count : Nat) (acc : List Str) :
    ∀ s ∈ trackArrayPatternIdx moduleStr count acc,
      s ∈ acc ∨ ∃ x, s = moduleStr ++ '.' :: x := by
  intro s hs
  have := mem_foldl_addlike _ (fun i str => ∃ x, str = moduleStr ++ '.' :: x)
    (fun a i => Or.inr ⟨moduleStr ++ '.' :: (toString i).data, rfl, _, rfl⟩)
    (List.range count) acc s hs
  rcases this with h | ⟨b, _, hx⟩
  · exact Or.inl h
  · exact Or.inr hx

theorem requireInitShape_noName (init : Node) (h : requireInitShape init = true) :
    nodeNameField init = none := by
  cases init <;> first | rfl | (simp [requireInitShape] at h)

theorem trackMemberDeclarator_good (env : Env) (acc : List Str) (d : Node) (acc' : List Str)
    (hstr : ∀ v ∈ envMods env, ∃ s, v = .str s)
    (h : trackMemberDeclarator env acc d = .ok acc') :
    ∀ s ∈ acc', s ∈ acc ∨ GoodMember env (impsOfN d) s := by
  cases d <;> simp only [trackMemberDeclarator] at h <;>
    first
    | (cases h; exact fun s hs => Or.inl hs)
    | skip
  case variableDeclarator id init =>
    cases id <;>
      first
      | (cases h; exact fun s hs => Or.inl hs)
      | skip
    case objectPattern props =>
      cases init with
      | none =>
        cases h
        exact fun s hs => Or.inl hs
      | some i =>
        simp only at h
        split at h
        · rename_i hreq
          intro s hs
          rcases trackObjectPatternProps_mem _ props acc acc' h s hs with h2 | ⟨x, rfl⟩
          · exact Or.inl h2
          · obtain ⟨hmem, hstr2⟩ := requireInitShape_mem i hreq
            obtain ⟨ms, hms⟩ := (isString_iff _).mp hstr2
            rw [hms] at hmem
            refine Or.inr (Or.inl ⟨ms, x, ?_, Or.inr ?_⟩)
            · rw [hms]
              simp [jsValToStr]
            · simp only [impsOfN, List.mem_append]
              right
              exact hmem
        · split at h
          · rename_i inm
            rw [except_bind_ok] at h
            obtain ⟨mr, hmr, h2⟩ := h
            cases mr with
            | none =>
              simp only [pure, Except.pure, Except.ok.injEq] at h2
              subst h2
              exact fun s hs => Or.inl hs
            | some mv =>
              obtain ⟨m0, hm0, hm0mem⟩ := getModRefVarNamed_mods env _ mv hmr
              intro s hs
              rcases trackObjectPatternProps_mem _ props acc acc' h2 s hs with h3 | ⟨x, hx⟩
              · exact Or.inl h3
              · obtain ⟨t, rfl⟩ := hstr m0 hm0mem
                rw [hm0] at hx
                simp only [Option.getD, jsValToStr] at hx
                exact Or.inr (Or.inl ⟨t, x, hx, Or.inl hm0mem⟩)
          · cases h
            exact fun s hs => Or.inl hs
    case arrayPattern elements =>
      cases init with
      | none =>
        cases h
        exact fun s hs => Or.inl hs
      | some i =>
        simp only at h
        split at h
        · rename_i hreq
          cases h
          intro s hs
          rcases trackArrayPatternIdx_mem _ elements.length acc s hs with h2 | ⟨x, hx⟩
          · exact Or.inl h2
          · rw [requireInitShape_noName i hreq] at hx
            exact Or.inr (Or.inr ⟨x, hx⟩)
        · split at h
          · rename_i inm
            rw [except_bind_ok] at h
            obtain ⟨mr, hmr, h2⟩ := h
            cases mr with
            | none =>
              simp only [pure, Except.pure, Except.ok.injEq] at h2
              subst h2
              exact fun s hs => Or.inl hs
            | some mv =>
              obtain ⟨m0, hm0, hm0mem⟩ := getModRefVarNamed_mods env _ mv hmr
              simp only [Except.ok.injEq] at h2
              subst h2
              intro s hs
              rcases trackArrayPatternIdx_mem _ elements.length acc s hs with h3 | ⟨x, hx⟩
              · exact Or.inl h3
              · obtain ⟨t, rfl⟩ := hstr m0 hm0mem
                rw [hm0] at hx
                simp only [Option.getD, jsValToStr] at hx
                exact Or.inr (Or.inl ⟨t, x, hx, Or.inl hm0mem⟩)
          · cases h
            exact fun s hs => Or.inl hs

theorem trackMemberAccess_good (n : Node) (env : Env) (acc acc' : List Str)
    (hwf : wfSources n = true)
    (hstr : ∀ v ∈ envMods env, ∃ s, v = .str s)
    (h : trackMemberAccess n env acc = .ok acc') :
    ∀ s ∈ acc', s ∈ acc ∨ GoodMember env (impsOfN n) s := by
  cases n <;> simp only [trackMemberAccess] at h <;>
    first
    | (cases h; exact fun s hs => Or.inl hs)
    | skip
  case importDeclaration specifiers source =>
    cases source <;>
      first
      | (cases h; exact fun s hs => Or.inl hs)
      | skip
    case literal v =>
      simp only [Except.ok.injEq] at h
      subst h
      obtain ⟨t, ht⟩ : ∃ t, v = .str t := by
        simp only [wfSources, Bool.and_eq_true] at hwf
        exact (isString_iff v).mp hwf.1.1
      intro s hs
      have := mem_foldl_addlike _
        (fun spec str => ∃ x, str = jsValToStr v ++ '.' :: x) ?_ specifiers acc s hs
      · rcases this with h2 | ⟨spec, _, x, rfl⟩
        · exact Or.inl h2
        · refine Or.inr (Or.inl ⟨t, x, ?_, Or.inr ?_⟩)
          · rw [ht]
            simp [jsValToStr]
          · rw [← ht]
            simp only [impsOfN, List.mem_append, importsVisit]
            left; left
            simp [mem_setAdd]
      · intro a spec
        cases spec
        case importSpecifier imported l =>
          exact Or.inr ⟨_, rfl, _, rfl⟩
        all_goals exact Or.inl rfl
  case exportNamedDeclaration declaration specifiers source =>
    cases source with
    | none =>
      cases h
      exact fun s hs => Or.inl hs
    | some src =>
      cases src <;>
        first
        | (cases h; exact fun s hs => Or.inl hs)
        | skip
      case literal v =>
        simp only [Except.ok.injEq] at h
        subst h
        obtain ⟨t, ht⟩ : ∃ t, v = .str t := by
          simp only [wfSources, Bool.and_eq_true] at hwf
          exact (isString_iff v).mp hwf.1.1.1
        intro s hs
        have := mem_foldl_addlike _
          (fun spec str => ∃ x, str = jsValToStr v ++ '.' :: x) ?_ specifiers acc s hs
        · rcases this with h2 | ⟨spec, _, x, rfl⟩
          · exact Or.inl h2
          · refine Or.inr (Or.inl ⟨t, x, ?_, Or.inr ?_⟩)
            · rw [ht]
              simp [jsValToStr]
            · rw [← ht]
              unfold impsOfN
              simp only [List.mem_append]
              left; left
              simp [importsVisit, mem_setAdd]
        · intro a spec
          cases spec
          case exportSpecifier l exported =>
            exact Or.inr ⟨_, rfl, _, rfl⟩
          all_goals exact Or.inl rfl
  case memberExpression object property computed =>
    split at h
    · split at h
      · -- member access on an identifier object
        rw [except_bind_ok] at h
        obtain ⟨mr, hmr, h2⟩ := h
        cases mr with
        | none =>
          simp only [pure, Except.pure, Except.ok.injEq] at h2
          subst h2
          exact fun s hs => Or.inl hs
        | some mv =>
          obtain ⟨m0, hm0, hm0mem⟩ := getModRefVarNamed_mods env _ mv hmr
          simp only [Except.ok.injEq] at h2
          subst h2
          intro s hs
          rw [mem_setAdd] at hs
          rcases hs with hs | rfl
          · exact Or.inl hs
          · obtain ⟨t, htt⟩ := hstr m0 hm0mem
            rw [hm0]
            subst htt
            simp only [Option.getD, jsValToStr]
            exact Or.inr (Or.inl ⟨t, _, rfl, Or.inl hm0mem⟩)
      · -- member access directly on a call of require
        split at h
        · rename_i hcond
          exfalso
          rw [Bool.and_eq_true] at hcond
          obtain ⟨_, h2⟩ := hcond
          rename_i args _
          cases args with
          | nil => cases h2
          | cons a rest => cases a <;> simp [nodeNameField] at h2
        · cases h
          exact fun s hs => Or.inl hs
      · -- member access directly on a new-expression of require
        split at h
        · rename_i hcond
          exfalso
          rw [Bool.and_eq_true] at hcond
          obtain ⟨_, h2⟩ := hcond
          rename_i args _
          cases args with
          | nil => cases h2
          | cons a rest => cases a <;> simp [nodeNameField] at h2
        · cases h
          exact fun s hs => Or.inl hs
      · -- any other object shape
        cases h
        exact fun s hs => Or.inl hs
    · cases h
      exact fun s hs => Or.inl hs
  case variableDeclaration kind declarations =>
    refine foldlM_except_inv declarations _
      (fun a a' => ∀ s ∈ a', s ∈ a ∨
        GoodMember env (impsOfN (.variableDeclaration kind declarations)) s)
      (fun _ s hs => Or.inl hs) ?_ ?_ _ (fun x hx => hx) acc acc' h
    · intro a b c h1 h2 s hs
      rcases h2 s hs with h3 | h3
      · exact h1 s h3
      · exact Or.inr h3
    · intro a d a' hd hstep s hs
      rcases trackMemberDeclarator_good env a d a' hstr hstep s hs with h3 | h3
      · exact Or.inl h3
      · refine Or.inr (goodMember_mono (fun v hv => Or.inl hv) ?_ h3)
        intro v hv
        simp only [impsOfN, List.mem_append]
        exact Or.inr (mem_impsOfL_of_mem declarations hd hv)

/-- Environment-annotation growth across a traversal segment: every
module annotation after the segment was present before, or is a
string-valued import of the covered subtree. -/
def ModsIn (st st' : MemberSt) (I : List JSVal) : Prop :=
  ∀ m ∈ envMods st'.env, m ∈ envMods st.env ∨ (m ∈ I ∧ ∃ s, m = .str s)

/-- Member-set growth across a traversal segment: every accumulated
member string was present before or has the recorded-member shape. -/
def AccIn (st st' : MemberSt) (I : List JSVal) : Prop :=
  ∀ s ∈ st'.acc, s ∈ st.acc ∨ GoodMember st.env I s

theorem modsIn_trans {st s1 s2 : MemberSt} {I : List JSVal}
    (h1 : ModsIn st s1 I) (h2 : ModsIn s1 s2 I) : ModsIn st s2 I := by
  intro m hm
  rcases h2 m hm with h3 | h3
  · exact h1 m h3
  · exact Or.inr h3

theorem modsIn_mono {st s1 : MemberSt} {I J : List JSVal}
    (h : ModsIn st s1 I) (hIJ : ∀ v ∈ I, v ∈ J) : ModsIn st s1 J := by
  intro m hm
  rcases h m hm with h2 | ⟨h2, h3⟩
  · exact Or.inl h2
  · exact Or.inr ⟨hIJ m h2, h3⟩

theorem accIn_mono {st s1 : MemberSt} {I J : List JSVal}
    (h : AccIn st s1 I) (hIJ : ∀ v ∈ I, v ∈ J) : AccIn st s1 J := by
  intro s hs
  rcases h s hs with h2 | h2
  · exact Or.inl h2
  · exact Or.inr (goodMember_mono (fun v hv => Or.inl hv) hIJ h2)

theorem accIn_trans {st s1 s2 : MemberSt} {I : List JSVal}
    (hm : ModsIn st s1 I) (h1 : AccIn st s1 I) (h2 : AccIn s1 s2 I) : AccIn st s2 I := by
  intro s hs
  rcases h2 s hs with h3 | h3
  · exact h1 s h3
  · exact Or.inr (goodMember_mono hm (fun v hv => hv) h3)

theorem envStrs_of_modsIn {st s1 : MemberSt} {I : List JSVal}
    (hstr : ∀ v ∈ envMods st.env, ∃ s, v = .str s) (h : ModsIn st s1 I) :
    ∀ v ∈ envMods s1.env, ∃ s, v = .str s := by
  intro v hv
  rcases h v hv with h2 | ⟨_, h2⟩
  · exact hstr v h2
  · exact h2

theorem envMods_tail (env : Env) : ∀ m ∈ envMods env.tail, m ∈ envMods env := by
  cases env with
  | nil => intro m hm; simpa using hm
  | cons f rest =>
    intro m hm
    rw [mem_envMods] at hm ⊢
    obtain ⟨g, hg, v, hv, hvm⟩ := hm
    exact ⟨g, List.mem_cons_of_mem f hg, v, hv, hvm⟩

theorem stepMember_inv (anc : List Node) (st : MemberSt) (n : Node) (st1 : MemberSt)
    (hwf : wfSources n = true)
    (hstr : ∀ v ∈ envMods st.env, ∃ s, v = .str s)
    (h : stepMember anc st n = .ok st1) :
    ModsIn st st1 (impsOfN n) ∧ AccIn st st1 (impsOfN n) := by
  simp only [stepMember] at h
  rw [except_bind_ok] at h
  obtain ⟨env1, hscope, h⟩ := h
  rw [except_bind_ok] at h
  obtain ⟨env2, hvars, h⟩ := h
  rw [except_bind_ok] at h
  obtain ⟨env3, hmrv, h⟩ := h
  rw [except_bind_ok] at h
  obtain ⟨acc1, hacc, h⟩ := h
  simp only [Except.ok.injEq] at h
  subst h
  have hm3 : ∀ m ∈ envMods env3, m ∈ envMods st.env ∨ (m ∈ impsOfN n ∧ ∃ s, m = .str s) := by
    intro m hm
    rcases trackModuleReferencingVars_mods n env2 env3 hwf hmrv m hm with h2 | h2
    · rw [trackVars_mods n env1 env2 hvars] at h2
      exact Or.inl (trackScope_mods n anc st.env env1 hscope m h2)
    · exact Or.inr h2
  have hstr3 : ∀ v ∈ envMods env3, ∃ s, v = .str s := by
    intro v hv
    rcases hm3 v hv with h2 | ⟨_, h2⟩
    · exact hstr v h2
    · exact h2
  refine ⟨hm3, ?_⟩
  intro s hs
  rcases trackMemberAccess_good n env3 st.acc acc1 hwf hstr3 hacc s hs with h2 | h2
  · exact Or.inl h2
  · exact Or.inr (goodMember_mono hm3 (fun v hv => hv) h2)

/-- One-step unfolding of `walkMember` at this constructor. -/
theorem walkMember_uExpressionStatement (anc : List Node) (st : MemberSt) (e : Node) :
    walkMember anc st (Node.expressionStatement e) = (do
      let st1 ← stepMember ((Node.expressionStatement e) :: anc) st (Node.expressionStatement e)
      walkMember ((Node.expressionStatement e) :: anc) st1 e) := rfl
/-- One-step unfolding of `walkMember` at this constructor. -/
theorem walkMember_uImportExpression (anc : List Node) (st : MemberSt) (source : Node) :
    walkMember anc st (Node.importExpression source) = (do
      let st1 ← stepMember ((Node.importExpression source) :: anc) st (Node.importExpression source)
      walkMember ((Node.importExpression source) :: anc) st1 source) := rfl
/-- One-step unfolding of `walkMember` at this constructor. -/
theorem walkMember_uExportAllDeclaration (anc : List Node) (st : MemberSt) (source : Node) :
    walkMember anc st (Node.exportAllDeclaration source) = (do
      let st1 ← stepMember ((Node.exportAllDeclaration source) :: anc) st (Node.exportAllDeclaration source)
      walkMember ((Node.exportAllDeclaration source) :: anc) st1 source) := rfl
/-- One-step unfolding of `walkMember` at this constructor. -/
theorem walkMember_uRestElement (anc : List Node) (st : MemberSt) (argument : Node) :
    walkMember anc st (Node.restElement argument) = (do
      let st1 ← stepMember ((Node.restElement argument) :: anc) st (Node.restElement argument)
      walkMember ((Node.restElement argument) :: anc) st1 argument) := rfl
/-- One-step unfolding of `walkMember` at this constructor. -/
theorem walkMember_uMemberExpression (anc : List Node) (st : MemberSt) (object property : Node) (computed : Bool) :
    walkMember anc st (Node.memberExpression object property computed) = (do
      let st1 ← stepMember ((Node.memberExpression object property computed) :: anc) st (Node.memberExpression object property computed)
      let s ← walkMember ((Node.memberExpression object property computed) :: anc) st1 object
      walkMember ((Node.memberExpression object property computed) :: anc) s property) := rfl
/-- One-step unfolding of `walkMember` at this constructor. -/
theorem walkMember_uProperty (anc : List Node) (st : MemberSt) (key value : Node) :
    walkMember anc st (Node.property key value) = (do
      let st1 ← stepMember ((Node.property key value) :: anc) st (Node.property key value)
      let s ← walkMember ((Node.property key value) :: anc) st1 key
      walkMember ((Node.property key value) :: anc) s value) := rfl
/-- One-step unfolding of `walkMember` at this constructor. -/
theorem walkMember_uAssignmentPattern (anc : List Node) (st : MemberSt) (left right : Node) :
    walkMember anc st (Node.assignmentPattern left right) = (do
      let st1 ← stepMember ((Node.assignmentPattern left right) :: anc) st (Node.assignmentPattern left right)
      let s ← walkMember ((Node.assignmentPattern left right) :: anc) st1 left
      walkMember ((Node.assignmentPattern left right) :: anc) s right) := rfl
/-- One-step unfolding of `walkMember` at this constructor. -/
theorem walkMember_uMethodDefinition (anc : List Node) (st : MemberSt) (key value : Node) :
    walkMember anc st (Node.methodDefinition key value) = (do
      let st1 ← stepMember ((Node.methodDefinition key value) :: anc) st (Node.methodDefinition key value)
      let s ← walkMember ((Node.methodDefinition key value) :: anc) st1 key
      walkMember ((Node.methodDefinition key value) :: anc) s value) := rfl
/-- One-step unfolding of `walkMember` at this constructor. -/
theorem walkMember_uCallExpression (anc : List Node) (st : MemberSt) (callee : Node) (args : List Node) :
    walkMember anc st (Node.callExpression callee args) = (do
      let st1 ← stepMember ((Node.callExpression callee args) :: anc) st (Node.callExpression callee args)
      let s ← walkMember ((Node.callExpression callee args) :: anc) st1 callee
      walkMemberList ((Node.callExpression callee args) :: anc) s args) := rfl
/-- One-step unfolding of `walkMember` at this constructor. -/
theorem walkMember_uNewExpression (anc : List Node) (st : MemberSt) (callee : Node) (args : List Node) :
    walkMember anc st (Node.newExpression callee args) = (do
      let st1 ← stepMember ((Node.newExpression callee args) :: anc) st (Node.newExpression callee args)
      let s ← walkMember ((Node.newExpression callee args) :: anc) st1 callee
      walkMemberList ((Node.newExpression callee args) :: anc) s args) := rfl
/-- One-step unfolding of `walkMember` at this constructor. -/
theorem walkMember_uImportDeclaration (anc : List Node) (st : MemberSt) (specifiers : List Node) (source : Node) :
    walkMember anc st (Node.importDeclaration specifiers source) = (do
      let st1 ← stepMember ((Node.importDeclaration specifiers source) :: anc) st (Node.importDeclaration specifiers source)
      let s ← walkMemberList ((Node.importDeclaration specifiers source) :: anc) st1 specifiers
      walkMember ((Node.importDeclaration specifiers source) :: anc) s source) := rfl
/-- One-step unfolding of `walkMember` at this constructor. -/
theorem walkMember_uArrowFunctionExpression (anc : List Node) (st : MemberSt) (params : List Node) (body : Node) :
    walkMember anc st (Node.arrowFunctionExpression params body) = (do
      let st1 ← stepMember ((Node.arrowFunctionExpression params body) :: anc) st (Node.arrowFunctionExpression params body)
      let s ← walkMemberList ((Node.arrowFunctionExpression params body) :: anc) st1 params
      walkMember ((Node.arrowFunctionExpression params body) :: anc) s body) := rfl
/-- One-step unfolding of `walkMember` at this constructor. -/
theorem walkMember_uVariableDeclaratorNone (anc : List Node) (st : MemberSt) (id : Node) :
    walkMember anc st (Node.variableDeclarator id none) = (do
      let st1 ← stepMember ((Node.variableDeclarator id none) :: anc) st (Node.variableDeclarator id none)
      let s ← walkMember ((Node.variableDeclarator id none) :: anc) st1 id
      Except.ok s) := rfl
/-- One-step unfolding of `walkMember` at this constructor. -/
theorem walkMember_uVariableDeclaratorSome (anc : List Node) (st : MemberSt) (id i : Node) :
    walkMember anc st (Node.variableDeclarator id (some i)) = (do
      let st1 ← stepMember ((Node.variableDeclarator id (some i)) :: anc) st (Node.variableDeclarator id (some i))
      let s ← walkMember ((Node.variableDeclarator id (some i)) :: anc) st1 id
      walkMember ((Node.variableDeclarator id (some i)) :: anc) s i) := rfl
/-- One-step unfolding of `walkMember` at this constructor. -/
theorem walkMember_uExportNamedNoneNone (anc : List Node) (st : MemberSt) (specifiers : List Node) :
    walkMember anc st (Node.exportNamedDeclaration none specifiers none) = (do
      let st1 ← stepMember ((Node.exportNamedDeclaration none specifiers none) :: anc) st (Node.exportNamedDeclaration none specifiers none)
      let s ← Except.ok st1
      Except.ok s) := rfl
/-- One-step unfolding of `walkMember` at this constructor. -/
theorem walkMember_uExportNamedNoneSome (anc : List Node) (st : MemberSt) (specifiers : List Node) (src : Node) :
    walkMember anc st (Node.exportNamedDeclaration none specifiers (some src)) = (do
      let st1 ← stepMember ((Node.exportNamedDeclaration none specifiers (some src)) :: anc) st (Node.exportNamedDeclaration none specifiers (some src))
      let s ← Except.ok st1
      walkMember ((Node.exportNamedDeclaration none specifiers (some src)) :: anc) s src) := rfl
/-- One-step unfolding of `walkMember` at this constructor. -/
theorem walkMember_uExportNamedSomeNone (anc : List Node) (st : MemberSt) (d : Node) (specifiers : List Node) :
    walkMember anc st (Node.exportNamedDeclaration (some d) specifiers none) = (do
      let st1 ← stepMember ((Node.exportNamedDeclaration (some d) specifiers none) :: anc) st (Node.exportNamedDeclaration (some d) specifiers none)
      let s ← walkMember ((Node.exportNamedDeclaration (some d) specifiers none) :: anc) st1 d
      Except.ok s) := rfl
/-- One-step unfolding of `walkMember` at this constructor. -/
theorem walkMember_uExportNamedSomeSome (anc : List Node) (st : MemberSt) (d : Node) (specifiers : List Node) (src : Node) :
    walkMember anc st (Node.exportNamedDeclaration (some d) specifiers (some src)) = (do
      let st1 ← stepMember ((Node.exportNamedDeclaration (some d) specifiers (some src)) :: anc) st (Node.exportNamedDeclaration (some d) specifiers (some src))
      let s ← walkMember ((Node.exportNamedDeclaration (some d) specifiers (some src)) :: anc) st1 d
      walkMember ((Node.exportNamedDeclaration (some d) specifiers (some src)) :: anc) s src) := rfl
/-- One-step unfolding of `walkMember` at this constructor. -/
theorem walkMember_uFunctionDeclarationNone (anc : List Node) (st : MemberSt) (params : List Node) (body : Node) :
    walkMember anc st (Node.functionDeclaration none params body) = (do
      let st1 ← stepMember ((Node.functionDeclaration none params body) :: anc) st (Node.functionDeclaration none params body)
      let s0 ← Except.ok st1
      let s ← walkMemberList ((Node.functionDeclaration none params body) :: anc) s0 params
      walkMember ((Node.functionDeclaration none params body) :: anc) s body) := rfl
/-- One-step unfolding of `walkMember` at this constructor. -/
theorem walkMember_uFunctionDeclarationSome (anc : List Node) (st : MemberSt) (i : Node) (params : List Node) (body : Node) :
    walkMember anc st (Node.functionDeclaration (some i) params body) = (do
      let st1 ← stepMember ((Node.functionDeclaration (some i) params body) :: anc) st (Node.functionDeclaration (some i) params body)
      let s0 ← walkMember ((Node.functionDeclaration (some i) params body) :: anc) st1 i
      let s ← walkMemberList ((Node.functionDeclaration (some i) params body) :: anc) s0 params
      walkMember ((Node.functionDeclaration (some i) params body) :: anc) s body) := rfl
/-- One-step unfolding of `walkMember` at this constructor. -/
theorem walkMember_uFunctionExpressionNone (anc : List Node) (st : MemberSt) (params : List Node) (body : Node) :
    walkMember anc st (Node.functionExpression none params body) = (do
      let st1 ← stepMember ((Node.functionExpression none params body) :: anc) st (Node.functionExpression none params body)
      let s0 ← Except.ok st1
      let s ← walkMemberList ((Node.functionExpression none params body) :: anc) s0 params
      walkMember ((Node.functionExpression none params body) :: anc) s body) := rfl
/-- One-step unfolding of `walkMember` at this constructor. -/
theorem walkMember_uFunctionExpressionSome (anc : List Node) (st : MemberSt) (i : Node) (params : List Node) (body : Node) :
    walkMember anc st (Node.functionExpression (some i) params body) = (do
      let st1 ← stepMember ((Node.functionExpression (some i) params body) :: anc) st (Node.functionExpression (some i) params body)
      let s0 ← walkMember ((Node.functionExpression (some i) params body) :: anc) st1 i
      let s ← walkMemberList ((Node.functionExpression (some i) params body) :: anc) s0 params
      walkMember ((Node.functionExpression (some i) params body) :: anc) s body) := rfl

set_option maxHeartbeats 2000000 in
mutual

/-- Walk invariant: a successful member walk only ever installs module
references drawn from the normal-form import set of the walked node, and
every recorded access string is either pre-existing or good for that set. -/
theorem walkMember_inv :
    ∀ (n : Node) (anc : List Node) (st st' : MemberSt),
      wfSources n = true → (∀ v ∈ envMods st.env, ∃ s, v = .str s) →
      walkMember anc st n = .ok st' →
      ModsIn st st' (impsOfN n) ∧ AccIn st st' (impsOfN n) := by
  intro n
  cases n with

  | identifier nm =>
    intro anc st st' hwf hstr h
    simp only [walkMember] at h
    rw [except_bind_ok] at h
    obtain ⟨st1, hstep, h2⟩ := h
    simp only [Except.ok.injEq] at h2
    subst h2
    exact stepMember_inv _ _ _ _ hwf hstr hstep

  | literal v =>
    intro anc st st' hwf hstr h
    simp only [walkMember] at h
    rw [except_bind_ok] at h
    obtain ⟨st1, hstep, h2⟩ := h
    simp only [Except.ok.injEq] at h2
    subst h2
    exact stepMember_inv _ _ _ _ hwf hstr hstep

  | importSpecifier imported l =>
    intro anc st st' hwf hstr h
    simp only [walkMember] at h
    rw [except_bind_ok] at h
    obtain ⟨st1, hstep, h2⟩ := h
    simp only [Except.ok.injEq] at h2
    subst h2
    exact stepMember_inv _ _ _ _ hwf hstr hstep

  | importDefaultSpecifier l =>
    intro anc st st' hwf hstr h
    simp only [walkMember] at h
    rw [except_bind_ok] at h
    obtain ⟨st1, hstep, h2⟩ := h
    simp only [Except.ok.injEq] at h2
    subst h2
    exact stepMember_inv _ _ _ _ hwf hstr hstep

  | importNamespaceSpecifier l =>
    intro anc st st' hwf hstr h
    simp only [walkMember] at h
    rw [except_bind_ok] at h
    obtain ⟨st1, hstep, h2⟩ := h
    simp only [Except.ok.injEq] at h2
    subst h2
    exact stepMember_inv _ _ _ _ hwf hstr hstep

  | exportSpecifier l exported =>
    intro anc st st' hwf hstr h
    simp only [walkMember] at h
    rw [except_bind_ok] at h
    obtain ⟨st1, hstep, h2⟩ := h
    simp only [Except.ok.injEq] at h2
    subst h2
    exact stepMember_inv _ _ _ _ hwf hstr hstep

  | program body =>
    intro anc st st' hwf hstr h
    simp only [walkMember] at h
    rw [except_bind_ok] at h
    obtain ⟨st1, hstep, h⟩ := h
    have hS := stepMember_inv _ st _ st1 hwf hstr hstep
    have hstr1 := envStrs_of_modsIn hstr hS.1
    have hwfl : wfSourcesList body = true := hwf
    have hsubL : ∀ v ∈ impsOfL body, v ∈ impsOfN (Node.program body) := by
      intro v hv
      unfold impsOfN
      simp only [List.mem_append]
      tauto
    obtain ⟨M1, A1⟩ := walkMemberList_inv body _ st1 st' hwfl hstr1 h
    exact ⟨modsIn_trans hS.1 (modsIn_mono M1 hsubL),
      accIn_trans hS.1 hS.2 (accIn_mono A1 hsubL)⟩

  | variableDeclaration kind declarations =>
    intro anc st st' hwf hstr h
    simp only [walkMember] at h
    rw [except_bind_ok] at h
    obtain ⟨st1, hstep, h⟩ := h
    have hS := stepMember_inv _ st _ st1 hwf hstr hstep
    have hstr1 := envStrs_of_modsIn hstr hS.1
    have hwfl : wfSourcesList declarations = true := hwf
    have hsubL : ∀ v ∈ impsOfL declarations, v ∈ impsOfN (Node.variableDeclaration kind declarations) := by
      intro v hv
      unfold impsOfN
      simp only [List.mem_append]
      tauto
    obtain ⟨M1, A1⟩ := walkMemberList_inv declarations _ st1 st' hwfl hstr1 h
    exact ⟨modsIn_trans hS.1 (modsIn_mono M1 hsubL),
      accIn_trans hS.1 hS.2 (accIn_mono A1 hsubL)⟩

  | objectPattern properties =>
    intro anc st st' hwf hstr h
    simp only [walkMember] at h
    rw [except_bind_ok] at h
    obtain ⟨st1, hstep, h⟩ := h
    have hS := stepMember_inv _ st _ st1 hwf hstr hstep
    have hstr1 := envStrs_of_modsIn hstr hS.1
    have hwfl : wfSourcesList properties = true := hwf
    have hsubL : ∀ v ∈ impsOfL properties, v ∈ impsOfN (Node.objectPattern properties) := by
      intro v hv
      unfold impsOfN
      simp only [List.mem_append]
      tauto
    obtain ⟨M1, A1⟩ := walkMemberList_inv properties _ st1 st' hwfl hstr1 h
    exact ⟨modsIn_trans hS.1 (modsIn_mono M1 hsubL),
      accIn_trans hS.1 hS.2 (accIn_mono A1 hsubL)⟩

  | blockStatement body =>
    intro anc st st' hwf hstr h
    simp only [walkMember] at h
    rw [except_bind_ok] at h
    obtain ⟨st1, hstep, h⟩ := h
    have hS := stepMember_inv _ st _ st1 hwf hstr hstep
    have hstr1 := envStrs_of_modsIn hstr hS.1
    have hwfl : wfSourcesList body = true := hwf
    have hsubL : ∀ v ∈ impsOfL body, v ∈ impsOfN (Node.blockStatement body) := by
      intro v hv
      unfold impsOfN
      simp only [List.mem_append]
      tauto
    rw [except_bind_ok] at h
    obtain ⟨s2, hlist, heq⟩ := h
    simp only [Except.ok.injEq] at heq
    subst heq
    obtain ⟨M1, A1⟩ := walkMemberList_inv body _ st1 s2 hwfl hstr1 hlist
    have M01 := modsIn_trans hS.1 (modsIn_mono M1 hsubL)
    refine ⟨?_, accIn_trans hS.1 hS.2 (accIn_mono A1 hsubL)⟩
    intro m hm
    exact M01 m (envMods_tail s2.env m hm)

  | expressionStatement e =>
    intro anc st st' hwf hstr h
    rw [walkMember_uExpressionStatement] at h
    rw [except_bind_ok] at h
    obtain ⟨st1, hstep, h⟩ := h
    have hS := stepMember_inv _ st _ st1 hwf hstr hstep
    have hstr1 := envStrs_of_modsIn hstr hS.1
    have hwfc : wfSources e = true := hwf
    have hsubC : ∀ v ∈ impsOfN e, v ∈ impsOfN (Node.expressionStatement e) := by
      intro v hv
      unfold impsOfN
      simp only [List.mem_append]
      tauto
    obtain ⟨M1, A1⟩ := walkMember_inv e _ st1 st' hwfc hstr1 h
    exact ⟨modsIn_trans hS.1 (modsIn_mono M1 hsubC),
      accIn_trans hS.1 hS.2 (accIn_mono A1 hsubC)⟩

  | importExpression source =>
    intro anc st st' hwf hstr h
    rw [walkMember_uImportExpression] at h
    rw [except_bind_ok] at h
    obtain ⟨st1, hstep, h⟩ := h
    have hS := stepMember_inv _ st _ st1 hwf hstr hstep
    have hstr1 := envStrs_of_modsIn hstr hS.1
    have hwfc : wfSources source = true := hwf
    have hsubC : ∀ v ∈ impsOfN source, v ∈ impsOfN (Node.importExpression source) := by
      intro v hv
      unfold impsOfN
      simp only [List.mem_append]
      tauto
    obtain ⟨M1, A1⟩ := walkMember_inv source _ st1 st' hwfc hstr1 h
    exact ⟨modsIn_trans hS.1 (modsIn_mono M1 hsubC),
      accIn_trans hS.1 hS.2 (accIn_mono A1 hsubC)⟩

  | exportAllDeclaration source =>
    intro anc st st' hwf hstr h
    rw [walkMember_uExportAllDeclaration] at h
    rw [except_bind_ok] at h
    obtain ⟨st1, hstep, h⟩ := h
    have hS := stepMember_inv _ st _ st1 hwf hstr hstep
    have hstr1 := envStrs_of_modsIn hstr hS.1
    have hwfc : wfSources source = true := hwf
    have hsubC : ∀ v ∈ impsOfN source, v ∈ impsOfN (Node.exportAllDeclaration source) := by
      intro v hv
      unfold impsOfN
      simp only [List.mem_append]
      tauto
    obtain ⟨M1, A1⟩ := walkMember_inv source _ st1 st' hwfc hstr1 h
    exact ⟨modsIn_trans hS.1 (modsIn_mono M1 hsubC),
      accIn_trans hS.1 hS.2 (accIn_mono A1 hsubC)⟩

  | restElement argument =>
    intro anc st st' hwf hstr h
    rw [walkMember_uRestElement] at h
    rw [except_bind_ok] at h
    obtain ⟨st1, hstep, h⟩ := h
    have hS := stepMember_inv _ st _ st1 hwf hstr hstep
    have hstr1 := envStrs_of_modsIn hstr hS.1
    have hwfc : wfSources argument = true := hwf
    have hsubC : ∀ v ∈ impsOfN argument, v ∈ impsOfN (Node.restElement argument) := by
      intro v hv
      unfold impsOfN
      simp only [List.mem_append]
      tauto
    obtain ⟨M1, A1⟩ := walkMember_inv argument _ st1 st' hwfc hstr1 h
    exact ⟨modsIn_trans hS.1 (modsIn_mono M1 hsubC),
      accIn_trans hS.1 hS.2 (accIn_mono A1 hsubC)⟩

  | memberExpression object property computed =>
    intro anc st st' hwf hstr h
    rw [walkMember_uMemberExpression] at h
    rw [except_bind_ok] at h
    obtain ⟨st1, hstep, h⟩ := h
    have hS := stepMember_inv _ st _ st1 hwf hstr hstep
    have hstr1 := envStrs_of_modsIn hstr hS.1
    have hwf2 := hwf
    simp only [wfSources, Bool.and_eq_true] at hwf2
    have hsubC1 : ∀ v ∈ impsOfN object, v ∈ impsOfN (Node.memberExpression object property computed) := by
      intro v hv
      unfold impsOfN
      simp only [List.mem_append]
      tauto
    have hsubC2 : ∀ v ∈ impsOfN property, v ∈ impsOfN (Node.memberExpression object property computed) := by
      intro v hv
      unfold impsOfN
      simp only [List.mem_append]
      tauto
    rw [except_bind_ok] at h
    obtain ⟨s2, hc1, h⟩ := h
    obtain ⟨M1, A1⟩ := walkMember_inv object _ st1 s2 hwf2.1 hstr1 hc1
    have hstr2 := envStrs_of_modsIn hstr1 M1
    obtain ⟨M2, A2⟩ := walkMember_inv property _ s2 st' hwf2.2 hstr2 h
    have M01 := modsIn_trans hS.1 (modsIn_mono M1 hsubC1)
    have A01 := accIn_trans hS.1 hS.2 (accIn_mono A1 hsubC1)
    exact ⟨modsIn_trans M01 (modsIn_mono M2 hsubC2),
      accIn_trans M01 A01 (accIn_mono A2 hsubC2)⟩

  | property key value =>
    intro anc st st' hwf hstr h
    rw [walkMember_uProperty] at h
    rw [except_bind_ok] at h
    obtain ⟨st1, hstep, h⟩ := h
    have hS := stepMember_inv _ st _ st1 hwf hstr hstep
    have hstr1 := envStrs_of_modsIn hstr hS.1
    have hwf2 := hwf
    simp only [wfSources, Bool.and_eq_true] at hwf2
    have hsubC1 : ∀ v ∈ impsOfN key, v ∈ impsOfN (Node.property key value) := by
      intro v hv
      unfold impsOfN
      simp only [List.mem_append]
      tauto
    have hsubC2 : ∀ v ∈ impsOfN value, v ∈ impsOfN (Node.property key value) := by
      intro v hv
      unfold impsOfN
      simp only [List.mem_append]
      tauto
    rw [except_bind_ok] at h
    obtain ⟨s2, hc1, h⟩ := h
    obtain ⟨M1, A1⟩ := walkMember_inv key _ st1 s2 hwf2.1 hstr1 hc1
    have hstr2 := envStrs_of_modsIn hstr1 M1
    obtain ⟨M2, A2⟩ := walkMember_inv value _ s2 st' hwf2.2 hstr2 h
    have M01 := modsIn_trans hS.1 (modsIn_mono M1 hsubC1)
    have A01 := accIn_trans hS.1 hS.2 (accIn_mono A1 hsubC1)
    exact ⟨modsIn_trans M01 (modsIn_mono M2 hsubC2),
      accIn_trans M01 A01 (accIn_mono A2 hsubC2)⟩

  | assignmentPattern left right =>
    intro anc st st' hwf hstr h
    rw [walkMember_uAssignmentPattern] at h
    rw [except_bind_ok] at h
    obtain ⟨st1, hstep, h⟩ := h
    have hS := stepMember_inv _ st _ st1 hwf hstr hstep
    have hstr1 := envStrs_of_modsIn hstr hS.1
    have hwf2 := hwf
    simp only [wfSources, Bool.and_eq_true] at hwf2
    have hsubC1 : ∀ v ∈ impsOfN left, v ∈ impsOfN (Node.assignmentPattern left right) := by
      intro v hv
      unfold impsOfN
      simp only [List.mem_append]
      tauto
    have hsubC2 : ∀ v ∈ impsOfN right, v ∈ impsOfN (Node.assignmentPattern left right) := by
      intro v hv
      unfold impsOfN
      simp only [List.mem_append]
      tauto
    rw [except_bind_ok] at h
    obtain ⟨s2, hc1, h⟩ := h
    obtain ⟨M1, A1⟩ := walkMember_inv left _ st1 s2 hwf2.1 hstr1 hc1
    have hstr2 := envStrs_of_modsIn hstr1 M1
    obtain ⟨M2, A2⟩ := walkMember_inv right _ s2 st' hwf2.2 hstr2 h
    have M01 := modsIn_trans hS.1 (modsIn_mono M1 hsubC1)
    have A01 := accIn_trans hS.1 hS.2 (accIn_mono A1 hsubC1)
    exact ⟨modsIn_trans M01 (modsIn_mono M2 hsubC2),
      accIn_trans M01 A01 (accIn_mono A2 hsubC2)⟩

  | methodDefinition key value =>
    intro anc st st' hwf hstr h
    rw [walkMember_uMethodDefinition] at h
    rw [except_bind_ok] at h
    obtain ⟨st1, hstep, h⟩ := h
    have hS := stepMember_inv _ st _ st1 hwf hstr hstep
    have hstr1 := envStrs_of_modsIn hstr hS.1
    have hwf2 := hwf
    simp only [wfSources, Bool.and_eq_true] at hwf2
    have hsubC1 : ∀ v ∈ impsOfN key, v ∈ impsOfN (Node.methodDefinition key value) := by
      intro v hv
      unfold impsOfN
      simp only [List.mem_append]
      tauto
    have hsubC2 : ∀ v ∈ impsOfN value, v ∈ impsOfN (Node.methodDefinition key value) := by
      intro v hv
      unfold impsOfN
      simp only [List.mem_append]
      tauto
    rw [except_bind_ok] at h
    obtain ⟨s2, hc1, h⟩ := h
    obtain ⟨M1, A1⟩ := walkMember_inv key _ st1 s2 hwf2.1 hstr1 hc1
    have hstr2 := envStrs_of_modsIn hstr1 M1
    obtain ⟨M2, A2⟩ := walkMember_inv value _ s2 st' hwf2.2 hstr2 h
    have M01 := modsIn_trans hS.1 (modsIn_mono M1 hsubC1)
    have A01 := accIn_trans hS.1 hS.2 (accIn_mono A1 hsubC1)
    exact ⟨modsIn_trans M01 (modsIn_mono M2 hsubC2),
      accIn_trans M01 A01 (accIn_mono A2 hsubC2)⟩

  | callExpression callee args =>
    intro anc st st' hwf hstr h
    rw [walkMember_uCallExpression] at h
    rw [except_bind_ok] at h
    obtain ⟨st1, hstep, h⟩ := h
    have hS := stepMember_inv _ st _ st1 hwf hstr hstep
    have hstr1 := envStrs_of_modsIn hstr hS.1
    have hwf2 := hwf
    simp only [wfSources, Bool.and_eq_true] at hwf2
    have hsubC : ∀ v ∈ impsOfN callee, v ∈ impsOfN (Node.callExpression callee args) := by
      intro v hv
      unfold impsOfN
      simp only [List.mem_append]
      tauto
    have hsubL : ∀ v ∈ impsOfL args, v ∈ impsOfN (Node.callExpression callee args) := by
      intro v hv
      unfold impsOfN
      simp only [List.mem_append]
      tauto
    rw [except_bind_ok] at h
    obtain ⟨s2, hc1, h⟩ := h
    obtain ⟨M1, A1⟩ := walkMember_inv callee _ st1 s2 hwf2.1 hstr1 hc1
    have hstr2 := envStrs_of_modsIn hstr1 M1
    obtain ⟨M2, A2⟩ := walkMemberList_inv args _ s2 st' hwf2.2 hstr2 h
    have M01 := modsIn_trans hS.1 (modsIn_mono M1 hsubC)
    have A01 := accIn_trans hS.1 hS.2 (accIn_mono A1 hsubC)
    exact ⟨modsIn_trans M01 (modsIn_mono M2 hsubL),
      accIn_trans M01 A01 (accIn_mono A2 hsubL)⟩

  | newExpression callee args =>
    intro anc st st' hwf hstr h
    rw [walkMember_uNewExpression] at h
    rw [except_bind_ok] at h
    obtain ⟨st1, hstep, h⟩ := h
    have hS := stepMember_inv _ st _ st1 hwf hstr hstep
    have hstr1 := envStrs_of_modsIn hstr hS.1
    have hwf2 := hwf
    simp only [wfSources, Bool.and_eq_true] at hwf2
    have hsubC : ∀ v ∈ impsOfN callee, v ∈ impsOfN (Node.newExpression callee args) := by
      intro v hv
      unfold impsOfN
      simp only [List.mem_append]
      tauto
    have hsubL : ∀ v ∈ impsOfL args, v ∈ impsOfN (Node.newExpression callee args) := by
      intro v hv
      unfold impsOfN
      simp only [List.mem_append]
      tauto
    rw [except_bind_ok] at h
    obtain ⟨s2, hc1, h⟩ := h
    obtain ⟨M1, A1⟩ := walkMember_inv callee _ st1 s2 hwf2.1 hstr1 hc1
    have hstr2 := envStrs_of_modsIn hstr1 M1
    obtain ⟨M2, A2⟩ := walkMemberList_inv args _ s2 st' hwf2.2 hstr2 h
    have M01 := modsIn_trans hS.1 (modsIn_mono M1 hsubC)
    have A01 := accIn_trans hS.1 hS.2 (accIn_mono A1 hsubC)
    exact ⟨modsIn_trans M01 (modsIn_mono M2 hsubL),
      accIn_trans M01 A01 (accIn_mono A2 hsubL)⟩

  | importDeclaration specifiers source =>
    intro anc st st' hwf hstr h
    rw [walkMember_uImportDeclaration] at h
    rw [except_bind_ok] at h
    obtain ⟨st1, hstep, h⟩ := h
    have hS := stepMember_inv _ st _ st1 hwf hstr hstep
    have hstr1 := envStrs_of_modsIn hstr hS.1
    have hwf2 := hwf
    simp only [wfSources, Bool.and_eq_true] at hwf2
    obtain ⟨⟨hwfG, hwfS⟩, hwfN⟩ := hwf2
    have hsubL : ∀ v ∈ impsOfL specifiers, v ∈ impsOfN (Node.importDeclaration specifiers source) := by
      intro v hv
      unfold impsOfN
      simp only [List.mem_append]
      tauto
    have hsubC : ∀ v ∈ impsOfN source, v ∈ impsOfN (Node.importDeclaration specifiers source) := by
      intro v hv
      unfold impsOfN
      simp only [List.mem_append]
      tauto
    rw [except_bind_ok] at h
    obtain ⟨s2, hc1, h⟩ := h
    obtain ⟨M1, A1⟩ := walkMemberList_inv specifiers _ st1 s2 hwfS hstr1 hc1
    have hstr2 := envStrs_of_modsIn hstr1 M1
    obtain ⟨M2, A2⟩ := walkMember_inv source _ s2 st' hwfN hstr2 h
    have M01 := modsIn_trans hS.1 (modsIn_mono M1 hsubL)
    have A01 := accIn_trans hS.1 hS.2 (accIn_mono A1 hsubL)
    exact ⟨modsIn_trans M01 (modsIn_mono M2 hsubC),
      accIn_trans M01 A01 (accIn_mono A2 hsubC)⟩

  | arrowFunctionExpression params body =>
    intro anc st st' hwf hstr h
    rw [walkMember_uArrowFunctionExpression] at h
    rw [except_bind_ok] at h
    obtain ⟨st1, hstep, h⟩ := h
    have hS := stepMember_inv _ st _ st1 hwf hstr hstep
    have hstr1 := envStrs_of_modsIn hstr hS.1
    have hwf2 := hwf
    simp only [wfSources, Bool.and_eq_true] at hwf2
    have hsubL : ∀ v ∈ impsOfL params, v ∈ impsOfN (Node.arrowFunctionExpression params body) := by
      intro v hv
      unfold impsOfN
      simp only [List.mem_append]
      tauto
    have hsubC : ∀ v ∈ impsOfN body, v ∈ impsOfN (Node.arrowFunctionExpression params body) := by
      intro v hv
      unfold impsOfN
      simp only [List.mem_append]
      tauto
    rw [except_bind_ok] at h
    obtain ⟨s2, hc1, h⟩ := h
    obtain ⟨M1, A1⟩ := walkMemberList_inv params _ st1 s2 hwf2.1 hstr1 hc1
    have hstr2 := envStrs_of_modsIn hstr1 M1
    obtain ⟨M2, A2⟩ := walkMember_inv body _ s2 st' hwf2.2 hstr2 h
    have M01 := modsIn_trans hS.1 (modsIn_mono M1 hsubL)
    have A01 := accIn_trans hS.1 hS.2 (accIn_mono A1 hsubL)
    exact ⟨modsIn_trans M01 (modsIn_mono M2 hsubC),
      accIn_trans M01 A01 (accIn_mono A2 hsubC)⟩

  | arrayPattern elements =>
    intro anc st st' hwf hstr h
    simp only [walkMember] at h
    rw [except_bind_ok] at h
    obtain ⟨st1, hstep, h⟩ := h
    have hS := stepMember_inv _ st _ st1 hwf hstr hstep
    have hstr1 := envStrs_of_modsIn hstr hS.1
    have hwfl : wfSourcesOptList elements = true := hwf
    have hsubL : ∀ v ∈ impsOfO elements, v ∈ impsOfN (Node.arrayPattern elements) := by
      intro v hv
      unfold impsOfN
      simp only [List.mem_append]
      tauto
    obtain ⟨M1, A1⟩ := walkMemberOptList_inv elements _ st1 st' hwfl hstr1 h
    exact ⟨modsIn_trans hS.1 (modsIn_mono M1 hsubL),
      accIn_trans hS.1 hS.2 (accIn_mono A1 hsubL)⟩

  | variableDeclarator id init =>
    intro anc st st' hwf hstr h
    cases init with
    | none =>
      rw [walkMember_uVariableDeclaratorNone] at h
      rw [except_bind_ok] at h
      obtain ⟨st1, hstep, h⟩ := h
      have hS := stepMember_inv _ st _ st1 hwf hstr hstep
      have hstr1 := envStrs_of_modsIn hstr hS.1
      have hwfc : wfSources id = true := by
        have h2 := hwf
        simp only [wfSources, wfSourcesOpt, Bool.and_eq_true] at h2
        exact h2.1
      have hsubC : ∀ v ∈ impsOfN id, v ∈ impsOfN (Node.variableDeclarator id none) := by
        intro v hv
        unfold impsOfN
        simp only [List.mem_append]
        tauto
      rw [except_bind_ok] at h
      obtain ⟨s2, hc1, heq⟩ := h
      simp only [Except.ok.injEq] at heq
      subst heq
      obtain ⟨M1, A1⟩ := walkMember_inv id _ st1 s2 hwfc hstr1 hc1
      exact ⟨modsIn_trans hS.1 (modsIn_mono M1 hsubC),
        accIn_trans hS.1 hS.2 (accIn_mono A1 hsubC)⟩
    | some i =>
      rw [walkMember_uVariableDeclaratorSome] at h
      rw [except_bind_ok] at h
      obtain ⟨st1, hstep, h⟩ := h
      have hS := stepMember_inv _ st _ st1 hwf hstr hstep
      have hstr1 := envStrs_of_modsIn hstr hS.1
      have hwf2 := hwf
      simp only [wfSources, wfSourcesOpt, Bool.and_eq_true] at hwf2
      have hsubC1 : ∀ v ∈ impsOfN id, v ∈ impsOfN (Node.variableDeclarator id (some i)) := by
        intro v hv
        unfold impsOfN
        simp only [List.mem_append]
        tauto
      have hsubC2 : ∀ v ∈ impsOfN i, v ∈ impsOfN (Node.variableDeclarator id (some i)) := by
        intro v hv
        unfold impsOfN
        simp only [List.mem_append]
        tauto
      rw [except_bind_ok] at h
      obtain ⟨s2, hc1, h⟩ := h
      obtain ⟨M1, A1⟩ := walkMember_inv id _ st1 s2 hwf2.1 hstr1 hc1
      have hstr2 := envStrs_of_modsIn hstr1 M1
      obtain ⟨M2, A2⟩ := walkMember_inv i _ s2 st' hwf2.2 hstr2 h
      have M01 := modsIn_trans hS.1 (modsIn_mono M1 hsubC1)
      have A01 := accIn_trans hS.1 hS.2 (accIn_mono A1 hsubC1)
      exact ⟨modsIn_trans M01 (modsIn_mono M2 hsubC2),
        accIn_trans M01 A01 (accIn_mono A2 hsubC2)⟩

  | exportNamedDeclaration declaration specifiers source =>
    intro anc st st' hwf hstr h
    cases declaration with
    | none =>
      cases source with
      | none =>
        rw [walkMember_uExportNamedNoneNone] at h
        rw [except_bind_ok] at h
        obtain ⟨st1, hstep, h⟩ := h
        rw [except_bind_ok] at h
        obtain ⟨s2, hc1, heq⟩ := h
        simp only [Except.ok.injEq] at hc1 heq
        subst hc1
        subst heq
        exact stepMember_inv _ _ _ _ hwf hstr hstep
      | some src =>
        rw [walkMember_uExportNamedNoneSome] at h
        rw [except_bind_ok] at h
        obtain ⟨st1, hstep, h⟩ := h
        have hS := stepMember_inv _ st _ st1 hwf hstr hstep
        have hstr1 := envStrs_of_modsIn hstr hS.1
        have hwfc : wfSources src = true := by
          have h2 := hwf
          simp only [wfSources, wfSourcesOpt, Bool.and_eq_true] at h2
          exact h2.2
        have hsubC : ∀ v ∈ impsOfN src,
            v ∈ impsOfN (Node.exportNamedDeclaration none specifiers (some src)) := by
          intro v hv
          unfold impsOfN
          simp only [List.mem_append]
          tauto
        rw [except_bind_ok] at h
        obtain ⟨s2, hc1, h⟩ := h
        simp only [Except.ok.injEq] at hc1
        subst hc1
        obtain ⟨M1, A1⟩ := walkMember_inv src _ st1 st' hwfc hstr1 h
        exact ⟨modsIn_trans hS.1 (modsIn_mono M1 hsubC),
          accIn_trans hS.1 hS.2 (accIn_mono A1 hsubC)⟩
    | some d =>
      cases source with
      | none =>
        rw [walkMember_uExportNamedSomeNone] at h
        rw [except_bind_ok] at h
        obtain ⟨st1, hstep, h⟩ := h
        have hS := stepMember_inv _ st _ st1 hwf hstr hstep
        have hstr1 := envStrs_of_modsIn hstr hS.1
        have hwfc : wfSources d = true := by
          have h2 := hwf
          simp only [wfSources, wfSourcesOpt, Bool.and_eq_true] at h2
          exact h2.1.1.2
        have hsubC : ∀ v ∈ impsOfN d,
            v ∈ impsOfN (Node.exportNamedDeclaration (some d) specifiers none) := by
          intro v hv
          unfold impsOfN
          simp only [List.mem_append]
          tauto
        rw [except_bind_ok] at h
        obtain ⟨s2, hc1, heq⟩ := h
        simp only [Except.ok.injEq] at heq
        subst heq
        obtain ⟨M1, A1⟩ := walkMember_inv d _ st1 s2 hwfc hstr1 hc1
        exact ⟨modsIn_trans hS.1 (modsIn_mono M1 hsubC),
          accIn_trans hS.1 hS.2 (accIn_mono A1 hsubC)⟩
      | some src =>
        rw [walkMember_uExportNamedSomeSome] at h
        rw [except_bind_ok] at h
        obtain ⟨st1, hstep, h⟩ := h
        have hS := stepMember_inv _ st _ st1 hwf hstr hstep
        have hstr1 := envStrs_of_modsIn hstr hS.1
        have hwf2 : wfSources d = true ∧ wfSources src = true := by
          have h2 := hwf
          simp only [wfSources, wfSourcesOpt, Bool.and_eq_true] at h2
          exact ⟨h2.1.1.2, h2.2⟩
        have hsubC1 : ∀ v ∈ impsOfN d,
            v ∈ impsOfN (Node.exportNamedDeclaration (some d) specifiers (some src)) := by
          intro v hv
          unfold impsOfN
          simp only [List.mem_append]
          tauto
        have hsubC2 : ∀ v ∈ impsOfN src,
            v ∈ impsOfN (Node.exportNamedDeclaration (some d) specifiers (some src)) := by
          intro v hv
          unfold impsOfN
          simp only [List.mem_append]
          tauto
        rw [except_bind_ok] at h
        obtain ⟨s2, hc1, h⟩ := h
        obtain ⟨M1, A1⟩ := walkMember_inv d _ st1 s2 hwf2.1 hstr1 hc1
        have hstr2 := envStrs_of_modsIn hstr1 M1
        obtain ⟨M2, A2⟩ := walkMember_inv src _ s2 st' hwf2.2 hstr2 h
        have M01 := modsIn_trans hS.1 (modsIn_mono M1 hsubC1)
        have A01 := accIn_trans hS.1 hS.2 (accIn_mono A1 hsubC1)
        exact ⟨modsIn_trans M01 (modsIn_mono M2 hsubC2),
          accIn_trans M01 A01 (accIn_mono A2 hsubC2)⟩

  | functionDeclaration id params body =>
    intro anc st st' hwf hstr h
    cases id with
    | none =>
      rw [walkMember_uFunctionDeclarationNone] at h
      rw [except_bind_ok] at h
      obtain ⟨st1, hstep, h⟩ := h
      have hS := stepMember_inv _ st _ st1 hwf hstr hstep
      have hstr1 := envStrs_of_modsIn hstr hS.1
      have hwf2 : wfSourcesList params = true ∧ wfSources body = true := by
        have h2 := hwf
        simp only [wfSources, wfSourcesOpt, Bool.and_eq_true] at h2
        exact ⟨h2.1.2, h2.2⟩
      have hsubL : ∀ v ∈ impsOfL params, v ∈ impsOfN (Node.functionDeclaration none params body) := by
        intro v hv
        unfold impsOfN
        simp only [List.mem_append]
        tauto
      have hsubC : ∀ v ∈ impsOfN body, v ∈ impsOfN (Node.functionDeclaration none params body) := by
        intro v hv
        unfold impsOfN
        simp only [List.mem_append]
        tauto
      rw [except_bind_ok] at h
      obtain ⟨s0, hc0, h⟩ := h
      simp only [Except.ok.injEq] at hc0
      subst hc0
      rw [except_bind_ok] at h
      obtain ⟨s2, hc1, h⟩ := h
      obtain ⟨M1, A1⟩ := walkMemberList_inv params _ st1 s2 hwf2.1 hstr1 hc1
      have hstr2 := envStrs_of_modsIn hstr1 M1
      obtain ⟨M2, A2⟩ := walkMember_inv body _ s2 st' hwf2.2 hstr2 h
      have M01 := modsIn_trans hS.1 (modsIn_mono M1 hsubL)
      have A01 := accIn_trans hS.1 hS.2 (accIn_mono A1 hsubL)
      exact ⟨modsIn_trans M01 (modsIn_mono M2 hsubC),
        accIn_trans M01 A01 (accIn_mono A2 hsubC)⟩
    | some i =>
      rw [walkMember_uFunctionDeclarationSome] at h
      rw [except_bind_ok] at h
      obtain ⟨st1, hstep, h⟩ := h
      have hS := stepMember_inv _ st _ st1 hwf hstr hstep
      have hstr1 := envStrs_of_modsIn hstr hS.1
      have hwf3 : wfSources i = true ∧ wfSourcesList params = true ∧ wfSources body = true := by
        have h2 := hwf
        simp only [wfSources, wfSourcesOpt, Bool.and_eq_true] at h2
        exact ⟨h2.1.1, h2.1.2, h2.2⟩
      have hsubI : ∀ v ∈ impsOfN i, v ∈ impsOfN (Node.functionDeclaration (some i) params body) := by
        intro v hv
        unfold impsOfN
        simp only [List.mem_append]
        tauto
      have hsubL : ∀ v ∈ impsOfL params, v ∈ impsOfN (Node.functionDeclaration (some i) params body) := by
        intro v hv
        unfold impsOfN
        simp only [List.mem_append]
        tauto
      have hsubC : ∀ v ∈ impsOfN body, v ∈ impsOfN (Node.functionDeclaration (some i) params body) := by
        intro v hv
        unfold impsOfN
        simp only [List.mem_append]
        tauto
      rw [except_bind_ok] at h
      obtain ⟨s0, hc0, h⟩ := h
      rw [except_bind_ok] at h
      obtain ⟨s2, hc1, h⟩ := h
      obtain ⟨M0b, A0b⟩ := walkMember_inv i _ st1 s0 hwf3.1 hstr1 hc0
      have hstr1b := envStrs_of_modsIn hstr1 M0b
      obtain ⟨M1, A1⟩ := walkMemberList_inv params _ s0 s2 hwf3.2.1 hstr1b hc1
      have hstr2 := envStrs_of_modsIn hstr1b M1
      obtain ⟨M2, A2⟩ := walkMember_inv body _ s2 st' hwf3.2.2 hstr2 h
      have Ma := modsIn_trans hS.1 (modsIn_mono M0b hsubI)
      have Aa := accIn_trans hS.1 hS.2 (accIn_mono A0b hsubI)
      have Mb := modsIn_trans Ma (modsIn_mono M1 hsubL)
      have Ab := accIn_trans Ma Aa (accIn_mono A1 hsubL)
      exact ⟨modsIn_trans Mb (modsIn_mono M2 hsubC),
        accIn_trans Mb Ab (accIn_mono A2 hsubC)⟩

  | functionExpression id params body =>
    intro anc st st' hwf hstr h
    cases id with
    | none =>
      rw [walkMember_uFunctionExpressionNone] at h
      rw [except_bind_ok] at h
      obtain ⟨st1, hstep, h⟩ := h
      have hS := stepMember_inv _ st _ st1 hwf hstr hstep
      have hstr1 := envStrs_of_modsIn hstr hS.1
      have hwf2 : wfSourcesList params = true ∧ wfSources body = true := by
        have h2 := hwf
        simp only [wfSources, wfSourcesOpt, Bool.and_eq_true] at h2
        exact ⟨h2.1.2, h2.2⟩
      have hsubL : ∀ v ∈ impsOfL params, v ∈ impsOfN (Node.functionExpression none params body) := by
        intro v hv
        unfold impsOfN
        simp only [List.mem_append]
        tauto
      have hsubC : ∀ v ∈ impsOfN body, v ∈ impsOfN (Node.functionExpression none params body) := by
        intro v hv
        unfold impsOfN
        simp only [List.mem_append]
        tauto
      rw [except_bind_ok] at h
      obtain ⟨s0, hc0, h⟩ := h
      simp only [Except.ok.injEq] at hc0
      subst hc0
      rw [except_bind_ok] at h
      obtain ⟨s2, hc1, h⟩ := h
      obtain ⟨M1, A1⟩ := walkMemberList_inv params _ st1 s2 hwf2.1 hstr1 hc1
      have hstr2 := envStrs_of_modsIn hstr1 M1
      obtain ⟨M2, A2⟩ := walkMember_inv body _ s2 st' hwf2.2 hstr2 h
      have M01 := modsIn_trans hS.1 (modsIn_mono M1 hsubL)
      have A01 := accIn_trans hS.1 hS.2 (accIn_mono A1 hsubL)
      exact ⟨modsIn_trans M01 (modsIn_mono M2 hsubC),
        accIn_trans M01 A01 (accIn_mono A2 hsubC)⟩
    | some i =>
      rw [walkMember_uFunctionExpressionSome] at h
      rw [except_bind_ok] at h
      obtain ⟨st1, hstep, h⟩ := h
      have hS := stepMember_inv _ st _ st1 hwf hstr hstep
      have hstr1 := envStrs_of_modsIn hstr hS.1
      have hwf3 : wfSources i = true ∧ wfSourcesList params = true ∧ wfSources body = true := by
        have h2 := hwf
        simp only [wfSources, wfSourcesOpt, Bool.and_eq_true] at h2
        exact ⟨h2.1.1, h2.1.2, h2.2⟩
      have hsubI : ∀ v ∈ impsOfN i, v ∈ impsOfN (Node.functionExpression (some i) params body) := by
        intro v hv
        unfold impsOfN
        simp only [List.mem_append]
        tauto
      have hsubL : ∀ v ∈ impsOfL params, v ∈ impsOfN (Node.functionExpression (some i) params body) := by
        intro v hv
        unfold impsOfN
        simp only [List.mem_append]
        tauto
      have hsubC : ∀ v ∈ impsOfN body, v ∈ impsOfN (Node.functionExpression (some i) params body) := by
        intro v hv
        unfold impsOfN
        simp only [List.mem_append]
        tauto
      rw [except_bind_ok] at h
      obtain ⟨s0, hc0, h⟩ := h
      rw [except_bind_ok] at h
      obtain ⟨s2, hc1, h⟩ := h
      obtain ⟨M0b, A0b⟩ := walkMember_inv i _ st1 s0 hwf3.1 hstr1 hc0
      have hstr1b := envStrs_of_modsIn hstr1 M0b
      obtain ⟨M1, A1⟩ := walkMemberList_inv params _ s0 s2 hwf3.2.1 hstr1b hc1
      have hstr2 := envStrs_of_modsIn hstr1b M1
      obtain ⟨M2, A2⟩ := walkMember_inv body _ s2 st' hwf3.2.2 hstr2 h
      have Ma := modsIn_trans hS.1 (modsIn_mono M0b hsubI)
      have Aa := accIn_trans hS.1 hS.2 (accIn_mono A0b hsubI)
      have Mb := modsIn_trans Ma (modsIn_mono M1 hsubL)
      have Ab := accIn_trans Ma Aa (accIn_mono A1 hsubL)
      exact ⟨modsIn_trans Mb (modsIn_mono M2 hsubC),
        accIn_trans Mb Ab (accIn_mono A2 hsubC)⟩


/-- Walk invariant for node lists. -/
theorem walkMemberList_inv :
    ∀ (ns : List Node) (anc : List Node) (st st' : MemberSt),
      wfSourcesList ns = true → (∀ v ∈ envMods st.env, ∃ s, v = .str s) →
      walkMemberList anc st ns = .ok st' →
      ModsIn st st' (impsOfL ns) ∧ AccIn st st' (impsOfL ns) := by
  intro ns
  cases ns with
  | nil =>
    intro anc st st' _ _ h
    simp only [walkMemberList] at h
    cases h
    exact ⟨fun m hm => Or.inl hm, fun s hs => Or.inl hs⟩
  | cons n rest =>
    intro anc st st' hwfl hstr h
    have hwf2 : wfSources n = true ∧ wfSourcesList rest = true := by
      simp only [wfSourcesList, Bool.and_eq_true] at hwfl
      exact hwfl
    have hsubN : ∀ v ∈ impsOfN n, v ∈ impsOfL (n :: rest) := by
      intro v hv
      simp only [impsOfL, List.mem_append]
      tauto
    have hsubR : ∀ v ∈ impsOfL rest, v ∈ impsOfL (n :: rest) := by
      intro v hv
      simp only [impsOfL, List.mem_append]
      tauto
    simp only [walkMemberList] at h
    rw [except_bind_ok] at h
    obtain ⟨s1, hc1, h⟩ := h
    obtain ⟨M1, A1⟩ := walkMember_inv n anc st s1 hwf2.1 hstr hc1
    have hstr1 := envStrs_of_modsIn hstr M1
    obtain ⟨M2, A2⟩ := walkMemberList_inv rest anc s1 st' hwf2.2 hstr1 h
    have Ma := modsIn_mono M1 hsubN
    have Aa := accIn_mono A1 hsubN
    exact ⟨modsIn_trans Ma (modsIn_mono M2 hsubR),
      accIn_trans Ma Aa (accIn_mono A2 hsubR)⟩

/-- Walk invariant for optional-node lists. -/
theorem walkMemberOptList_inv :
    ∀ (ns : List (Option Node)) (anc : List Node) (st st' : MemberSt),
      wfSourcesOptList ns = true → (∀ v ∈ envMods st.env, ∃ s, v = .str s) →
      walkMemberOptList anc st ns = .ok st' →
      ModsIn st st' (impsOfO ns) ∧ AccIn st st' (impsOfO ns) := by
  intro ns
  cases ns with
  | nil =>
    intro anc st st' _ _ h
    simp only [walkMemberOptList] at h
    cases h
    exact ⟨fun m hm => Or.inl hm, fun s hs => Or.inl hs⟩
  | cons o rest =>
    cases o with
    | none =>
      intro anc st st' hwfl hstr h
      simp only [walkMemberOptList] at h
      have hwf2 : wfSourcesOptList rest = true := by
        simp only [wfSourcesOptList, wfSourcesOpt, Bool.and_eq_true] at hwfl
        exact hwfl.2
      have hres := walkMemberOptList_inv rest anc st st' hwf2 hstr h
      simpa only [impsOfO] using hres
    | some n =>
      intro anc st st' hwfl hstr h
      have hwf2 : wfSources n = true ∧ wfSourcesOptList rest = true := by
        simp only [wfSourcesOptList, wfSourcesOpt, Bool.and_eq_true] at hwfl
        exact hwfl
      have hsubN : ∀ v ∈ impsOfN n, v ∈ impsOfO (some n :: rest) := by
        intro v hv
        simp only [impsOfO, List.mem_append]
        tauto
      have hsubR : ∀ v ∈ impsOfO rest, v ∈ impsOfO (some n :: rest) := by
        intro v hv
        simp only [impsOfO, List.mem_append]
        tauto
      simp only [walkMemberOptList] at h
      rw [except_bind_ok] at h
      obtain ⟨s1, hc1, h⟩ := h
      obtain ⟨M1, A1⟩ := walkMember_inv n anc st s1 hwf2.1 hstr hc1
      have hstr1 := envStrs_of_modsIn hstr M1
      obtain ⟨M2, A2⟩ := walkMemberOptList_inv rest anc s1 st' hwf2.2 hstr1 h
      have Ma := modsIn_mono M1 hsubN
      have Aa := accIn_mono A1 hsubN
      exact ⟨modsIn_trans Ma (modsIn_mono M2 hsubR),
        accIn_trans Ma Aa (accIn_mono A2 hsubR)⟩

end

/-! ## Assembly of the coarse/fine containment -/

/-- Helper: decidable-membership form of `List.contains` on strings. -/
theorem containsStr_iff_mem (l : List Str) (s : Str) : l.contains s = true ↔ s ∈ l := by
  induction l with
  | nil => simp [List.contains]
  | cons a as ih =>
    simp only [List.contains_cons, Bool.or_eq_true, beq_iff_eq, List.mem_cons, ih]

/-- Every member string recorded for a whole AST (starting from the
undefined environment and empty accumulator) decomposes as a
known import module followed by a dot, or is prefixed by the stringified
undefined module. -/
theorem extractMemberAccesses_good (ast : Node) (acc2 : List Str)
    (hwf : wfSources ast = true) (h : extractMemberAccesses ast = .ok acc2) :
    ∀ t ∈ acc2, (∃ ms x, t = ms ++ '.' :: x ∧ JSVal.str ms ∈ impsOfN ast) ∨
      (∃ x, t = strLit ("undefined") ++ '.' :: x) := by
  simp only [extractMemberAccesses] at h
  rw [except_bind_ok] at h
  obtain ⟨st2, hw, heq⟩ := h
  simp only [Except.ok.injEq] at heq
  subst heq
  have hstr : ∀ v ∈ envMods (({ env := [], acc := [] } : MemberSt)).env, ∃ s, v = .str s := by
    intro v hv
    simp [envMods] at hv
  obtain ⟨M, A⟩ := walkMember_inv ast [] _ st2 hwf hstr hw
  intro t ht
  rcases A t ht with h2 | h2
  · simp at h2
  · rcases h2 with ⟨ms, x, rfl, hm | hm⟩ | ⟨x, rfl⟩
    · simp [envMods] at hm
    · exact Or.inl ⟨ms, x, rfl, hm⟩
    · exact Or.inr ⟨x, rfl⟩

/-- Every string in the accumulated fine member union either was present
initially or comes from a successfully traced file of the list. -/
theorem accumMemberAccesses_source (gn : List Str) :
    ∀ (files : List (Option Node)) (M0 G0 M G : List Str),
      accumMemberAccesses gn files M0 G0 = .ok (M, G) →
      ∀ t ∈ M, t ∈ M0 ∨
        ∃ ast acc2, some ast ∈ files ∧ extractMemberAccesses ast = .ok acc2 ∧ t ∈ acc2 := by
  intro files
  induction files with
  | nil =>
    intro M0 G0 M G h t ht
    simp only [accumMemberAccesses] at h
    cases h
    exact Or.inl ht
  | cons o rest ih =>
    cases o with
    | none =>
      intro M0 G0 M G h t ht
      simp only [accumMemberAccesses] at h
      rcases ih M0 G0 M G h t ht with h2 | ⟨ast, acc2, hmem, hok, htin⟩
      · exact Or.inl h2
      · exact Or.inr ⟨ast, acc2, List.mem_cons_of_mem _ hmem, hok, htin⟩
    | some a =>
      intro M0 G0 M G h t ht
      simp only [accumMemberAccesses] at h
      rw [except_bind_ok] at h
      obtain ⟨fm, hfm, h⟩ := h
      rw [except_bind_ok] at h
      obtain ⟨p, hp, h⟩ := h
      obtain ⟨p1, p2⟩ := p
      rcases ih _ _ M G h t ht with h2 | ⟨ast, acc2, hmem, hok, htin⟩
      · rw [mem_setUnion] at h2
        rcases h2 with h3 | h3
        · exact Or.inl h3
        · exact Or.inr ⟨a, fm, List.mem_cons_self _ _, hfm, h3⟩
      · exact Or.inr ⟨ast, acc2, List.mem_cons_of_mem _ hmem, hok, htin⟩

/-- The accumulated coarse import union contains the initial set and the
imports of every file of the list. -/
theorem accumAccesses_fwd (gn : List Str) :
    ∀ (files : List (Option Node)) (M0 : List JSVal) (G0 : List Str) (M : List JSVal)
      (G : List Str),
      accumAccesses gn files M0 G0 = .ok (M, G) →
      (∀ v ∈ M0, v ∈ M) ∧
      (∀ ast : Node, some ast ∈ files → ∀ v ∈ extractImportsFromAST ast, v ∈ M) := by
  intro files
  induction files with
  | nil =>
    intro M0 G0 M G h
    simp only [accumAccesses] at h
    cases h
    refine ⟨fun v hv => hv, ?_⟩
    intro ast hmem
    simp at hmem
  | cons o rest ih =>
    cases o with
    | none =>
      intro M0 G0 M G h
      simp only [accumAccesses] at h
      obtain ⟨h1, h2⟩ := ih M0 G0 M G h
      refine ⟨h1, ?_⟩
      intro ast hmem v hv
      rcases List.mem_cons.mp hmem with h3 | h3
      · exact absurd h3 (by simp)
      · exact h2 ast h3 v hv
    | some a =>
      intro M0 G0 M G h
      simp only [accumAccesses] at h
      rw [except_bind_ok] at h
      obtain ⟨p, hp, h⟩ := h
      obtain ⟨p1, p2⟩ := p
      obtain ⟨h1, h2⟩ := ih _ _ M G h
      constructor
      · intro v hv
        exact h1 v ((mem_setUnion _ _ _).mpr (Or.inl hv))
      · intro ast hmem v hv
        rcases List.mem_cons.mp hmem with h3 | h3
        · have ha : ast = a := by
            injection h3
          subst ha
          exact h1 v ((mem_setUnion _ _ _).mpr (Or.inr hv))
        · exact h2 ast h3 v hv

/-- C6: for every package analyzed with member tracing enabled, every
member-access string in the fine module-member set names a module that is
in the coarse module set, both sets being computed over the same
enumerated files and for any value of the include-custom-modules option,
provided the builtin-module names are dot-free and do not contain the
string "undefined", and the file ASTs carry parser-shaped (string
literal) import and export sources. -/
theorem fineModuleInCoarseModules
    (globalNames natives : List Str) (includeCustomModules : Bool)
    (files : List (Option Node))
    (hdot : ∀ nm ∈ natives, '.' ∉ nm)
    (hund : strLit ("undefined") ∉ natives)
    (hwfF : ∀ ast : Node, some ast ∈ files → wfSources ast = true)
    (coarse : AccessesResult) (fine : MemberAccessesResult)
    (hc : getAccessesForPackage globalNames natives includeCustomModules files = .ok coarse)
    (hf : getMemberAccessesForPackage globalNames natives files = .ok fine) :
    ∀ s ∈ fine.moduleMemberAccesses,
      JSVal.str (MemberAccess.fromString s).module ∈ coarse.modules := by
  simp only [getMemberAccessesForPackage] at hf
  rw [except_bind_ok] at hf
  obtain ⟨pf, hpf, hf⟩ := hf
  obtain ⟨mm, gm⟩ := pf
  simp only [Except.ok.injEq] at hf
  subst hf
  simp only [getAccessesForPackage] at hc
  rw [except_bind_ok] at hc
  obtain ⟨pc, hpc, hc⟩ := hc
  obtain ⟨cm, cg⟩ := pc
  simp only [Except.ok.injEq] at hc
  subst hc
  intro s hs
  simp only [mem_setMap] at hs
  obtain ⟨ma, hma, rfl⟩ := hs
  rw [mem_setFilter] at hma
  obtain ⟨hma1, hma2⟩ := hma
  rw [mem_setMap] at hma1
  obtain ⟨t, htmm, rfl⟩ := hma1
  have hmaMem : (MemberAccess.fromString t).module ∈ natives :=
    (containsStr_iff_mem _ _).mp hma2
  have hnodotLast : '.' ∉ (MemberAccess.fromString t).memberName :=
    notMem_getLast_splitOnChar '.' t
  have hback : MemberAccess.fromString ((MemberAccess.fromString t).toStr) =
      MemberAccess.fromString t := by
    rw [MemberAccess.toStr, MemberAccess.fromString_of_append _ _ hnodotLast]
  rcases accumMemberAccesses_source globalNames files [] [] mm gm hpf t htmm with h0 | h2
  · simp at h0
  obtain ⟨ast, acc2, hastf, hok, htin⟩ := h2
  rcases extractMemberAccesses_good ast acc2 (hwfF ast hastf) hok t htin with
    ⟨ms, x, rfl, hmI⟩ | ⟨x, hux⟩
  · by_cases hx : '.' ∈ x
    · have hdotmod := MemberAccess.fromString_module_has_dot ms x hx
      exact absurd hdotmod (hdot _ hmaMem)
    · rw [MemberAccess.fromString_of_append ms x hx] at hback hmaMem ⊢
      have hincm : JSVal.str ms ∈ cm :=
        (accumAccesses_fwd globalNames files [] [] cm cg hpc).2 ast hastf _
          ((mem_extractImportsFromAST ast _).mpr hmI)
      rw [hback]
      cases includeCustomModules with
      | false =>
        simp only [Bool.not_false, eq_self_iff_true, if_true]
        rw [mem_setIntersection]
        refine ⟨hincm, ?_⟩
        simp only [nativeHas]
        exact (containsStr_iff_mem _ _).mpr hmaMem
      | true =>
        simp only [Bool.not_true, Bool.false_eq_true, if_false]
        exact hincm
  · subst hux
    by_cases hx : '.' ∈ x
    · have hdotmod := MemberAccess.fromString_module_has_dot (strLit ("undefined")) x hx
      exact absurd hdotmod (hdot _ hmaMem)
    · rw [MemberAccess.fromString_of_append _ x hx] at hmaMem
      exact absurd hmaMem hund

/-- Witness input: `const v = require('fs'); v.readFile`. -/
def c6RequireFs : Node :=
  .callExpression (.identifier (strLit ("require"))) [.literal (.str (strLit ("fs")))]

/-- Witness AST for the coarse/fine containment. -/
def c6Ast : Node := .program [
  .variableDeclaration (strLit ("const"))
    [.variableDeclarator (.identifier (strLit ("v"))) (some c6RequireFs)],
  .expressionStatement
    (.memberExpression (.identifier (strLit ("v"))) (.identifier (strLit ("readFile"))) false)]

/-- Witness file list: the single parsed file above. -/
def c6Files : List (Option Node) := [some c6Ast]

/-- Witness builtin-module list. -/
def c6Natives : List Str := [strLit ("fs")]

/-- The coarse result on the witness input. -/
def c6Coarse : AccessesResult :=
  { modules := [JSVal.str (strLit ("fs"))], globals := [] }

/-- The fine result on the witness input. -/
def c6Fine : MemberAccessesResult :=
  { moduleMemberAccesses := [strLit ("fs.readFile")], globalMemberAccesses := [] }

theorem c6CoarseEval :
    getAccessesForPackage [] c6Natives false c6Files = .ok c6Coarse := rfl

theorem c6FineEval :
    getMemberAccessesForPackage [] c6Natives c6Files = .ok c6Fine := rfl

/-- Witness for the C6 theorem: on the concrete input, the module of the
fine member string "fs.readFile" is an element of the coarse module
set. -/
theorem fineModuleInCoarseModules_witness :
    JSVal.str (MemberAccess.fromString (strLit ("fs.readFile"))).module ∈ c6Coarse.modules :=
  fineModuleInCoarseModules [] c6Natives false c6Files
    (by decide) (by decide)
    (by
      intro ast h
      simp only [c6Files, List.mem_singleton, Option.some.injEq] at h
      subst h
      decide)
    c6Coarse c6Fine c6CoarseEval c6FineEval
    (strLit ("fs.readFile")) (by decide)

/-! ## Claim theorems -/

/-- C9: for every string containing at least one dot,
`MemberAccess.fromString` splits at the rightmost dot — the member name
is the dot-free part after the last dot and the module everything before
it — and `toString` of the result restores the original string. -/
theorem fromStringRoundtripRightmost (s : Str) (hs : '.' ∈ s) :
    MemberAccess.toStr (MemberAccess.fromString s) = s ∧
    s = (MemberAccess.fromString s).module ++ '.' :: (MemberAccess.fromString s).memberName ∧
    '.' ∉ (MemberAccess.fromString s).memberName := by
  obtain ⟨hdec, hmem⟩ := MemberAccess.fromString_decomp s hs
  refine ⟨?_, hdec, hmem⟩
  rw [MemberAccess.toStr]
  exact hdec.symm

/-- Witness for C9 at the dotted module string "a.b.c". -/
theorem fromStringRoundtripRightmost_witness :
    MemberAccess.toStr (MemberAccess.fromString (strLit ("a.b.c"))) = strLit ("a.b.c") ∧
    strLit ("a.b.c") = (MemberAccess.fromString (strLit ("a.b.c"))).module ++
      '.' :: (MemberAccess.fromString (strLit ("a.b.c"))).memberName ∧
    '.' ∉ (MemberAccess.fromString (strLit ("a.b.c"))).memberName :=
  fromStringRoundtripRightmost (strLit ("a.b.c")) (by decide)

/-- C1: contrary to the spec, a member expression whose object is the
direct require call `require('m')` records nothing — the guard reads the
`name` field of the first argument, which a string literal does not have
— so the member-access set of such a program is empty rather than
containing "m.x". -/
theorem requireMemberDirectRecordsNothing :
    extractMemberAccesses (Node.program [.expressionStatement
      (.memberExpression
        (.callExpression (.identifier (strLit ("require"))) [.literal (.str (strLit ("m")))])
        (.identifier (strLit ("x"))) false)]) = .ok [] := rfl

/-- C3: contrary to the spec, destructuring a direct require call with an
array pattern records "undefined.0", "undefined.1", … — the module is
read from `declarator.init.name`, which a call expression does not have —
rather than "m.0", "m.1", …. -/
theorem arrayPatternRequireRecordsUndefined :
    extractMemberAccesses (Node.program [.variableDeclaration (strLit ("const"))
      [.variableDeclarator
        (.arrayPattern [some (.identifier (strLit ("a"))), some (.identifier (strLit ("b")))])
        (some (.callExpression (.identifier (strLit ("require")))
          [.literal (.str (strLit ("m")))]))]]) =
    .ok [strLit ("undefined.0"), strLit ("undefined.1")] := rfl

/-- C4: a parameter of its enclosing function is never recorded as an
accessed global, for every function form including arrow function
expressions: the traversal dispatches parameters under the `Pattern`
override, so a parameter identifier is never analyzed as an
`Identifier`-typed referring use, whatever its name, whatever the known
global names, and whichever parameter slot (plain or rest) it
occupies. -/
theorem paramNeverRecordedAsGlobal (globalNames : List Str) (nm1 nm2 nm3 fnm : Str) :
    findGlobalsInAST globalNames
      (Node.program [.expressionStatement
        (.arrowFunctionExpression
          [.identifier nm1, .identifier nm2, .restElement (.identifier nm3)]
          (.blockStatement []))]) = .ok ([], []) ∧
    findGlobalsInAST globalNames
      (Node.program [.expressionStatement
        (.functionExpression none
          [.identifier nm1, .identifier nm2, .restElement (.identifier nm3)]
          (.blockStatement []))]) = .ok ([], []) ∧
    findGlobalsInAST globalNames
      (Node.program
        [.functionDeclaration (some (.identifier fnm))
          [.identifier nm1, .identifier nm2, .restElement (.identifier nm3)]
          (.blockStatement [])]) = .ok ([], []) := ⟨rfl, rfl, rfl⟩

/-- C10: the import extractor records the first-argument literal value of
a require call whatever its type, while the module-referencing-binding
recognizer rejects the same declarator when the literal is not a string;
so a non-string literal argument enters the coarse module set. -/
theorem requireNonStringLiteralImported (v : JSVal) (hv : v.isString = false) :
    v ∈ extractImportsFromAST (Node.program [Node.variableDeclaration (strLit ("const"))
      [Node.variableDeclarator (.identifier (strLit ("a")))
        (some (.callExpression (.identifier (strLit ("require"))) [.literal v]))]]) ∧
    validRequireCall (Node.variableDeclarator (.identifier (strLit ("a")))
      (some (.callExpression (.identifier (strLit ("require"))) [.literal v]))) = false := by
  constructor
  · have hev : extractImportsFromAST (Node.program [Node.variableDeclaration (strLit ("const"))
        [Node.variableDeclarator (.identifier (strLit ("a")))
          (some (.callExpression (.identifier (strLit ("require"))) [.literal v]))]]) = [v] := rfl
    rw [hev]
    exact List.mem_singleton_self v
  · simp [validRequireCall, hv]

/-- Witness for C10 at the numeric literal `require(5)`. -/
theorem requireNonStringLiteralImported_witness :
    (JSVal.num 5).isString = false ∧
    (JSVal.num 5 ∈ extractImportsFromAST (Node.program [Node.variableDeclaration (strLit ("const"))
      [Node.variableDeclarator (.identifier (strLit ("a")))
        (some (.callExpression (.identifier (strLit ("require"))) [.literal (.num 5)]))]]) ∧
    validRequireCall (Node.variableDeclarator (.identifier (strLit ("a")))
      (some (.callExpression (.identifier (strLit ("require"))) [.literal (.num 5)]))) = false) :=
  ⟨rfl, requireNonStringLiteralImported (JSVal.num 5) rfl⟩

/-- C2 counterexample: with lockfile schema version 4 the dependency map
is empty, and the capability extraction over that empty map analyzes no
package at all — its coarse entry list is empty, not the one-entry root
list the claim requires. -/
theorem unknownLockfileVersionNoPackages :
    getDependencyMap (fun _ => false)
      { lockfileVersion := some (.num 4), dependencies := [], packages := [] }
      { name := strLit ("root-pkg"), dependencies := [strLit ("dep")] }
      (strLit ("/root")) = [] ∧
    getCapabilitiesFromDependencyMap [] [] (fun _ => [])
      (getDependencyMap (fun _ => false)
        { lockfileVersion := some (.num 4), dependencies := [], packages := [] }
        { name := strLit ("root-pkg"), dependencies := [strLit ("dep")] }
        (strLit ("/root"))) true true =
      .ok { capabilitiesCoarse := [], capabilitiesFine := [] } ∧
    ([] : List (Str × GranCaps JSVal Str)) ≠
      [(strLit ("/root"), { modules := [], globals := [] })] := by
  refine ⟨rfl, rfl, ?_⟩
  decide

/-- C2 amended: if the lockfile schema version is none of 1, 2 and 3,
the dependency map is empty and the capability extraction analyzes no
package — not even the root package. -/
theorem unknownLockfileVersionEmptyAnalysis
    (fsExists : Str → Bool) (lockfile : Lockfile) (packageJson : PackageJson) (rootPath : Str)
    (globalNames natives : List Str) (filesOf : Str → List (Option Node))
    (memberAccessTracing includeCustomModules : Bool)
    (h1 : lockfile.lockfileVersion ≠ some (.num 1))
    (h2 : lockfile.lockfileVersion ≠ some (.num 2))
    (h3 : lockfile.lockfileVersion ≠ some (.num 3)) :
    getDependencyMap fsExists lockfile packageJson rootPath = [] ∧
    getCapabilitiesFromDependencyMap globalNames natives filesOf
      (getDependencyMap fsExists lockfile packageJson rootPath)
      memberAccessTracing includeCustomModules =
      .ok { capabilitiesCoarse := [], capabilitiesFine := [] } := by
  have hmap : getDependencyMap fsExists lockfile packageJson rootPath = [] := by
    rw [getDependencyMap, if_neg h1, if_neg]
    rintro (h | h)
    · exact h2 h
    · exact h3 h
  refine ⟨hmap, ?_⟩
  rw [hmap]
  rfl

/-- Witness for the amended C2 theorem at schema version 4. -/
theorem unknownLockfileVersionEmptyAnalysis_witness :
    getDependencyMap (fun _ => true)
      { lockfileVersion := some (.num 4), dependencies := [], packages := [] }
      { name := strLit ("r"), dependencies := [] } (strLit ("/r")) = [] ∧
    getCapabilitiesFromDependencyMap [] [] (fun _ => [])
      (getDependencyMap (fun _ => true)
        { lockfileVersion := some (.num 4), dependencies := [], packages := [] }
        { name := strLit ("r"), dependencies := [] } (strLit ("/r"))) false false =
      .ok { capabilitiesCoarse := [], capabilitiesFine := [] } :=
  unknownLockfileVersionEmptyAnalysis (fun _ => true)
    { lockfileVersion := some (.num 4), dependencies := [], packages := [] }
    { name := strLit ("r"), dependencies := [] } (strLit ("/r"))
    [] [] (fun _ => []) false false (by decide) (by decide) (by decide)

/-- C5 counterexample: the enumeration descends into the hidden directory
`.hidden` and returns the JS file inside it, so hidden directories are
not skipped. -/
theorem hiddenDirNotSkipped :
    recursiveGetJSFilePaths (strLit ("/p"))
      [.dir (strLit (".hidden")) [.file (strLit ("a.js"))]] =
      [strLit ("/p/.hidden/a.js")] ∧
    [strLit ("/p/.hidden/a.js")] ≠ ([] : List Str) := by
  refine ⟨?_, by decide⟩
  simp +decide [recursiveGetJSFilePaths, pathJoin, isJsFileName]

/-- Splitting on a character that does not occur returns the whole
string as the only part. -/
theorem splitOnChar_of_not_mem (c : Char) (s : Str) (h : c ∉ s) :
    splitOnChar c s = [s] := by
  induction s with
  | nil => rfl
  | cons x xs ih =>
    simp only [List.mem_cons, not_or] at h
    simp only [splitOnChar, ih h.2]
    rw [if_neg (fun hh => h.1 hh.symm)]

/-- Character-membership form of `List.contains` on strings. -/
theorem containsChar_iff_mem (l : Str) (c : Char) : l.contains c = true ↔ c ∈ l := by
  induction l with
  | nil => simp [List.contains]
  | cons a as ih =>
    simp only [List.contains_cons, Bool.or_eq_true, beq_iff_eq, List.mem_cons, ih]

/-- C5 amended: under slash-free directory-listing names, the source
enumeration returns exactly the `.js`/`.mjs`/`.cjs` files below the
package directory, never descending into a directory named
`node_modules`; hidden directories are traversed like any other
directory (they are not skipped). -/
theorem recursiveGetJSFilePaths_spec_list :
    ∀ (entries : List FSEntry) (dirPath : Str), fsNamesSlashFreeList entries = true →
      recursiveGetJSFilePaths dirPath entries = specJSFiles dirPath entries := by
  intro entries
  cases entries with
  | nil =>
    intro dirPath _
    simp only [recursiveGetJSFilePaths, specJSFiles]
  | cons e rest =>
    cases e with
    | file name =>
      intro dirPath hsf
      simp only [fsNamesSlashFreeList, Bool.and_eq_true] at hsf
      simp only [recursiveGetJSFilePaths, specJSFiles]
      rw [recursiveGetJSFilePaths_spec_list rest dirPath hsf.2]
    | other name =>
      intro dirPath hsf
      simp only [fsNamesSlashFreeList, Bool.and_eq_true] at hsf
      simp only [recursiveGetJSFilePaths, specJSFiles]
      rw [recursiveGetJSFilePaths_spec_list rest dirPath hsf.2]
    | dir name sub =>
      intro dirPath hsf
      simp only [fsNamesSlashFreeList, fsNamesSlashFree, Bool.and_eq_true,
        Bool.not_eq_true'] at hsf
      have hns : '/' ∉ name := by
        intro hmem
        rw [← containsChar_iff_mem] at hmem
        rw [hsf.1.1] at hmem
        cases hmem
      simp only [recursiveGetJSFilePaths, specJSFiles,
        splitOnChar_of_not_mem '/' name hns, List.getLastD_cons, List.getLastD_nil]
      rw [recursiveGetJSFilePaths_spec_list sub (pathJoin dirPath name) hsf.1.2,
        recursiveGetJSFilePaths_spec_list rest dirPath hsf.2]

/-- Witness for the amended C5 theorem on a tree with a hidden directory,
a node_modules directory and a plain file. -/
theorem recursiveGetJSFilePaths_spec_witness :
    fsNamesSlashFreeList
      [FSEntry.dir (strLit (".hidden")) [FSEntry.file (strLit ("a.js"))],
       FSEntry.dir (strLit ("node_modules")) [FSEntry.file (strLit ("b.js"))],
       FSEntry.file (strLit ("c.mjs")), FSEntry.file (strLit ("d.txt"))] = true ∧
    recursiveGetJSFilePaths (strLit ("/p"))
      [FSEntry.dir (strLit (".hidden")) [FSEntry.file (strLit ("a.js"))],
       FSEntry.dir (strLit ("node_modules")) [FSEntry.file (strLit ("b.js"))],
       FSEntry.file (strLit ("c.mjs")), FSEntry.file (strLit ("d.txt"))] =
    specJSFiles (strLit ("/p"))
      [FSEntry.dir (strLit (".hidden")) [FSEntry.file (strLit ("a.js"))],
       FSEntry.dir (strLit ("node_modules")) [FSEntry.file (strLit ("b.js"))],
       FSEntry.file (strLit ("c.mjs")), FSEntry.file (strLit ("d.txt"))] :=
  ⟨by decide,
   recursiveGetJSFilePaths_spec_list
     [FSEntry.dir (strLit (".hidden")) [FSEntry.file (strLit ("a.js"))],
      FSEntry.dir (strLit ("node_modules")) [FSEntry.file (strLit ("b.js"))],
      FSEntry.file (strLit ("c.mjs")), FSEntry.file (strLit ("d.txt"))]
     (strLit ("/p")) (by decide)⟩

/-- The package name under which `createGranularPolicy` files a
capability record: the path part after the last `node_modules/`, with the
root path renamed to the root package name. -/
def packageNameOf (rootPath rootPackageName p : Str) : Str :=
  if (splitOnSeq (strLit ("node_modules/")) p).getLastD [] = rootPath then rootPackageName
  else (splitOnSeq (strLit ("node_modules/")) p).getLastD []

/-- One-step unfolding of the policy fold, phrased with
`packageNameOf`. -/
theorem createGranularPolicyGo_cons {μ γ : Type} [DecidableEq μ] [DecidableEq γ]
    (leM : μ → μ → Bool) (leG : γ → γ → Bool) (rootPath rootPackageName : Str)
    (p : Str) (c : GranCaps μ γ) (rest policy : List (Str × GranCaps μ γ)) :
    createGranularPolicyGo leM leG rootPath rootPackageName ((p, c) :: rest) policy =
      (if alHas policy (packageNameOf rootPath rootPackageName p) then
        match alGet policy (packageNameOf rootPath rootPackageName p) with
        | some prev =>
          createGranularPolicyGo leM leG rootPath rootPackageName rest
            (alSet policy (packageNameOf rootPath rootPackageName p)
              { modules := (setUnion (listToSet prev.modules) c.modules).mergeSort leM
                globals := (setUnion (listToSet prev.globals) c.globals).mergeSort leG })
        | none => createGranularPolicyGo leM leG rootPath rootPackageName rest policy
      else
        createGranularPolicyGo leM leG rootPath rootPackageName rest
          (alSet policy (packageNameOf rootPath rootPackageName p)
            { modules := c.modules.mergeSort leM, globals := c.globals.mergeSort leG })) := rfl

/-- C7: two capability records whose distinct package paths map to the
same package name produce a single policy entry under that name, whose
modules array and globals array are sorted, duplicate-free, and hold
exactly the union of the two records' sets. -/
theorem duplicatePackageSingleUnionEntry {μ γ : Type} [DecidableEq μ] [DecidableEq γ]
    (leM : μ → μ → Bool) (leG : γ → γ → Bool)
    (hMtrans : ∀ a b c : μ, leM a b = true → leM b c = true → leM a c = true)
    (hMtotal : ∀ a b : μ, (leM a b || leM b a) = true)
    (hGtrans : ∀ a b c : γ, leG a b = true → leG b c = true → leG a c = true)
    (hGtotal : ∀ a b : γ, (leG a b || leG b a) = true)
    (rootPath rootPackageName nm p1 p2 : Str) (c1 c2 : GranCaps μ γ)
    (_hpne : p1 ≠ p2)
    (h1 : packageNameOf rootPath rootPackageName p1 = nm)
    (h2 : packageNameOf rootPath rootPackageName p2 = nm) :
    ∃ mods globs,
      createGranularPolicy leM leG [(p1, c1), (p2, c2)] rootPath rootPackageName =
        [(nm, { modules := mods, globals := globs })] ∧
      (∀ v, v ∈ mods ↔ v ∈ c1.modules ∨ v ∈ c2.modules) ∧ mods.Nodup ∧
        mods.Pairwise (fun a b => leM a b = true) ∧
      (∀ v, v ∈ globs ↔ v ∈ c1.globals ∨ v ∈ c2.globals) ∧ globs.Nodup ∧
        globs.Pairwise (fun a b => leG a b = true) := by
  have hstep : createGranularPolicy leM leG [(p1, c1), (p2, c2)] rootPath rootPackageName =
      [(nm,
        { modules := (setUnion (listToSet (c1.modules.mergeSort leM)) c2.modules).mergeSort leM,
          globals :=
            (setUnion (listToSet (c1.globals.mergeSort leG)) c2.globals).mergeSort leG })] := by
    rw [createGranularPolicy, createGranularPolicyGo_cons, h1]
    simp only [alHas, alGet, Option.isSome_none, Bool.false_eq_true, if_false]
    rw [createGranularPolicyGo_cons, h2]
    simp only [alSet, alHas, alGet, if_pos rfl, Option.isSome_some, if_true]
    rfl
  refine ⟨_, _, hstep, ?_, ?_, ?_, ?_, ?_, ?_⟩
  · intro v
    rw [(List.mergeSort_perm _ leM).mem_iff, mem_setUnion, mem_listToSet,
      (List.mergeSort_perm _ leM).mem_iff]
  · exact (List.mergeSort_perm _ leM).nodup_iff.mpr (nodup_setUnion _ _)
  · exact List.sorted_mergeSort hMtrans hMtotal _
  · intro v
    rw [(List.mergeSort_perm _ leG).mem_iff, mem_setUnion, mem_listToSet,
      (List.mergeSort_perm _ leG).mem_iff]
  · exact (List.mergeSort_perm _ leG).nodup_iff.mpr (nodup_setUnion _ _)
  · exact List.sorted_mergeSort hGtrans hGtotal _

/-- Transitivity of the string comparator. -/
theorem strLe_trans : ∀ a b c : Str, strLe a b = true → strLe b c = true → strLe a c = true := by
  intro a b c hab hbc
  simp only [strLe, decide_eq_true_eq] at hab hbc ⊢
  exact le_trans hab hbc

/-- Totality of the string comparator. -/
theorem strLe_total : ∀ a b : Str, (strLe a b || strLe b a) = true := by
  intro a b
  simp only [strLe, Bool.or_eq_true, decide_eq_true_eq]
  exact le_total a b

/-- Transitivity of the stringified-value comparator. -/
theorem jsValLe_trans : ∀ a b c : JSVal,
    jsValLe a b = true → jsValLe b c = true → jsValLe a c = true := by
  intro a b c hab hbc
  exact strLe_trans _ _ _ hab hbc

/-- Totality of the stringified-value comparator. -/
theorem jsValLe_total : ∀ a b : JSVal, (jsValLe a b || jsValLe b a) = true := by
  intro a b
  exact strLe_total _ _

/-- Witness for C7: two installed copies of package `x` produce one
entry holding the sorted union of both copies' sets. -/
theorem duplicatePackageSingleUnionEntry_witness :
    ∃ mods globs,
      createGranularPolicy strLe strLe
        [(strLit ("/r/node_modules/x"),
          { modules := [strLit ("m2")], globals := [strLit ("g1")] }),
         (strLit ("/r/node_modules/a/node_modules/x"),
          { modules := [strLit ("m1")], globals := [strLit ("g1"), strLit ("g2")] })]
        (strLit ("/r")) (strLit ("root-pkg")) =
        [(strLit ("x"), { modules := mods, globals := globs })] ∧
      (∀ v, v ∈ mods ↔ v ∈ [strLit ("m2")] ∨ v ∈ [strLit ("m1")]) ∧ mods.Nodup ∧
        mods.Pairwise (fun a b => strLe a b = true) ∧
      (∀ v, v ∈ globs ↔ v ∈ [strLit ("g1")] ∨ v ∈ [strLit ("g1"), strLit ("g2")]) ∧
        globs.Nodup ∧ globs.Pairwise (fun a b => strLe a b = true) :=
  duplicatePackageSingleUnionEntry strLe strLe strLe_trans strLe_total strLe_trans strLe_total
    (strLit ("/r")) (strLit ("root-pkg")) (strLit ("x"))
    (strLit ("/r/node_modules/x")) (strLit ("/r/node_modules/a/node_modules/x"))
    { modules := [strLit ("m2")], globals := [strLit ("g1")] }
    { modules := [strLit ("m1")], globals := [strLit ("g1"), strLit ("g2")] }
    (by decide)
    (by simp [packageNameOf, splitOnSeq, splitOnSeqGo, strLit])
    (by simp [packageNameOf, splitOnSeq, splitOnSeqGo, strLit])

/-- C8 counterexample: swapping the enumeration order of two packages
swaps the key order of the produced policy object, so the serialization
is not invariant under permutation of the package enumeration. -/
theorem policyKeyOrderFollowsEnumeration :
    createPolicy
      { capabilitiesCoarse :=
          [(strLit ("/r/node_modules/a"), { modules := [], globals := [] }),
           (strLit ("/r/node_modules/b"), { modules := [], globals := [] })],
        capabilitiesFine := [] }
      (strLit ("/r")) (strLit ("rp")) (some true) ≠
    createPolicy
      { capabilitiesCoarse :=
          [(strLit ("/r/node_modules/b"), { modules := [], globals := [] }),
           (strLit ("/r/node_modules/a"), { modules := [], globals := [] })],
        capabilitiesFine := [] }
      (strLit ("/r")) (strLit ("rp")) (some true) := by
  have e1 : createPolicy
      { capabilitiesCoarse :=
          [(strLit ("/r/node_modules/a"), { modules := [], globals := [] }),
           (strLit ("/r/node_modules/b"), { modules := [], globals := [] })],
        capabilitiesFine := [] }
      (strLit ("/r")) (strLit ("rp")) (some true) =
      { memberAccessTracing := true,
        policyCoarse := [(strLit ("a"), { modules := [], globals := [] }),
                         (strLit ("b"), { modules := [], globals := [] })],
        policyFine := [] } := by
    simp [createPolicy, createGranularPolicy, createGranularPolicyGo, splitOnSeq,
      splitOnSeqGo, alHas, alGet, alSet, strLit]
  have e2 : createPolicy
      { capabilitiesCoarse :=
          [(strLit ("/r/node_modules/b"), { modules := [], globals := [] }),
           (strLit ("/r/node_modules/a"), { modules := [], globals := [] })],
        capabilitiesFine := [] }
      (strLit ("/r")) (strLit ("rp")) (some true) =
      { memberAccessTracing := true,
        policyCoarse := [(strLit ("b"), { modules := [], globals := [] }),
                         (strLit ("a"), { modules := [], globals := [] })],
        policyFine := [] } := by
    simp [createPolicy, createGranularPolicy, createGranularPolicyGo, splitOnSeq,
      splitOnSeqGo, alHas, alGet, alSet, strLit]
  rw [e1, e2]
  decide

/-- Two duplicate-free lists with the same membership sort to the same
list under a transitive, total, antisymmetric comparator. -/
theorem mergeSort_setLike_eq [DecidableEq α] (le : α → α → Bool)
    (htrans : ∀ a b c : α, le a b = true → le b c = true → le a c = true)
    (htotal : ∀ a b : α, (le a b || le b a) = true)
    (hanti : ∀ a b : α, le a b = true → le b a = true → a = b)
    (l1 l2 : List α) (h1 : l1.Nodup) (h2 : l2.Nodup) (hm : ∀ v, v ∈ l1 ↔ v ∈ l2) :
    l1.mergeSort le = l2.mergeSort le := by
  haveI : IsAntisymm α (fun a b => le a b = true) := ⟨hanti⟩
  apply List.eq_of_perm_of_sorted (r := fun a b => le a b = true)
  · refine ((List.mergeSort_perm l1 le).trans ?_).trans (List.mergeSort_perm l2 le).symm
    rw [List.perm_ext_iff_of_nodup h1 h2]
    exact hm
  · exact List.sorted_mergeSort htrans htotal l1
  · exact List.sorted_mergeSort htrans htotal l2

/-- Capability records that agree up to the enumeration order of the
underlying file sets: same package path, duplicate-free capability lists
with the same membership. -/
def SameCaps {μ γ : Type} [DecidableEq μ] [DecidableEq γ]
    (e1 e2 : Str × GranCaps μ γ) : Prop :=
  e1.1 = e2.1 ∧
  e1.2.modules.Nodup ∧ e2.2.modules.Nodup ∧ (∀ v, v ∈ e1.2.modules ↔ v ∈ e2.2.modules) ∧
  e1.2.globals.Nodup ∧ e2.2.globals.Nodup ∧ (∀ v, v ∈ e1.2.globals ↔ v ∈ e2.2.globals)

/-- The policy fold sends `SameCaps`-related capability lists to the same
policy. -/
theorem createGranularPolicyGo_sameCaps {μ γ : Type} [DecidableEq μ] [DecidableEq γ]
    (leM : μ → μ → Bool) (leG : γ → γ → Bool)
    (hMtrans : ∀ a b c : μ, leM a b = true → leM b c = true → leM a c = true)
    (hMtotal : ∀ a b : μ, (leM a b || leM b a) = true)
    (hManti : ∀ a b : μ, leM a b = true → leM b a = true → a = b)
    (hGtrans : ∀ a b c : γ, leG a b = true → leG b c = true → leG a c = true)
    (hGtotal : ∀ a b : γ, (leG a b || leG b a) = true)
    (hGanti : ∀ a b : γ, leG a b = true → leG b a = true → a = b)
    (rootPath rootPackageName : Str) :
    ∀ (caps1 caps2 policy : List (Str × GranCaps μ γ)),
      List.Forall₂ SameCaps caps1 caps2 →
      createGranularPolicyGo leM leG rootPath rootPackageName caps1 policy =
      createGranularPolicyGo leM leG rootPath rootPackageName caps2 policy := by
  intro caps1
  induction caps1 with
  | nil =>
    intro caps2 policy h
    cases h
    rfl
  | cons e1 rest1 ih =>
    intro caps2 policy h
    cases h with
    | cons he hrest =>
      rename_i e2 rest2
      obtain ⟨p1, c1⟩ := e1
      obtain ⟨p2, c2⟩ := e2
      obtain ⟨hkey, hm1, hm2, hmm, hg1, hg2, hgm⟩ := he
      simp only at hkey hmm hgm hm1 hm2 hg1 hg2
      subst hkey
      rw [createGranularPolicyGo_cons, createGranularPolicyGo_cons]
      cases halHas : alHas policy (packageNameOf rootPath rootPackageName p1) with
      | true =>
        simp only [if_true]
        cases halGet : alGet policy (packageNameOf rootPath rootPackageName p1) with
        | some prev =>
          dsimp only
          have hmods : (setUnion (listToSet prev.modules) c1.modules).mergeSort leM =
              (setUnion (listToSet prev.modules) c2.modules).mergeSort leM := by
            apply mergeSort_setLike_eq leM hMtrans hMtotal hManti _ _
              (nodup_setUnion _ _) (nodup_setUnion _ _)
            intro v
            rw [mem_setUnion, mem_setUnion, hmm v]
          have hglobs : (setUnion (listToSet prev.globals) c1.globals).mergeSort leG =
              (setUnion (listToSet prev.globals) c2.globals).mergeSort leG := by
            apply mergeSort_setLike_eq leG hGtrans hGtotal hGanti _ _
              (nodup_setUnion _ _) (nodup_setUnion _ _)
            intro v
            rw [mem_setUnion, mem_setUnion, hgm v]
          rw [hmods, hglobs]
          exact ih rest2 _ hrest
        | none =>
          dsimp only
          exact ih rest2 _ hrest
      | false =>
        simp only [Bool.false_eq_true, if_false]
        have hmods : c1.modules.mergeSort leM = c2.modules.mergeSort leM :=
          mergeSort_setLike_eq leM hMtrans hMtotal hManti _ _ hm1 hm2 hmm
        have hglobs : c1.globals.mergeSort leG = c2.globals.mergeSort leG :=
          mergeSort_setLike_eq leG hGtrans hGtotal hGanti _ _ hg1 hg2 hgm
        rw [hmods, hglobs]
        exact ih rest2 _ hrest

/-- C8 amended: the policy is deterministic for a fixed package
enumeration order — capability lists that pair the same package paths in
the same order with duplicate-free capability sets of the same
membership (as produced by shuffled file enumerations) give identical
granular policies under any transitive, total, antisymmetric comparator;
the counterexample shows the entry order still follows the package
enumeration order. -/
theorem createGranularPolicySameSetsDeterministic {μ γ : Type} [DecidableEq μ] [DecidableEq γ]
    (leM : μ → μ → Bool) (leG : γ → γ → Bool)
    (hMtrans : ∀ a b c : μ, leM a b = true → leM b c = true → leM a c = true)
    (hMtotal : ∀ a b : μ, (leM a b || leM b a) = true)
    (hManti : ∀ a b : μ, leM a b = true → leM b a = true → a = b)
    (hGtrans : ∀ a b c : γ, leG a b = true → leG b c = true → leG a c = true)
    (hGtotal : ∀ a b : γ, (leG a b || leG b a) = true)
    (hGanti : ∀ a b : γ, leG a b = true → leG b a = true → a = b)
    (caps1 caps2 : List (Str × GranCaps μ γ)) (rootPath rootPackageName : Str)
    (hsame : List.Forall₂ SameCaps caps1 caps2) :
    createGranularPolicy leM leG caps1 rootPath rootPackageName =
    createGranularPolicy leM leG caps2 rootPath rootPackageName :=
  createGranularPolicyGo_sameCaps leM leG hMtrans hMtotal hManti hGtrans hGtotal hGanti
    rootPath rootPackageName caps1 caps2 [] hsame

/-- Antisymmetry of the string comparator. -/
theorem strLe_antisymm : ∀ a b : Str, strLe a b = true → strLe b a = true → a = b := by
  intro a b hab hba
  simp only [strLe, decide_eq_true_eq] at hab hba
  exact le_antisymm hab hba

/-- Witness for the amended C8 theorem: one package whose capability
lists arrive in two different file-enumeration orders produces the same
policy. -/
theorem createGranularPolicySameSetsDeterministic_witness :
    createGranularPolicy strLe strLe
      [(strLit ("/r/node_modules/x"),
        { modules := [strLit ("m2"), strLit ("m1")], globals := [strLit ("g2"), strLit ("g1")] })]
      (strLit ("/r")) (strLit ("rp")) =
    createGranularPolicy strLe strLe
      [(strLit ("/r/node_modules/x"),
        { modules := [strLit ("m1"), strLit ("m2")], globals := [strLit ("g1"), strLit ("g2")] })]
      (strLit ("/r")) (strLit ("rp")) :=
  createGranularPolicySameSetsDeterministic strLe strLe
    strLe_trans strLe_total strLe_antisymm strLe_trans strLe_total strLe_antisymm
    [(strLit ("/r/node_modules/x"),
      { modules := [strLit ("m2"), strLit ("m1")], globals := [strLit ("g2"), strLit ("g1")] })]
    [(strLit ("/r/node_modules/x"),
      { modules := [strLit ("m1"), strLit ("m2")], globals := [strLit ("g1"), strLit ("g2")] })]
    (strLit ("/r")) (strLit ("rp"))
    (List.Forall₂.cons
      (by
        refine ⟨rfl, by decide, by decide, ?_, by decide, by decide, ?_⟩
        · intro v
          simp only [List.mem_cons, List.not_mem_nil, or_false]
          tauto
        · intro v
          simp only [List.mem_cons, List.not_mem_nil, or_false]
          tauto)
      List.Forall₂.nil)
